import Mathlib

/-! min-matrix: a shallow embedding of `Matrix.h`

The C++ class template `Matrix<T, _CapacityIncrement>` owns a heap buffer `pData`
that stores the elements row-major, together with the row count, the column
count and the capacity.  The embedding keeps this representation:

* the buffer is a `List T` whose length is the number of allocated elements;
  a read or write outside the buffer (undefined behaviour in C++) is the
  failure `Err.OutOfBuffer`;
* a failed `assert` is a failure tagged with the condition it checks;
* `size_t` values are natural numbers.  Sizes are assumed to stay far below
  `2^64`, so `+` and `*` never wrap; every subtraction that could wrap in
  unsigned arithmetic is commented where it occurs.  The spans of `Block`, which a
  caller may choose as large as `2^64 - 1`, are added and multiplied modulo `2^64`;
* a reference `T&` returned by `ElemAt` is the offset of the element in the buffer;
* `for` loops are the combinators `forUp` and `forDown`; loops that `break`
  are written out as recursive functions;
* memory obtained by `new T[n]` without an initialiser is indeterminate; its
  content is a parameter `uninit`;
* the member function `RowSplit` is not embedded: its `BELOW` branch declares the result
  as `Matrix<T> r(this->uRow - n + 1, this, uCol)` (line 1008), a call that matches no
  constructor, so the function cannot be instantiated, for either direction.
-/

/-- Matrices in the sense of linear algebra (Mathlib), as opposed to the class under study. -/
abbrev MathMatrix (m n : Type) (α : Type) : Type := Matrix m n α

namespace MinMatrix

/-- Failure conditions of the library. -/
inductive Err where
  | IndexOutOfRange
  | DimensionMismatch
  | SingularMatrix
  | InvalidScaleFactor
  | NonSquareOperand
  | OutOfBuffer
  | InvalidDirection
  | OutOfFuel
  | AllocationFailure
  deriving DecidableEq, Repr

instance instDecidableEqExcept {ε α : Type} [DecidableEq ε] [DecidableEq α] :
    DecidableEq (Except ε α) := fun a b =>
  match a, b with
  | .ok x, .ok y => if h : x = y then isTrue (by rw [h]) else isFalse (fun e => h (by cases e; rfl))
  | .error x, .error y =>
    if h : x = y then isTrue (by rw [h]) else isFalse (fun e => h (by cases e; rfl))
  | .ok _, .error _ => isFalse (fun e => by cases e)
  | .error _, .ok _ => isFalse (fun e => by cases e)

/-- The class `Matrix<T>`: `uRow`, `uCol`, the buffer `pData` and `uCapacity`. -/
structure Matrix (T : Type) where
  uRow : Nat
  uCol : Nat
  pData : List T
  uCapacity : Nat
  deriving DecidableEq, Repr

section Buffer

variable {T : Type}

/-- Read `buf[i]`. -/
def load (buf : List T) (i : Nat) : Except Err T :=
  match buf[i]? with
  | some v => .ok v
  | none => .error Err.OutOfBuffer

/-- Write `buf[i] = v`. -/
def store (buf : List T) (i : Nat) (v : T) : Except Err (List T) :=
  if i < buf.length then .ok (buf.set i v) else .error Err.OutOfBuffer

/-- The loop `for (i = lo; i < lo + cnt; ++i) s = body i s`. -/
def forUp {σ : Type} (body : Nat → σ → Except Err σ) : Nat → Nat → σ → Except Err σ
  | _, 0, s => .ok s
  | lo, cnt + 1, s => body lo s >>= fun s1 => forUp body (lo + 1) cnt s1

/-- The loop `for (i = n; i > 0; --i) s = body i s`. -/
def forDown {σ : Type} (body : Nat → σ → Except Err σ) : Nat → σ → Except Err σ
  | 0, s => .ok s
  | n + 1, s => body (n + 1) s >>= fun s1 => forDown body n s1

/-- The call `memcpy_s(dst + dOff, _, src + sOff, count * sizeof(T))`. -/
def memcpy_s (dst : List T) (dOff : Nat) (src : List T) (sOff : Nat) (count : Nat) :
    Except Err (List T) :=
  forUp (fun i buf => load src (sOff + i) >>= fun v => store buf (dOff + i) v) 0 count dst

end Buffer

namespace Matrix

variable {T : Type}

/-- The constant `uCapacityIncrement`, from the template argument `_CapacityIncrement`. -/
def uCapacityIncrement (_CapacityIncrement : Nat) : Nat :=
  if _CapacityIncrement > 1 then _CapacityIncrement else 2

/-- The default template argument of `_CapacityIncrement`, the one of `Matrix<T>`. -/
def defaultIncrement : Nat := 2

/-- The constructor `Matrix(size_t row, size_t col)`: a zero-initialised buffer. -/
def ctor [Zero T] (ci : Nat) (row col : Nat) : Matrix T :=
  { uRow := row
    uCol := col
    pData := List.replicate (uCapacityIncrement ci * row * col) 0
    uCapacity := uCapacityIncrement ci * row * col }

/-- The constructor `Matrix(size_t row, size_t col, const T &value)`. -/
def ctorFill [Zero T] (ci : Nat) (row col : Nat) (value : T) : Except Err (Matrix T) :=
  let m : Matrix T := ctor ci row col
  forUp (fun i buf => store buf i value) 0 (row * col) m.pData >>= fun buf =>
  .ok { m with pData := buf }

/-- The constructor `Matrix(size_t row, size_t col, const T *data, size_t dataLen)`. -/
def ctorData [Zero T] (ci : Nat) (row col : Nat) (data : List T) (dataLen : Nat) :
    Except Err (Matrix T) :=
  let m : Matrix T := ctor ci row col
  let elemCount := row * col
  memcpy_s m.pData 0 data 0 (if dataLen > elemCount then elemCount else dataLen) >>= fun buf =>
  .ok { m with pData := buf }

/-- The copy constructor `Matrix(const Matrix &mat)`. -/
def ctorCopy [Zero T] (ci : Nat) (mat : Matrix T) : Except Err (Matrix T) :=
  ctorData ci mat.uRow mat.uCol mat.pData (mat.uRow * mat.uCol)

/-- The method `Expand()`: the fresh buffer holds `uninit` until the old content is copied. -/
def Expand (ci : Nat) (uninit : Nat → T) (m : Matrix T) : Except Err (Matrix T) :=
  let fresh := (List.range (uCapacityIncrement ci * m.uCapacity)).map uninit
  memcpy_s fresh 0 m.pData 0 m.uCapacity >>= fun buf =>
  .ok { m with pData := buf, uCapacity := m.uCapacity * uCapacityIncrement ci }

/-- The unchecked accessor `ElementAt(row, col)`: the offset `(row - 1) * uCol + col - 1`. -/
def ElementAt (m : Matrix T) (row col : Nat) : Nat :=
  (row - 1) * m.uCol + col - 1

/-- The helper `IndexAt(row, col)`. -/
def IndexAt (m : Matrix T) (row col : Nat) : Nat :=
  (row - 1) * m.uCol + col - 1

/-- The checked accessor `ElemAt(row, col)` (1-based): the offset of the element. -/
def ElemAt (m : Matrix T) (row col : Nat) : Except Err Nat :=
  if row > 0 ∧ col > 0 ∧ row ≤ m.uRow ∧ col ≤ m.uCol then
    .ok ((row - 1) * m.uCol + col - 1)
  else .error Err.IndexOutOfRange

/-- The checked accessor `ElemAt0(row, col)` (0-based): the offset of the element. -/
def ElemAt0 (m : Matrix T) (row col : Nat) : Except Err Nat :=
  if row < m.uRow ∧ col < m.uCol then .ok (row * m.uCol + col)
  else .error Err.IndexOutOfRange

/-- The value read through `ElemAt(row, col)`. -/
def get (m : Matrix T) (row col : Nat) : Except Err T :=
  m.ElemAt row col >>= fun p => load m.pData p

/-- The assignment `ElemAt(row, col) = v`. -/
def set (m : Matrix T) (row col : Nat) (v : T) : Except Err (Matrix T) :=
  m.ElemAt row col >>= fun p => store m.pData p v >>= fun buf => .ok { m with pData := buf }

/-- The method `InsertRow(pos, pNewRowData, dataSize)`; `startAt0` tells whether
`MATRIX_INDEX_START_AT_0` is defined. -/
def InsertRow [Zero T] (ci : Nat) (startAt0 : Bool) (uninit : Nat → T) (m : Matrix T)
    (pos : Nat) (pNewRowData : List T) (dataSize : Nat) : Except Err (Matrix T) :=
  let pos := if startAt0 then pos + 1 else pos
  if pos ≤ m.uRow + 1 ∧ pos ≠ 0 then
    let n := if m.uCol < dataSize then m.uCol else dataSize
    (if (m.uRow + 1) * m.uCol < m.uCapacity then Expand ci uninit m else .ok m) >>= fun m1 =>
    m1.ElemAt m1.uRow m1.uCol >>= fun pLastElem =>
    -- `1 + (uRow * uCol - 1) - (pos - 1) * uCol` does not wrap: `pos ≤ uRow + 1`
    let CopyLen := 1 + m1.IndexAt m1.uRow m1.uCol - m1.IndexAt pos 1
    forUp (fun i buf => load buf (pLastElem - i) >>= fun v =>
        store buf (pLastElem - i + m1.uCol) v) 0 CopyLen m1.pData >>= fun buf1 =>
    let m2 : Matrix T := { m1 with pData := buf1, uRow := m1.uRow + 1 }
    m2.ElemAt pos 1 >>= fun pNewRowHead =>
    forUp (fun i buf => load pNewRowData i >>= fun v =>
        store buf (pNewRowHead + i) v) 0 n m2.pData >>= fun buf2 =>
    forUp (fun i buf => store buf (pNewRowHead + i) 0) n (m2.uCol - n) buf2 >>= fun buf3 =>
    .ok { m2 with pData := buf3 }
  else .error Err.IndexOutOfRange

/-- The method `InsertColumn(pos, pNewColData, dataSize)`. -/
def InsertColumn [Zero T] (ci : Nat) (startAt0 : Bool) (uninit : Nat → T) (m : Matrix T)
    (pos : Nat) (pNewColData : List T) (dataSize : Nat) : Except Err (Matrix T) :=
  let pos := if startAt0 then pos + 1 else pos
  if pos ≤ m.uCol + 1 ∧ pos ≠ 0 then
    let n := if m.uRow < dataSize then m.uRow else dataSize
    (if m.uRow * (m.uCol + 1) < m.uCapacity then Expand ci uninit m else .ok m) >>= fun m1 =>
    m1.ElemAt m1.uRow m1.uCol >>= fun pLastElem =>
    -- unsigned `uCol - pos + 1` is `uCol + 1 - pos`, since `pos ≤ uCol + 1` was asserted
    forUp (fun i buf => load buf (pLastElem - i) >>= fun v =>
        store buf (pLastElem - i + m1.uRow) v) 0 (m1.uCol + 1 - pos) m1.pData >>= fun buf1 =>
    -- `Shift` runs from `uRow - 1` down to `1`; `uRow ≥ 1` after the `ElemAt` above
    forDown (fun Shift buf =>
        ElemAt { m1 with pData := buf } (Shift + 1) (pos - 1) >>= fun pSectionLast =>
        forUp (fun i b => load b (pSectionLast - i) >>= fun v =>
          store b (pSectionLast - i + Shift) v) 0 m1.uCol buf) (m1.uRow - 1) buf1 >>= fun buf2 =>
    let m2 : Matrix T := { m1 with pData := buf2, uCol := m1.uCol + 1 }
    m2.ElemAt 1 pos >>= fun pBlankPos =>
    forUp (fun i buf => load pNewColData i >>= fun v =>
        store buf (pBlankPos + i * m2.uCol) v) 0 n m2.pData >>= fun buf3 =>
    forUp (fun i buf => store buf (pBlankPos + i * m2.uCol) 0) n (m2.uRow - n) buf3 >>= fun buf4 =>
    .ok { m2 with pData := buf4 }
  else .error Err.IndexOutOfRange

/-- The method `AddRow(pNewRowData, dataSize)`. -/
def AddRow [Zero T] (ci : Nat) (startAt0 : Bool) (uninit : Nat → T) (m : Matrix T)
    (pNewRowData : List T) (dataSize : Nat) : Except Err (Matrix T) :=
  if startAt0 then m.InsertRow ci startAt0 uninit m.uRow pNewRowData dataSize
  else m.InsertRow ci startAt0 uninit (m.uRow + 1) pNewRowData dataSize

/-- The method `AddColumn(pNewColData, dataSize)`. -/
def AddColumn [Zero T] (ci : Nat) (startAt0 : Bool) (uninit : Nat → T) (m : Matrix T)
    (pNewColData : List T) (dataSize : Nat) : Except Err (Matrix T) :=
  if startAt0 then m.InsertColumn ci startAt0 uninit m.uCol pNewColData dataSize
  else m.InsertColumn ci startAt0 uninit (m.uCol + 1) pNewColData dataSize

/-- The enumeration `Direction`. -/
inductive Direction where
  | LEFT
  | RIGHT
  | ABOVE
  | BELOW
  | TOPLEFT
  | TOPRIGHT
  | BOTLEFT
  | BOTRIGHT
  deriving DecidableEq, Repr

/-- Unsigned subtraction `a - b` of `size_t` values, wrapping modulo `2^64`. -/
def usub (a b : Nat) : Nat :=
  if b ≤ a then a - b else a + 2 ^ 64 - b

/-- The method `Block(rowStart, colStart, rowSpan, colSpan)`.  Without
`MATRIX_INDEX_START_AT_0` the two start indices are decremented first, in unsigned
arithmetic.  The spans are `size_t` arguments that may be as large as `2^64 - 1`, so the
sums of the two clamping tests and the capacity of the result are computed modulo `2^64`: a
span of at least `2^64 - rowStart` is not clamped, and the constructor of the result is then
asked for `uCapacityIncrement * rowSpan * colSpan` elements modulo `2^64`.  An array of
`2^63` elements or more cannot be allocated (it exceeds `PTRDIFF_MAX` bytes), and
`new T[n]` throws; every smaller allocation is taken to succeed, as everywhere else. -/
def Block [Zero T] (startAt0 : Bool) (this : Matrix T) (rowStart colStart rowSpan colSpan : Nat) :
    Except Err (Matrix T) :=
  let rowStart := if startAt0 then rowStart else usub rowStart 1
  let colStart := if startAt0 then colStart else usub colStart 1
  if rowStart > 0 ∧ rowStart ≤ this.uRow ∧ colStart > 0 ∧ colStart ≤ this.uCol then
    -- `uRow - rowStart` and `uCol - colStart` do not wrap after the assertion
    let rowSpan :=
      if (rowSpan + rowStart) % 2 ^ 64 > this.uRow then this.uRow - rowStart else rowSpan
    let colSpan :=
      if (colSpan + colStart) % 2 ^ 64 > this.uCol then this.uCol - colStart else colSpan
    -- the constructor call `Matrix<T> blockMat(rowSpan, colSpan)`
    let uCap := (uCapacityIncrement defaultIncrement * rowSpan * colSpan) % 2 ^ 64
    if uCap < 2 ^ 63 then
      let blockMat : Matrix T :=
        { uRow := rowSpan, uCol := colSpan, pData := List.replicate uCap 0, uCapacity := uCap }
      -- `i + rowStart` and `j + colStart` do not wrap: the loops stop at the first index
      -- that `this->ElemAt0` rejects
      forUp (fun i bm1 =>
        forUp (fun j (bm2 : Matrix T) =>
          this.ElemAt0 (i + rowStart) (j + colStart) >>= fun p =>
          load this.pData p >>= fun v =>
          bm2.ElemAt0 i j >>= fun q =>
          store bm2.pData q v >>= fun buf => .ok { bm2 with pData := buf }) 0 colSpan bm1)
        0 rowSpan blockMat
    else .error Err.AllocationFailure
  else .error Err.IndexOutOfRange

/-- The static method `Zeroes(size)`. -/
def Zeroes [Zero T] (size : Nat) : Except Err (Matrix T) :=
  ctorFill defaultIncrement size size 0

/-- The static method `Identity(size)`. -/
def Identity [Zero T] [One T] (size : Nat) : Except Err (Matrix T) :=
  Zeroes size >>= fun mat =>
  forUp (fun i (m : Matrix T) => m.set i i 1) 1 size mat

/-- One row of the `LEFT` case of `CombineWith`: copy a row of `mat`, then a row of `this`.
The state is the result buffer and the pointers `pRowHead`, `pSubRowHead1`, `pSubRowHead2`. -/
def combineLeftRow (this mat : Matrix T) (st : List T × Nat × Nat × Nat) :
    Except Err (List T × Nat × Nat × Nat) :=
  let (buf, pRowHead, pSubRowHead1, pSubRowHead2) := st
  forUp (fun j b => load mat.pData (pSubRowHead1 + j) >>= fun v =>
      store b (pRowHead + j) v) 0 mat.uCol buf >>= fun buf1 =>
  let pRowHead1 := pRowHead + mat.uCol
  forUp (fun j b => load this.pData (pSubRowHead2 + j) >>= fun v =>
      store b (pRowHead1 + j) v) 0 this.uCol buf1 >>= fun buf2 =>
  .ok (buf2, pRowHead1 + this.uCol, pSubRowHead1 + mat.uCol, pSubRowHead2 + this.uCol)

/-- The `LEFT` case of `CombineWith`. -/
def combineLeft [Zero T] (this mat : Matrix T) : Except Err (Matrix T) :=
  if this.uRow = mat.uRow then
    let r : Matrix T := ctor defaultIncrement this.uRow (this.uCol + mat.uCol)
    forUp (fun _ st => combineLeftRow this mat st) 1 this.uRow (r.pData, 0, 0, 0) >>= fun st =>
    .ok { r with pData := st.1 }
  else .error Err.DimensionMismatch

/-- The `ABOVE` case of `CombineWith`. -/
def combineAbove [Zero T] (this mat : Matrix T) : Except Err (Matrix T) :=
  if this.uCol = mat.uCol then
    let r : Matrix T := ctor defaultIncrement (this.uRow + mat.uRow) this.uCol
    forUp (fun i b => load mat.pData i >>= fun v => store b i v)
      0 (mat.uRow * mat.uCol) r.pData >>= fun buf1 =>
    let pHead := mat.uRow * mat.uCol
    forUp (fun i b => load this.pData i >>= fun v => store b (pHead + i) v)
      0 (this.uRow * this.uCol) buf1 >>= fun buf2 =>
    .ok { r with pData := buf2 }
  else .error Err.DimensionMismatch

/-- The two block-copy loops shared by the `TOPLEFT` and `TOPRIGHT` cases of `CombineWith`;
`pHead0` is the initial value of `pHead`. -/
def combineCorner [Zero T] (this mat : Matrix T) (pHead0 : Nat) : Except Err (Matrix T) :=
  let r : Matrix T := ctor defaultIncrement (this.uRow + mat.uRow) (this.uCol + mat.uCol)
  forUp (fun _ (st : List T × Nat × Nat) =>
      forUp (fun j b => load mat.pData (st.2.2 + j) >>= fun v => store b (st.2.1 + j) v)
        0 mat.uCol st.1 >>= fun b1 =>
      .ok (b1, st.2.1 + r.uCol, st.2.2 + mat.uCol)) 1 mat.uRow (r.pData, pHead0, 0) >>= fun st1 =>
  let pHead := st1.2.1 + mat.uCol
  forUp (fun _ (st : List T × Nat × Nat) =>
      forUp (fun j b => load this.pData (st.2.2 + j) >>= fun v => store b (st.2.1 + j) v)
        0 this.uCol st.1 >>= fun b1 =>
      .ok (b1, st.2.1 + r.uCol, st.2.2 + this.uCol)) 1 this.uRow (st1.1, pHead, 0) >>= fun st2 =>
  .ok { r with pData := st2.1 }

/-- The method `CombineWith(mat, d)`. -/
def CombineWith [Zero T] (this mat : Matrix T) (d : Direction) : Except Err (Matrix T) :=
  match d with
  | .LEFT => combineLeft this mat
  | .RIGHT => combineLeft mat this
  | .ABOVE => combineAbove this mat
  | .BELOW => combineAbove mat this
  | .TOPLEFT => combineCorner this mat 0
  | .TOPRIGHT => combineCorner this mat this.uCol
  | .BOTLEFT => combineCorner mat this mat.uCol
  | .BOTRIGHT => combineCorner mat this 0

/-- The row loop shared by both cases of `ColumnSplit`: `n` elements are copied per row.
The state is the result buffer and the pointers `pSubRowHead`, `pRowHead`. -/
def columnSplitRows (this r : Matrix T) (n : Nat) (pRowHead0 : Nat) : Except Err (Matrix T) :=
  forUp (fun _ (st : List T × Nat × Nat) =>
      forUp (fun j b => load this.pData (st.2.2 + j) >>= fun v => store b (st.2.1 + j) v)
        0 n st.1 >>= fun b1 =>
      .ok (b1, st.2.1 + r.uCol, st.2.2 + this.uCol)) 1 this.uRow (r.pData, 0, pRowHead0) >>= fun st =>
  .ok { r with pData := st.1 }

/-- The method `ColumnSplit(SplitterColIndex, d)`. -/
def ColumnSplit [Zero T] (this : Matrix T) (SplitterColIndex : Nat) (d : Direction) :
    Except Err (Matrix T) :=
  let n := if SplitterColIndex ≤ this.uCol then SplitterColIndex else this.uCol
  match d with
  | .LEFT => columnSplitRows this (ctor defaultIncrement this.uRow n) n 0
  | .RIGHT =>
    -- `uCol - n + 1` does not wrap as `n ≤ uCol`; `pData + n - 1` is only read when `n ≥ 1`
    columnSplitRows this (ctor defaultIncrement this.uRow (this.uCol - n + 1)) n (n - 1)
  | _ => .error Err.InvalidDirection

/-- The static method `Varify_Homo(mat1, mat2)`: the two differences are computed in unsigned
arithmetic and tested against zero. -/
def Varify_Homo (mat1 mat2 : Matrix T) : Bool :=
  if usub mat1.uRow mat2.uRow ≠ 0 ∨ usub mat1.uCol mat2.uCol ≠ 0 then false else true

/-- The sum `operator+(const Matrix &mat)`. -/
def add [Zero T] [Add T] (this mat : Matrix T) : Except Err (Matrix T) :=
  if Varify_Homo this mat then
    let r : Matrix T := ctor defaultIncrement this.uRow this.uCol
    forUp (fun i b => load this.pData i >>= fun x => load mat.pData i >>= fun y =>
        store b i (x + y)) 0 (this.uRow * this.uCol) r.pData >>= fun buf =>
    .ok { r with pData := buf }
  else .error Err.DimensionMismatch

/-- The difference `operator-(const Matrix &mat)`. -/
def sub [Zero T] [Sub T] (this mat : Matrix T) : Except Err (Matrix T) :=
  if Varify_Homo this mat then
    let r : Matrix T := ctor defaultIncrement this.uRow this.uCol
    forUp (fun i b => load this.pData i >>= fun x => load mat.pData i >>= fun y =>
        store b i (x - y)) 0 (this.uRow * this.uCol) r.pData >>= fun buf =>
    .ok { r with pData := buf }
  else .error Err.DimensionMismatch

/-- The matrix product `operator*(const Matrix &mat)`. -/
def mul [Zero T] [Add T] [Mul T] (this mat : Matrix T) : Except Err (Matrix T) :=
  if this.uCol = mat.uRow then
    let r : Matrix T := ctor defaultIncrement this.uRow mat.uCol
    forUp (fun i r1 =>
      forUp (fun j r2 =>
        forUp (fun k (r3 : Matrix T) =>
          load this.pData (this.ElementAt i k) >>= fun a =>
          load mat.pData (mat.ElementAt k j) >>= fun b =>
          r3.get i j >>= fun old => r3.set i j (old + a * b)) 1 this.uCol r2) 1 r.uCol r1) 1 r.uRow r
  else .error Err.DimensionMismatch

/-- The elementary transformation `RowInterchange(RowIndex1, RowIndex2)`. -/
def RowInterchange (m : Matrix T) (RowIndex1 RowIndex2 : Nat) : Except Err (Matrix T) :=
  if RowIndex1 ≤ m.uRow ∧ RowIndex2 ≤ m.uRow then
    m.ElemAt RowIndex1 1 >>= fun pRow1Head =>
    m.ElemAt RowIndex2 1 >>= fun pRow2Head =>
    forUp (fun i b =>
        load b (pRow1Head + i) >>= fun tmp =>
        load b (pRow2Head + i) >>= fun v2 =>
        store b (pRow1Head + i) v2 >>= fun b1 =>
        store b1 (pRow2Head + i) tmp) 0 m.uCol m.pData >>= fun buf =>
    .ok { m with pData := buf }
  else .error Err.IndexOutOfRange

/-- The elementary transformation `RowScaling(RowIndex, k)`. -/
def RowScaling [Zero T] [Mul T] [DecidableEq T] (m : Matrix T) (RowIndex : Nat) (k : T) :
    Except Err (Matrix T) :=
  if RowIndex ≤ m.uRow then
    if k ≠ 0 then
      m.ElemAt RowIndex 1 >>= fun pRowHead =>
      forUp (fun i b => load b (pRowHead + i) >>= fun v =>
          store b (pRowHead + i) (v * k)) 0 m.uCol m.pData >>= fun buf =>
      .ok { m with pData := buf }
    else .error Err.InvalidScaleFactor
  else .error Err.IndexOutOfRange

/-- The elementary transformation `RowAddition(SrcRowIndex, k, TrgRowIndex)`. -/
def RowAddition [Add T] [Mul T] (m : Matrix T) (SrcRowIndex : Nat) (k : T) (TrgRowIndex : Nat) :
    Except Err (Matrix T) :=
  if SrcRowIndex ≤ m.uRow ∧ TrgRowIndex ≤ m.uRow then
    m.ElemAt SrcRowIndex 1 >>= fun pSrcRowHead =>
    m.ElemAt TrgRowIndex 1 >>= fun pTrgRowHead =>
    forUp (fun i b =>
        load b (pSrcRowHead + i) >>= fun s =>
        load b (pTrgRowHead + i) >>= fun t =>
        store b (pTrgRowHead + i) (t + k * s)) 0 m.uCol m.pData >>= fun buf =>
    .ok { m with pData := buf }
  else .error Err.IndexOutOfRange

/-- The method `Power(n)`; the assignment `r = r * (*this)` moves the product into `r`. -/
def Power [Zero T] [One T] [Add T] [Mul T] (this : Matrix T) (n : Nat) : Except Err (Matrix T) :=
  if this.uRow = this.uCol then
    forUp (fun i (r : Matrix T) => r.set i i 1) 1 this.uRow
      (ctor defaultIncrement this.uRow this.uCol) >>= fun r0 =>
    forUp (fun _ (r : Matrix T) => r.mul this) 0 n r0
  else .error Err.NonSquareOperand

/-- The method `Transpose()`. -/
def Transpose [Zero T] (this : Matrix T) : Except Err (Matrix T) :=
  let r : Matrix T := ctor defaultIncrement this.uCol this.uRow
  forUp (fun i r1 =>
    forUp (fun j (r2 : Matrix T) =>
      load this.pData (this.ElementAt j i) >>= fun v => r2.set i j v) 1 r.uCol r1) 1 r.uRow r

/-- The method `MinorOf(m, n)`; the state of the loops is the result buffer and `index`. -/
def MinorOf [Zero T] (this : Matrix T) (m n : Nat) : Except Err (Matrix T) :=
  if this.uRow = this.uCol then
    let r : Matrix T := ctor defaultIncrement (usub this.uRow 1) (usub this.uCol 1)
    forUp (fun i st1 =>
      forUp (fun j (st : List T × Nat) =>
        if i ≠ m ∧ j ≠ n then
          load this.pData (this.ElementAt i j) >>= fun v =>
          store st.1 st.2 v >>= fun b => .ok (b, st.2 + 1)
        else .ok st) 1 this.uCol st1) 1 this.uRow (r.pData, 0) >>= fun st =>
    .ok { r with pData := st.1 }
  else .error Err.NonSquareOperand

/-- The pivot search of `RowReduce`:
`while (NoneZeroIndex <= r.uRow && r.ElemAt(NoneZeroIndex, i) == T(0)) ++NoneZeroIndex;`. -/
def pivotSearch [Zero T] [DecidableEq T] (r : Matrix T) (i : Nat) : Nat → Nat → Except Err Nat
  | 0, NoneZeroIndex => if NoneZeroIndex ≤ r.uRow then .error Err.OutOfFuel else .ok NoneZeroIndex
  | fuel + 1, NoneZeroIndex =>
    if NoneZeroIndex ≤ r.uRow then
      r.get NoneZeroIndex i >>= fun v =>
      if v = 0 then pivotSearch r i fuel (NoneZeroIndex + 1) else .ok NoneZeroIndex
    else .ok NoneZeroIndex

/-- One iteration of the first loop of `RowReduce` (Gaussian elimination on column `i`). -/
def forwardStep [Field T] [DecidableEq T] (i : Nat) (r : Matrix T) : Except Err (Matrix T) :=
  pivotSearch r i (r.uRow + 1) i >>= fun NoneZeroIndex =>
  if NoneZeroIndex = r.uRow + 1 then .ok r
  else
    (if NoneZeroIndex ≠ i then r.RowInterchange NoneZeroIndex i else .ok r) >>= fun r1 =>
    r1.get i i >>= fun p =>
    r1.RowScaling i (1 / p) >>= fun r2 =>
    forUp (fun j (r3 : Matrix T) => r3.get j i >>= fun v => r3.RowAddition i (-v) j)
      (i + 1) (r2.uRow - i) r2

/-- One iteration of the second loop of `RowReduce` (elimination above the diagonal). -/
def backwardStep [Field T] [DecidableEq T] (i : Nat) (r : Matrix T) : Except Err (Matrix T) :=
  r.get i i >>= fun d =>
  if d = 0 then .ok r
  else forUp (fun j (r3 : Matrix T) => r3.get j i >>= fun v => r3.RowAddition i (-v) j)
      1 (i - 1) r

/-- The inner loop of the third loop of `RowReduce`: the final `j` and the matrix. -/
def reorderScan [Zero T] [DecidableEq T] (i : Nat) : Nat → Nat → Matrix T →
    Except Err (Nat × Matrix T)
  | 0, j, r => if j ≤ r.uRow then .error Err.OutOfFuel else .ok (j, r)
  | fuel + 1, j, r =>
    if j ≤ r.uRow then
      r.get j i >>= fun v =>
      if v ≠ 0 then r.RowInterchange i j >>= fun r1 => .ok (j, r1)
      else reorderScan i fuel (j + 1) r
    else .ok (j, r)

/-- The third loop of `RowReduce`, from row `i` on. -/
def reorderLoop [Zero T] [DecidableEq T] : Nat → Nat → Matrix T → Except Err (Matrix T)
  | 0, i, r => if i ≤ r.uRow then .error Err.OutOfFuel else .ok r
  | fuel + 1, i, r =>
    if i ≤ r.uRow then
      r.get i i >>= fun d =>
      if d ≠ 0 then reorderLoop fuel (i + 1) r
      else
        reorderScan i (r.uRow + 1) i r >>= fun jr =>
        if jr.1 = jr.2.uRow + 1 then .ok jr.2 else reorderLoop fuel (i + 1) jr.2
    else .ok r

/-- The method `RowReduce()`. -/
def RowReduce [Field T] [DecidableEq T] (this : Matrix T) : Except Err (Matrix T) :=
  ctorCopy defaultIncrement this >>= fun r =>
  forUp forwardStep 1 r.uRow r >>= fun r1 =>
  forDown backwardStep r1.uRow r1 >>= fun r2 =>
  reorderLoop (r2.uRow + 1) 1 r2

/-- The inner loop of `RankOfReducedMatrix`: the final value of `j`. -/
def rankScan [Zero T] [DecidableEq T] (m : Matrix T) (pRowHead : Nat) : Nat → Nat → Except Err Nat
  | 0, j => if j < m.uCol then .error Err.OutOfFuel else .ok j
  | fuel + 1, j =>
    if j < m.uCol then
      load m.pData (pRowHead + j) >>= fun v =>
      if v ≠ 0 then .ok j else rankScan m pRowHead fuel (j + 1)
    else .ok j

/-- The outer loop of `RankOfReducedMatrix`: the final value of `i`. -/
def rankLoop [Zero T] [DecidableEq T] (m : Matrix T) : Nat → Nat → Except Err Nat
  | 0, i => if i ≤ m.uRow then .error Err.OutOfFuel else .ok i
  | fuel + 1, i =>
    if i ≤ m.uRow then
      rankScan m (m.ElementAt i 1) (m.uCol + 1) (i - 1) >>= fun j =>
      if j = m.uCol then .ok i else rankLoop m fuel (i + 1)
    else .ok i

/-- The method `RankOfReducedMatrix()`. -/
def RankOfReducedMatrix [Zero T] [DecidableEq T] (m : Matrix T) : Except Err Nat :=
  rankLoop m (m.uRow + 1) 1 >>= fun i => .ok (i - 1)

/-- The method `Rank()`. -/
def Rank [Field T] [DecidableEq T] (this : Matrix T) : Except Err Nat :=
  this.RowReduce >>= fun reducedMat => reducedMat.RankOfReducedMatrix

/-- The method `Invertible()`. -/
def Invertible [Field T] [DecidableEq T] (this : Matrix T) : Except Err Bool :=
  if this.uRow ≠ this.uCol then .ok false
  else this.Rank >>= fun rk => if rk ≠ this.uRow then .ok false else .ok true

/-- The method `Inverse()`. -/
def Inverse [Field T] [DecidableEq T] (this : Matrix T) : Except Err (Matrix T) :=
  if this.uRow = this.uCol then
    forUp (fun i (E : Matrix T) => E.set i i 1) 1 this.uRow
      (ctor defaultIncrement this.uRow this.uRow) >>= fun E =>
    this.CombineWith E Direction.RIGHT >>= fun Combined =>
    Combined.RowReduce >>= fun ReducedCombinedMat =>
    ReducedCombinedMat.RankOfReducedMatrix >>= fun rk =>
    if rk = this.uRow then ReducedCombinedMat.ColumnSplit (this.uCol + 1) Direction.RIGHT
    else .error Err.SingularMatrix
  else .error Err.NonSquareOperand

end Matrix

/-- The class `Determinant<T>`: the owned matrix `pMat` and `size`. -/
structure Determinant (T : Type) where
  pMat : Matrix T
  size : Nat
  deriving DecidableEq, Repr

namespace Determinant

variable {T : Type}

/-- The constructor `Determinant(const Matrix<T> &mat)`. -/
def ofMatrix [Zero T] (mat : Matrix T) : Except Err (Determinant T) :=
  if mat.uRow = mat.uCol then
    Matrix.ctorCopy Matrix.defaultIncrement mat >>= fun p => .ok { pMat := p, size := mat.uRow }
  else .error Err.NonSquareOperand

/-- The recursion of `Value()`; the first argument bounds the depth of the recursion. -/
def valueRec [Ring T] : Nat → Determinant T → Except Err T
  | fuel, d =>
    if d.size = 1 then load d.pMat.pData 0
    else
      forUp (fun i (st : T × T) =>
          d.pMat.MinorOf 1 (i + 1) >>= fun minorMat =>
          ofMatrix minorMat >>= fun minorDet =>
          (match fuel with
            | 0 => .error Err.OutOfFuel
            | f + 1 => valueRec f minorDet) >>= fun v =>
          load d.pMat.pData i >>= fun a =>
          .ok (st.1 + st.2 * v * a, -st.2)) 0 d.size ((0 : T), (1 : T)) >>= fun st =>
      .ok st.1

/-- The method `Value()`: the recursion is at most `size` deep. -/
def Value [Ring T] (d : Determinant T) : Except Err T :=
  valueRec d.size d

end Determinant

/-! ## Observations used in the statements -/

/-- The value held at offset `i` of a buffer (`0` outside the buffer). -/
def val {T : Type} [Zero T] (buf : List T) (i : Nat) : T := buf.getD i 0

namespace Matrix

variable {T : Type}

/-- The element in row `i`, column `j` (1-based) of the row-major buffer. -/
def at1 [Zero T] (m : Matrix T) (i j : Nat) : T := val m.pData ((i - 1) * m.uCol + (j - 1))

/-- The matrix has `R` rows and `C` columns and its buffer holds the `R * C` live elements. -/
def Frame (m : Matrix T) (R C : Nat) : Prop :=
  m.uRow = R ∧ m.uCol = C ∧ R * C ≤ m.pData.length

/-- The live elements of a matrix as a matrix of linear algebra. -/
def toMat [Zero T] (m : Matrix T) (R C : Nat) : MathMatrix (Fin R) (Fin C) T :=
  fun a b => m.at1 (a.val + 1) (b.val + 1)

/-- Two matrices have the same shape and the same elements, as read through `ElemAt`. -/
def SameAs (m m' : Matrix T) : Prop :=
  m.uRow = m'.uRow ∧ m.uCol = m'.uCol ∧
    ∀ i j, 1 ≤ i → i ≤ m.uRow → 1 ≤ j → j ≤ m.uCol →
      ∃ v, m.get i j = .ok v ∧ m'.get i j = .ok v

end Matrix

/-! ## Auxiliary functions of the proofs -/

section Auxiliary

variable {T : Type}

/-- The reduction as the forward pass followed by the backward pass alone, without the
reordering pass.  It is not a method of the class: it is the reference that `RowReduce` is
compared with. -/
def Matrix.RowReduceWithoutReordering [Field T] [DecidableEq T] (this : Matrix T) :
    Except Err (Matrix T) :=
  Matrix.ctorCopy Matrix.defaultIncrement this >>= fun r =>
  forUp Matrix.forwardStep 1 r.uRow r >>= fun r1 =>
  forDown Matrix.backwardStep r1.uRow r1

/-- The partial sums accumulated by the innermost loop of the matrix product. -/
def dotUpTo [Semiring T] (A B : Matrix T) (i j n : Nat) : T :=
  ∑ x in Finset.range n, A.at1 i (x + 1) * B.at1 (x + 1) j

/-- The number of indices in `[1, k)` other than `x`. -/
def keptBefore (x k : Nat) : Nat := if x < k then k - 2 else k - 1

/-- The source index of the element that lands at 0-based position `a` once `x` is deleted. -/
def skipAt (x a : Nat) : Nat := if a + 1 < x then a + 1 else a + 2

/-- The minor of the live matrix obtained by deleting row 1 and column `k + 1`. -/
def minorMat [Zero T] (A : Matrix T) (W k : Nat) : MathMatrix (Fin W) (Fin W) T :=
  fun a b => A.at1 (skipAt 1 a.val) (skipAt (k + 1) b.val)

/-- The term of index `k` of the expansion along the first row. -/
def laplaceTerm [CommRing T] (A : Matrix T) (W k : Nat) : T :=
  (-1) ^ k * Matrix.det (minorMat A W k) * A.at1 1 (k + 1)

/-- The row that `RowInterchange(p, q)` puts in position `a`. -/
def swapF (p q a : Nat) : Nat := if a = p then q else if a = q then p else a

/-- Row equivalence: `M'` is `P * M` for a matrix `P` with invertible determinant. -/
def RowEquiv [CommRing T] {R C : Nat} (M M' : MathMatrix (Fin R) (Fin C) T) : Prop :=
  ∃ P : MathMatrix (Fin R) (Fin R) T, IsUnit (Matrix.det P) ∧ M' = P * M

/-- The entries after `RowInterchange(p, q)`. -/
def swapM (f : Nat → Nat → T) (p q : Nat) : Nat → Nat → T :=
  fun a b => f (swapF p q a) b

/-- The entries after `RowScaling(r, k)`. -/
def scaleM [Mul T] (f : Nat → Nat → T) (r : Nat) (k : T) : Nat → Nat → T :=
  fun a b => if a = r then f a b * k else f a b

/-- The entries after the rows below `i` have been cleared in column `i` by row `i`. -/
def elimBelowM [Add T] [Mul T] [Neg T] (f : Nat → Nat → T) (i : Nat) : Nat → Nat → T :=
  fun a b => if i < a then f a b + (-(f a i)) * f i b else f a b

/-- The entries after the rows above `i` have been cleared in column `i` by row `i`. -/
def elimAboveM [Add T] [Mul T] [Neg T] (f : Nat → Nat → T) (i : Nat) : Nat → Nat → T :=
  fun a b => if a < i then f a b + (-(f a i)) * f i b else f a b

/-- The entries after one step of the forward pass of `RowReduce` with pivot row `p`. -/
def forwardM [Field T] (f : Nat → Nat → T) (i p : Nat) : Nat → Nat → T :=
  elimBelowM (scaleM (swapM f p i) i (1 / f p i)) i

/-- The columns `1..n` are in echelon form: zero below the diagonal, `0` or `1` on it. -/
def Echelon [Zero T] [One T] (f : Nat → Nat → T) (R n : Nat) : Prop :=
  ∀ c, 1 ≤ c → c ≤ n →
    (∀ a, c < a → a ≤ R → f a c = 0) ∧ (f c c = 1 ∨ f c c = 0)

/-- The shape of the result of `RowReduce`: column `c ≤ R` is zero below the diagonal, and
either it is the unit column `e_c` or its diagonal element is zero. -/
def Reduced [Zero T] [One T] (f : Nat → Nat → T) (R : Nat) : Prop :=
  ∀ c, 1 ≤ c → c ≤ R →
    (∀ a, c < a → a ≤ R → f a c = 0) ∧
      ((f c c = 1 ∧ ∀ a, 1 ≤ a → a < c → f a c = 0) ∨ f c c = 0)

/-- The state of the backward pass before row `i` is handled: echelon form, and the columns
after `i` whose diagonal element is `1` are cleared above the diagonal. -/
def BackInv [Zero T] [One T] (f : Nat → Nat → T) (R i : Nat) : Prop :=
  Echelon f R R ∧ ∀ c, i < c → c ≤ R → f c c = 1 → ∀ a, 1 ≤ a → a < c → f a c = 0

end Auxiliary


/-! ## Loops and buffers -/

section LoopLemmas

variable {T : Type}

theorem ok_bind {α β : Type} (a : α) (f : α → Except Err β) :
    ((Except.ok a : Except Err α) >>= f) = f a := rfl

theorem error_bind {α β : Type} (e : Err) (f : α → Except Err β) :
    ((Except.error e : Except Err α) >>= f) = .error e := rfl

theorem forUp_zero {σ : Type} (body : Nat → σ → Except Err σ) (lo : Nat) (s : σ) :
    forUp body lo 0 s = .ok s := rfl

theorem forUp_succ {σ : Type} (body : Nat → σ → Except Err σ) (lo cnt : Nat) (s : σ) :
    forUp body lo (cnt + 1) s = body lo s >>= fun s1 => forUp body (lo + 1) cnt s1 := rfl

/-- Invariant rule for `forUp`: an invariant kept by every successful iteration holds at exit,
and the loop does not fail. -/
theorem forUp_inv {σ : Type} (body : Nat → σ → Except Err σ) (I : Nat → σ → Prop) :
    ∀ (cnt lo : Nat) (s : σ), I lo s →
      (∀ i s, lo ≤ i → i < lo + cnt → I i s → ∃ s', body i s = .ok s' ∧ I (i + 1) s') →
      ∃ s', forUp body lo cnt s = .ok s' ∧ I (lo + cnt) s' := by
  intro cnt
  induction cnt with
  | zero => intro lo s h0 _; exact ⟨s, rfl, h0⟩
  | succ n ih =>
    intro lo s h0 hstep
    obtain ⟨s1, hb, h1⟩ := hstep lo s (Nat.le_refl _) (by omega) h0
    obtain ⟨s2, hf, h2⟩ := ih (lo + 1) s1 h1 (fun i t hlo hhi hI => hstep i t (by omega) (by omega) hI)
    refine ⟨s2, ?_, ?_⟩
    · rw [forUp_succ, hb, ok_bind, hf]
    · have : lo + (n + 1) = lo + 1 + n := by omega
      rw [this]; exact h2

/-- Splitting a `forUp` loop in two. -/
theorem forUp_add {σ : Type} (body : Nat → σ → Except Err σ) :
    ∀ (c1 c2 lo : Nat) (s : σ),
      forUp body lo (c1 + c2) s = forUp body lo c1 s >>= fun s1 => forUp body (lo + c1) c2 s1 := by
  intro c1
  induction c1 with
  | zero => intro c2 lo s; simp [forUp_zero, ok_bind]
  | succ n ih =>
    intro c2 lo s
    have e : n + 1 + c2 = (n + c2) + 1 := by omega
    rw [e, forUp_succ, forUp_succ]
    cases hb : body lo s with
    | error e => simp [error_bind]
    | ok s1 =>
      simp only [ok_bind]
      rw [ih c2 (lo + 1) s1]
      have : lo + 1 + n = lo + (n + 1) := by omega
      rw [this]

/-- Invariant rule for `forDown`. -/
theorem forDown_inv {σ : Type} (body : Nat → σ → Except Err σ) (I : Nat → σ → Prop) :
    ∀ (n : Nat) (s : σ), I n s →
      (∀ i s, 1 ≤ i → i ≤ n → I i s → ∃ s', body i s = .ok s' ∧ I (i - 1) s') →
      ∃ s', forDown body n s = .ok s' ∧ I 0 s' := by
  intro n
  induction n with
  | zero => intro s h0 _; exact ⟨s, rfl, h0⟩
  | succ n ih =>
    intro s h0 hstep
    obtain ⟨s1, hb, h1⟩ := hstep (n + 1) s (by omega) (Nat.le_refl _) h0
    obtain ⟨s2, hf, h2⟩ := ih s1 h1 (fun i t hlo hhi hI => hstep i t hlo (by omega) hI)
    exact ⟨s2, by simp only [forDown]; rw [hb, ok_bind, hf], h2⟩

theorem load_of_lt [Zero T] (buf : List T) (i : Nat) (h : i < buf.length) :
    load buf i = .ok (val buf i) := by
  simp [load, val, List.getD, List.getElem?_eq_getElem h]

theorem load_of_ge (buf : List T) (i : Nat) (h : buf.length ≤ i) :
    load buf i = .error Err.OutOfBuffer := by
  simp [load, List.getElem?_eq_none h]

theorem store_of_lt (buf : List T) (i : Nat) (v : T) (h : i < buf.length) :
    store buf i v = .ok (buf.set i v) := by
  simp [store, h]

theorem val_set [Zero T] (buf : List T) (i j : Nat) (v : T) :
    val (buf.set i v) j = if j = i ∧ i < buf.length then v else val buf j := by
  unfold val
  rw [List.getD_eq_getElem?_getD, List.getD_eq_getElem?_getD, List.getElem?_set]
  by_cases h : i = j
  · subst h
    by_cases h2 : i < buf.length
    · simp [h2]
    · simp [h2, List.getElem?_eq_none (Nat.le_of_not_lt h2)]
  · have h' : ¬ j = i := fun e => h e.symm
    simp [h, h']

theorem val_of_ge [Zero T] (buf : List T) (i : Nat) (h : buf.length ≤ i) : val buf i = 0 := by
  simp [val, List.getD_eq_getElem?_getD, List.getElem?_eq_none h]

theorem val_replicate [Zero T] (n i : Nat) : val (List.replicate n (0 : T)) i = 0 := by
  unfold val
  rw [List.getD_eq_getElem?_getD]
  by_cases h : i < n
  · simp [List.getElem?_replicate, h]
  · simp [List.getElem?_replicate, h]

/-- Buffers of the same length that hold the same values are equal. -/
theorem buf_ext [Zero T] (b1 b2 : List T) (hl : b1.length = b2.length)
    (hv : ∀ i, i < b1.length → val b1 i = val b2 i) : b1 = b2 := by
  apply List.ext_getElem hl
  intro i h1 h2
  have := hv i h1
  simpa [val, List.getD_eq_getElem?_getD, List.getElem?_eq_getElem h1,
    List.getElem?_eq_getElem h2] using this

end LoopLemmas

/-! ## Row and column insertion -/

section InsertLemmas

variable {T : Type}


/-- A loop that copies `n` elements from `src + q` to `dst + p`. -/
theorem copy_loop [Zero T] (src : List T) (q p n : Nat) (dst : List T)
    (hs : q + n ≤ src.length) (hd : p + n ≤ dst.length) :
    ∃ buf, forUp (fun j b => load src (q + j) >>= fun v => store b (p + j) v) 0 n dst = .ok buf ∧
      buf.length = dst.length ∧
      ∀ idx, val buf idx = if p ≤ idx ∧ idx < p + n then val src (idx - p + q) else val dst idx := by
  have h := forUp_inv (fun j b => load src (q + j) >>= fun v => store b (p + j) v)
    (fun j b => b.length = dst.length ∧
      ∀ idx, val b idx = if p ≤ idx ∧ idx < p + j then val src (idx - p + q) else val dst idx)
    n 0 dst ⟨rfl, fun idx => by
      rw [if_neg (by omega)]⟩
    (by
      intro j b _ hj ⟨hl, hv⟩
      refine ⟨b.set (p + j) (val src (q + j)), ?_, ?_, ?_⟩
      · dsimp only
        rw [load_of_lt src (q + j) (by omega), ok_bind, store_of_lt b (p + j) _ (by omega)]
      · simp [hl]
      · intro idx
        rw [val_set, hv idx]
        by_cases e : idx = p + j
        · subst e
          have : p + j < b.length := by omega
          simp [this]
          congr 1; omega
        · have c1 : (p ≤ idx ∧ idx < p + (j + 1)) ↔ (p ≤ idx ∧ idx < p + j) := by omega
          simp [e, c1])
  simpa using h


/-- A loop that copies `n` elements from the start of `src` to `dst + p`. -/
theorem copy_loop0 [Zero T] (src : List T) (p n : Nat) (dst : List T)
    (hs : n ≤ src.length) (hd : p + n ≤ dst.length) :
    ∃ buf, forUp (fun j b => load src j >>= fun v => store b (p + j) v) 0 n dst = .ok buf ∧
      buf.length = dst.length ∧
      ∀ idx, val buf idx = if p ≤ idx ∧ idx < p + n then val src (idx - p) else val dst idx := by
  have h := copy_loop src 0 p n dst (by omega) hd
  simpa using h

/-- A loop that stores `v` at the offsets `p + lo, …, p + lo + cnt - 1`. -/
theorem fill_loop [Zero T] (v : T) (p lo cnt : Nat) (dst : List T)
    (hd : p + lo + cnt ≤ dst.length) :
    ∃ buf, forUp (fun i b => store b (p + i) v) lo cnt dst = .ok buf ∧
      buf.length = dst.length ∧
      ∀ idx, val buf idx = if p + lo ≤ idx ∧ idx < p + lo + cnt then v else val dst idx := by
  have h := forUp_inv (fun i b => store b (p + i) v)
    (fun i b => b.length = dst.length ∧
      ∀ idx, val b idx = if p + lo ≤ idx ∧ idx < p + i then v else val dst idx)
    cnt lo dst ⟨rfl, fun idx => by rw [if_neg (by omega)]⟩
    (by
      intro i b hlo hi ⟨hl, hv⟩
      refine ⟨b.set (p + i) v, ?_, ?_, ?_⟩
      · dsimp only
        rw [store_of_lt b (p + i) _ (by omega)]
      · simp [hl]
      · intro idx
        rw [val_set, hv idx]
        by_cases e : idx = p + i
        · subst e
          have h1 : p + i < b.length := by omega
          have h2 : p + lo ≤ p + i ∧ p + i < p + (i + 1) := by omega
          simp [h1, h2]
        · have c1 : (p + lo ≤ idx ∧ idx < p + (i + 1)) ↔ (p + lo ≤ idx ∧ idx < p + i) := by omega
          simp [e, c1])
  obtain ⟨buf, h1, h2, h3⟩ := h
  refine ⟨buf, h1, h2, fun idx => ?_⟩
  rw [h3 idx]
  have c : (p + lo ≤ idx ∧ idx < p + (lo + cnt)) ↔ (p + lo ≤ idx ∧ idx < p + lo + cnt) := by omega
  simp [c]

/-- A loop that moves the `cnt` elements ending at offset `L` up by `d`, last element first. -/
theorem shift_loop [Zero T] (L d cnt : Nat) (b0 : List T)
    (hc : cnt ≤ L + 1) (hd : L + d < b0.length) :
    ∃ buf, forUp (fun i b => load b (L - i) >>= fun v => store b (L - i + d) v) 0 cnt b0 = .ok buf ∧
      buf.length = b0.length ∧
      ∀ idx, val buf idx =
        if L + d < idx + cnt ∧ idx ≤ L + d then val b0 (idx - d) else val b0 idx := by
  have h := forUp_inv (fun i b => load b (L - i) >>= fun v => store b (L - i + d) v)
    (fun i b => b.length = b0.length ∧
      ∀ idx, val b idx = if L + d < idx + i ∧ idx ≤ L + d then val b0 (idx - d) else val b0 idx)
    cnt 0 b0 ⟨rfl, fun idx => by rw [if_neg (by omega)]⟩
    (by
      intro i b _ hi ⟨hl, hv⟩
      refine ⟨b.set (L - i + d) (val b0 (L - i)), ?_, ?_, ?_⟩
      · dsimp only
        rw [load_of_lt b (L - i) (by omega), ok_bind, store_of_lt b _ _ (by omega)]
        rw [hv (L - i), if_neg (by omega)]
      · simp [hl]
      · intro idx
        rw [val_set, hv idx]
        by_cases e : idx = L - i + d
        · subst e
          have h1 : L - i + d < b.length := by omega
          have h2 : L + d < L - i + d + (i + 1) ∧ L - i + d ≤ L + d := by omega
          simp [h1, h2]
        · have c1 : (L + d < idx + (i + 1) ∧ idx ≤ L + d) ↔ (L + d < idx + i ∧ idx ≤ L + d) := by
            omega
          simp [e, c1])
  simpa using h

theorem uCapacityIncrement_ge (ci : Nat) : 2 ≤ Matrix.uCapacityIncrement ci := by
  unfold Matrix.uCapacityIncrement
  split <;> omega

theorem Expand_spec [Zero T] (ci : Nat) (uninit : Nat → T) (m : Matrix T)
    (h : m.uCapacity ≤ m.pData.length) :
    ∃ buf, Matrix.Expand ci uninit m =
        .ok { m with pData := buf, uCapacity := m.uCapacity * Matrix.uCapacityIncrement ci } ∧
      buf.length = Matrix.uCapacityIncrement ci * m.uCapacity ∧
      ∀ idx, idx < m.uCapacity → val buf idx = val m.pData idx := by
  have hge := uCapacityIncrement_ge ci
  have hle : m.uCapacity ≤ Matrix.uCapacityIncrement ci * m.uCapacity :=
    Nat.le_mul_of_pos_left _ (by omega)
  obtain ⟨buf, h1, h2, h3⟩ := copy_loop m.pData 0 0 m.uCapacity
    ((List.range (Matrix.uCapacityIncrement ci * m.uCapacity)).map uninit)
    (by omega) (by simpa using hle)
  refine ⟨buf, ?_, by simpa using h2, fun idx hidx => ?_⟩
  · unfold Matrix.Expand memcpy_s
    simp only []
    rw [h1, ok_bind]
  · rw [h3 idx, if_pos (by omega)]
    simp


theorem expand_if [Zero T] (ci : Nat) (uninit : Nat → T) (m : Matrix T) (c : Prop) [Decidable c]
    (h : m.uCapacity = m.pData.length) :
    ∃ m1, (if c then Matrix.Expand ci uninit m else .ok m) = .ok m1 ∧
      m1.uRow = m.uRow ∧ m1.uCol = m.uCol ∧ m1.uCapacity = m1.pData.length ∧
      m.pData.length ≤ m1.pData.length ∧
      (m1.uCapacity = if c then m.uCapacity * Matrix.uCapacityIncrement ci else m.uCapacity) ∧
      ∀ idx, idx < m.pData.length → val m1.pData idx = val m.pData idx := by
  by_cases hc : c
  · obtain ⟨buf, h1, h2, h3⟩ := Expand_spec ci uninit m (by omega)
    have hge := uCapacityIncrement_ge ci
    have hle : m.uCapacity ≤ Matrix.uCapacityIncrement ci * m.uCapacity :=
      Nat.le_mul_of_pos_left _ (by omega)
    refine ⟨{ m with pData := buf, uCapacity := m.uCapacity * Matrix.uCapacityIncrement ci },
      by rw [if_pos hc]; exact h1, rfl, rfl, ?_, ?_, by rw [if_pos hc], ?_⟩
    · simp only [h2]; exact Nat.mul_comm _ _
    · simp only [h2]; omega
    · intro idx hidx
      exact h3 idx (by omega)
  · exact ⟨m, by rw [if_neg hc], rfl, rfl, h, Nat.le_refl _, by rw [if_neg hc], fun _ _ => rfl⟩

theorem InsertRow_spec [Zero T] (ci : Nat) (uninit : Nat → T) (m : Matrix T) (R C pos : Nat)
    (data : List T) (len : Nat)
    (hR : m.uRow = R) (hC : m.uCol = C) (hR1 : 1 ≤ R) (hC1 : 1 ≤ C)
    (hlen : m.uCapacity = m.pData.length) (hcap : (R + 1) * C ≤ m.uCapacity)
    (hpos : 1 ≤ pos) (hpos2 : pos ≤ R + 1) (hdata : len ≤ data.length) :
    ∃ m', m.InsertRow ci false uninit pos data len = .ok m' ∧ m'.uRow = R + 1 ∧ m'.uCol = C ∧
      (R + 1) * C ≤ m'.pData.length ∧ m'.uCapacity = m'.pData.length ∧
      ∀ idx, idx < (R + 1) * C → val m'.pData idx =
        if idx < (pos - 1) * C then val m.pData idx
        else if idx < (pos - 1) * C + min len C then val data (idx - (pos - 1) * C)
        else if idx < pos * C then 0
        else val m.pData (idx - C) := by
  rcases m with ⟨mr, mc, mbuf, mcap⟩
  simp only at hR hC hlen hcap
  subst hR hC
  obtain ⟨R', rfl⟩ : ∃ R', mr = R' + 1 := ⟨mr - 1, by omega⟩
  obtain ⟨p', rfl⟩ : ∃ p', pos = p' + 1 := ⟨pos - 1, by omega⟩
  have hpR : p' * mc ≤ R' * mc + mc := by
    have := Nat.mul_le_mul_right mc (show p' ≤ R' + 1 by omega)
    rw [Nat.add_mul, Nat.one_mul] at this; exact this
  have e1 : (R' + 1 + 1) * mc = R' * mc + mc + mc := by ring
  have e2 : (p' + 1) * mc = p' * mc + mc := by ring
  rw [e1] at hcap
  obtain ⟨m1, hm1, hr1, hc1, hcl1, hle1, _, hv1⟩ :=
    expand_if ci uninit (⟨R' + 1, mc, mbuf, mcap⟩ : Matrix T) ((R' + 1 + 1) * mc < mcap) hlen
  rcases m1 with ⟨r1, c1, buf0, cap1⟩
  simp only at hr1 hc1 hcl1 hle1 hv1
  subst hr1 hc1
  obtain ⟨buf1, hb1, hl1, hvb1⟩ := shift_loop (R' * c1 + c1 - 1) c1 (R' * c1 + c1 - p' * c1) buf0
    (by omega) (by omega)
  obtain ⟨buf2, hb2, hl2, hvb2⟩ := copy_loop0 data (p' * c1) (if c1 < len then c1 else len) buf1
    (by split <;> omega) (by split <;> omega)
  obtain ⟨buf3, hb3, hl3, hvb3⟩ := fill_loop (0 : T) (p' * c1) (if c1 < len then c1 else len)
    (c1 - (if c1 < len then c1 else len)) buf2 (by split <;> omega)
  refine ⟨⟨R' + 1 + 1, c1, buf3, cap1⟩, ?_, rfl, rfl, ?_, ?_, ?_⟩
  · unfold Matrix.InsertRow
    simp only [Bool.false_eq_true, if_false]
    rw [if_pos (by omega), hm1, ok_bind]
    simp only [Matrix.ElemAt, Matrix.IndexAt]
    rw [if_pos (by omega), ok_bind]
    simp only [Nat.add_sub_cancel]
    have e3 : 1 + (R' * c1 + c1 - 1) - p' * c1 = R' * c1 + c1 - p' * c1 := by omega
    rw [e3, hb1, ok_bind]
    rw [if_pos (by omega), ok_bind]
    rw [hb2, ok_bind, hb3, ok_bind]
  · show (R' + 1 + 1) * c1 ≤ buf3.length
    rw [e1]; omega
  · show cap1 = buf3.length
    omega
  · intro idx hidx
    rw [e1] at hidx
    show val buf3 idx = _
    rw [hvb3 idx, hvb2 idx, hvb1 idx]
    simp only [Nat.add_sub_cancel, e2]
    have emin : min len c1 = if c1 < len then c1 else len := by
      split <;> omega
    rw [emin]
    by_cases c1' : idx < p' * c1
    · rw [if_pos c1', if_neg (by split <;> omega), if_neg (by omega), if_neg (by omega)]
      exact hv1 idx (by omega)
    · rw [if_neg c1']
      by_cases c2 : idx < p' * c1 + (if c1 < len then c1 else len)
      · rw [if_pos c2, if_neg (by omega), if_pos (by omega)]
      · rw [if_neg c2]
        by_cases c3 : idx < p' * c1 + c1
        · rw [if_pos c3, if_pos (by split <;> omega)]
        · rw [if_neg c3, if_neg (by split <;> omega), if_neg (by omega), if_pos (by omega)]
          exact hv1 _ (by omega)


/-- Offsets of live elements lie inside the live region. -/
theorem offset_lt {i j R C : Nat} (hi : 1 ≤ i) (hi2 : i ≤ R) (hj : 1 ≤ j) (hj2 : j ≤ C) :
    (i - 1) * C + (j - 1) < R * C := by
  obtain ⟨i', rfl⟩ : ∃ i', i = i' + 1 := ⟨i - 1, by omega⟩
  have := Nat.mul_le_mul_right C hi2
  rw [Nat.add_mul, Nat.one_mul] at this
  simp only [Nat.add_sub_cancel]
  omega

/-- Reading a live element through `ElemAt`. -/
theorem get_of_frame [Zero T] (m : Matrix T) (R C i j : Nat) (hf : m.Frame R C)
    (hi : 1 ≤ i) (hi2 : i ≤ R) (hj : 1 ≤ j) (hj2 : j ≤ C) :
    m.get i j = .ok (m.at1 i j) := by
  obtain ⟨hR, hC, hl⟩ := hf
  have hlt := offset_lt hi hi2 hj hj2
  unfold Matrix.get Matrix.ElemAt Matrix.at1
  rw [if_pos (by omega), ok_bind, hC]
  have e : (i - 1) * C + j - 1 = (i - 1) * C + (j - 1) := by omega
  rw [e, load_of_lt _ _ (by omega)]

theorem InsertRow_rows [Zero T] (ci : Nat) (uninit : Nat → T) (m : Matrix T) (pos : Nat)
    (data : List T) (len : Nat) (hR1 : 1 ≤ m.uRow) (hC1 : 1 ≤ m.uCol)
    (hlen : m.uCapacity = m.pData.length) (hcap : (m.uRow + 1) * m.uCol ≤ m.uCapacity)
    (hpos : 1 ≤ pos) (hpos2 : pos ≤ m.uRow + 1) (hdata : len ≤ data.length) :
    ∃ m', m.InsertRow ci false uninit pos data len = .ok m' ∧
      m'.uRow = m.uRow + 1 ∧ m'.uCol = m.uCol ∧
      (∀ i j, 1 ≤ i → i < pos → 1 ≤ j → j ≤ m.uCol →
        ∃ v, m.get i j = .ok v ∧ m'.get i j = .ok v) ∧
      (∀ i j, pos ≤ i → i ≤ m.uRow → 1 ≤ j → j ≤ m.uCol →
        ∃ v, m.get i j = .ok v ∧ m'.get (i + 1) j = .ok v) ∧
      (∀ j, 1 ≤ j → j ≤ m.uCol →
        m'.get pos j = .ok (if j ≤ min len m.uCol then val data (j - 1) else 0)) := by
  obtain ⟨m', h1, h2, h3, h4, _, h6⟩ := InsertRow_spec ci uninit m m.uRow m.uCol pos data len
    rfl rfl hR1 hC1 hlen hcap hpos hpos2 hdata
  have hf' : m'.Frame (m.uRow + 1) m.uCol := ⟨h2, h3, h4⟩
  have hle : m.uRow * m.uCol ≤ (m.uRow + 1) * m.uCol := Nat.mul_le_mul_right _ (by omega)
  have hf : m.Frame m.uRow m.uCol := ⟨rfl, rfl, by omega⟩
  have hsucc : (m.uRow + 1) * m.uCol = m.uRow * m.uCol + m.uCol := by ring
  refine ⟨m', h1, h2, h3, ?_, ?_, ?_⟩
  · intro i j hi hi2 hj hj2
    refine ⟨m.at1 i j, get_of_frame m _ _ i j hf hi (by omega) hj hj2, ?_⟩
    rw [get_of_frame m' _ _ i j hf' hi (by omega) hj hj2]
    have hlt := offset_lt hi (show i ≤ pos - 1 by omega) hj hj2
    have hlt2 := offset_lt hi (show i ≤ m.uRow by omega) hj hj2
    unfold Matrix.at1
    rw [h3, h6 _ (by omega), if_pos hlt]
  · intro i j hi hi2 hj hj2
    refine ⟨m.at1 i j, get_of_frame m _ _ i j hf (by omega) hi2 hj hj2, ?_⟩
    rw [get_of_frame m' _ _ (i + 1) j hf' (by omega) (by omega) hj hj2]
    have hlt2 := offset_lt (show 1 ≤ i + 1 by omega) (show i + 1 ≤ m.uRow + 1 by omega) hj hj2
    obtain ⟨p', rfl⟩ : ∃ p', pos = p' + 1 := ⟨pos - 1, by omega⟩
    obtain ⟨i', rfl⟩ : ∃ i', i = i' + 1 := ⟨i - 1, by omega⟩
    have hge : p' * m.uCol ≤ i' * m.uCol := Nat.mul_le_mul_right _ (by omega)
    have e5 : (i' + 1) * m.uCol = i' * m.uCol + m.uCol := by ring
    have e6 : (p' + 1) * m.uCol = p' * m.uCol + m.uCol := by ring
    unfold Matrix.at1
    simp only [Nat.add_sub_cancel] at hlt2 ⊢
    rw [h3, h6 _ hlt2]
    simp only [Nat.add_sub_cancel]
    rw [if_neg (by omega), if_neg (by omega), if_neg (by omega)]
    have e7 : (i' + 1) * m.uCol + (j - 1) - m.uCol = i' * m.uCol + (j - 1) := by omega
    rw [e7]
  · intro j hj hj2
    rw [get_of_frame m' _ _ pos j hf' hpos hpos2 hj hj2]
    have hlt2 := offset_lt hpos hpos2 hj hj2
    obtain ⟨p', rfl⟩ : ∃ p', pos = p' + 1 := ⟨pos - 1, by omega⟩
    have e5 : (p' + 1) * m.uCol = p' * m.uCol + m.uCol := by ring
    unfold Matrix.at1
    simp only [Nat.add_sub_cancel] at hlt2 ⊢
    rw [h3, h6 _ hlt2]
    simp only [Nat.add_sub_cancel]
    rw [if_neg (by omega)]
    by_cases c : j ≤ min len m.uCol
    · rw [if_pos c, if_pos (by omega)]
      have e7 : p' * m.uCol + (j - 1) - p' * m.uCol = j - 1 := by omega
      rw [e7]
    · rw [if_neg c, if_neg (by omega), if_pos (by omega)]


end InsertLemmas

/-! ## Claims on `InsertRow` and `InsertColumn` -/

/-- C8: on an `R × C` matrix with `R, C ≥ 1` whose buffer holds `(R + 1) * C` elements,
`InsertRow(pos, data, len)` with `pos` in `[1, R + 1]` succeeds and gives an `(R + 1) × C`
matrix: the rows before `pos` are unchanged, the old rows `pos..R` are the rows
`pos + 1..R + 1`, and row `pos` holds the first `min len C` values of `data` followed by
zeros.  On the `2 × 2` identity, `InsertRow(3, [5, 6])` gives the rows `[1, 0]`, `[0, 1]`,
`[5, 6]`. -/
theorem InsertRow_inserts_row :
    (∀ (T : Type) [Zero T] (ci : Nat) (uninit : Nat → T) (m : Matrix T) (pos : Nat)
      (data : List T) (len : Nat),
      1 ≤ m.uRow → 1 ≤ m.uCol → m.uCapacity = m.pData.length →
      (m.uRow + 1) * m.uCol ≤ m.uCapacity → 1 ≤ pos → pos ≤ m.uRow + 1 → len ≤ data.length →
      ∃ m', m.InsertRow ci false uninit pos data len = .ok m' ∧
        m'.uRow = m.uRow + 1 ∧ m'.uCol = m.uCol ∧
        (∀ i j, 1 ≤ i → i < pos → 1 ≤ j → j ≤ m.uCol →
          ∃ v, m.get i j = .ok v ∧ m'.get i j = .ok v) ∧
        (∀ i j, pos ≤ i → i ≤ m.uRow → 1 ≤ j → j ≤ m.uCol →
          ∃ v, m.get i j = .ok v ∧ m'.get (i + 1) j = .ok v) ∧
        (∀ j, 1 ≤ j → j ≤ m.uCol →
          m'.get pos j = .ok (if j ≤ min len m.uCol then val data (j - 1) else 0))) ∧
    (∀ uninit : Nat → ℚ, ∃ I m', Matrix.Identity 2 = .ok I ∧
      I.InsertRow 2 false uninit 3 [5, 6] 2 = .ok m' ∧ m'.uRow = 3 ∧ m'.uCol = 2 ∧
      m'.get 1 1 = .ok 1 ∧ m'.get 1 2 = .ok 0 ∧ m'.get 2 1 = .ok 0 ∧ m'.get 2 2 = .ok 1 ∧
      m'.get 3 1 = .ok 5 ∧ m'.get 3 2 = .ok 6) := by
  refine ⟨?_, ?_⟩
  · intro T _ ci uninit m pos data len h1 h2 h3 h4 h5 h6 h7
    exact InsertRow_rows ci uninit m pos data len h1 h2 h3 h4 h5 h6 h7
  · intro uninit
    exact ⟨⟨2, 2, [1, 0, 0, 1, 0, 0, 0, 0], 8⟩,
      ⟨3, 2, [1, 0, 0, 1, 5, 6, 0, 0, uninit 8, uninit 9, uninit 10, uninit 11, uninit 12,
        uninit 13, uninit 14, uninit 15], 16⟩, rfl, rfl, rfl, rfl, rfl, rfl, rfl, rfl, rfl, rfl⟩

/-- The statement of C8 applied to the `1 × 2` matrix `[3, 4]` with `pos = 1`. -/
theorem InsertRow_inserts_row_witness :
    ∃ m', (⟨1, 2, [3, 4, 0, 0], 4⟩ : Matrix ℚ).InsertRow 2 false (fun _ => 0) 1 [5] 1 = .ok m' ∧
      m'.uRow = 1 + 1 ∧ m'.uCol = 2 ∧
      (∀ i j, 1 ≤ i → i < 1 → 1 ≤ j → j ≤ 2 →
        ∃ v, (⟨1, 2, [3, 4, 0, 0], 4⟩ : Matrix ℚ).get i j = .ok v ∧ m'.get i j = .ok v) ∧
      (∀ i j, 1 ≤ i → i ≤ 1 → 1 ≤ j → j ≤ 2 →
        ∃ v, (⟨1, 2, [3, 4, 0, 0], 4⟩ : Matrix ℚ).get i j = .ok v ∧ m'.get (i + 1) j = .ok v) ∧
      (∀ j, 1 ≤ j → j ≤ 2 →
        m'.get 1 j = .ok (if j ≤ min 1 2 then val [(5 : ℚ)] (j - 1) else 0)) :=
  InsertRow_inserts_row.1 ℚ 2 (fun _ => 0) ⟨1, 2, [3, 4, 0, 0], 4⟩ 1 [5] 1
    (by decide) (by decide) (by decide) (by decide) (by decide) (by decide) (by decide)

/-- `InsertColumn(1, data, len)` fails on every matrix with at least two rows, although
`pos = 1` lies in `[1, C + 1]` and the buffer holds `R * (C + 1)` elements: the shift loop
asks `ElemAt(Shift + 1, pos - 1)` for column `0`. -/
theorem InsertColumn_first_fails_of_two_rows (T : Type) [Zero T] (ci : Nat) (uninit : Nat → T)
    (m : Matrix T) (data : List T) (len : Nat) (hR : 2 ≤ m.uRow) (hC : 1 ≤ m.uCol)
    (hlen : m.uCapacity = m.pData.length) (hcap : m.uRow * (m.uCol + 1) ≤ m.uCapacity) :
    m.InsertColumn ci false uninit 1 data len = .error Err.IndexOutOfRange := by
  rcases m with ⟨mr, mc, mbuf, mcap⟩
  simp only at hR hC hlen hcap
  obtain ⟨R', rfl⟩ : ∃ R', mr = R' + 2 := ⟨mr - 2, by omega⟩
  have e1 : (R' + 2) * (mc + 1) = R' * mc + mc + mc + R' + 2 := by ring
  rw [e1] at hcap
  obtain ⟨m1, hm1, hr1, hc1, hcl1, hle1, _, hv1⟩ :=
    expand_if ci uninit (⟨R' + 2, mc, mbuf, mcap⟩ : Matrix T)
      ((R' + 2) * (mc + 1) < mcap) hlen
  rcases m1 with ⟨r1, c1, buf0, cap1⟩
  simp only at hr1 hc1 hcl1 hle1 hv1
  subst hr1 hc1
  have e2 : (R' + 2 - 1) * c1 + c1 - 1 = R' * c1 + c1 + c1 - 1 := by
    have : (R' + 2 - 1) * c1 = R' * c1 + c1 := by
      have : R' + 2 - 1 = R' + 1 := by omega
      rw [this]; ring
    omega
  obtain ⟨buf1, hb1, hl1, _⟩ := shift_loop (R' * c1 + c1 + c1 - 1) (R' + 2) c1 buf0
    (by omega) (by omega)
  unfold Matrix.InsertColumn
  simp only [Bool.false_eq_true, if_false]
  rw [if_pos (by omega), hm1, ok_bind]
  simp only [Matrix.ElemAt]
  rw [if_pos (by omega), ok_bind, e2]
  simp only [Nat.add_sub_cancel]
  rw [hb1, ok_bind]
  have e3 : R' + 2 - 1 = R' + 1 := by omega
  rw [e3]
  simp only [forDown]
  rfl

/-- C9 (the code departs from the claim): on the `2 × 2` identity, whose buffer of 8
elements holds the 6 elements of a `2 × 3` matrix, `InsertColumn(1, [5, 6], 2)` fails with
an index out of range instead of inserting the column in first position. -/
theorem InsertColumn_first_position_fails :
    ∀ uninit : Nat → ℚ, ∃ I, Matrix.Identity 2 = .ok I ∧
      I.InsertColumn 2 false uninit 1 [5, 6] 2 = .error Err.IndexOutOfRange :=
  fun _ => ⟨⟨2, 2, [1, 0, 0, 1, 0, 0, 0, 0], 8⟩, rfl, rfl⟩

/-- C10: `InsertRow` fails when `pos = 0` or `pos > R + 1`, and `InsertColumn` fails when
`pos = 0` or `pos > C + 1` (positions counted from 1), whatever the matrix and the data. -/
theorem Insert_rejects_bad_position (T : Type) [Zero T] (ci : Nat) (uninit : Nat → T)
    (m : Matrix T) (pos : Nat) (data : List T) (len : Nat) :
    (pos = 0 ∨ pos > m.uRow + 1 →
      m.InsertRow ci false uninit pos data len = .error Err.IndexOutOfRange) ∧
    (pos = 0 ∨ pos > m.uCol + 1 →
      m.InsertColumn ci false uninit pos data len = .error Err.IndexOutOfRange) := by
  constructor
  · intro h
    unfold Matrix.InsertRow
    simp only [Bool.false_eq_true, if_false]
    rw [if_neg (by omega)]
  · intro h
    unfold Matrix.InsertColumn
    simp only [Bool.false_eq_true, if_false]
    rw [if_neg (by omega)]

/-- The statement of C10 applied to a `1 × 1` matrix: position `0` for `InsertRow`,
position `3` for `InsertColumn`. -/
theorem Insert_rejects_bad_position_witness :
    (⟨1, 1, [7, 0], 2⟩ : Matrix ℚ).InsertRow 2 false (fun _ => 0) 0 [1] 1
        = .error Err.IndexOutOfRange ∧
      (⟨1, 1, [7, 0], 2⟩ : Matrix ℚ).InsertColumn 2 false (fun _ => 0) 3 [1] 1
        = .error Err.IndexOutOfRange :=
  ⟨(Insert_rejects_bad_position ℚ 2 (fun _ => 0) ⟨1, 1, [7, 0], 2⟩ 0 [1] 1).1 (Or.inl rfl),
   (Insert_rejects_bad_position ℚ 2 (fun _ => 0) ⟨1, 1, [7, 0], 2⟩ 3 [1] 1).2
     (Or.inr (by decide))⟩

/-! ## Constructors, element access and the matrix product -/

section BasicLemmas

variable {T : Type}

/-- The buffer allocated by the plain constructor. -/
theorem ctorData_spec [Zero T] (ci R C : Nat) (data : List T) (hd : R * C ≤ data.length) :
    ∃ buf, Matrix.ctorData ci R C data (R * C) =
        .ok ⟨R, C, buf, Matrix.uCapacityIncrement ci * R * C⟩ ∧
      buf.length = Matrix.uCapacityIncrement ci * R * C ∧
      ∀ idx, val buf idx = if idx < R * C then val data idx else 0 := by
  have hge := uCapacityIncrement_ge ci
  have hle : R * C ≤ Matrix.uCapacityIncrement ci * R * C := by
    rw [Nat.mul_assoc]
    exact Nat.le_mul_of_pos_left _ (by omega)
  obtain ⟨buf, h1, h2, h3⟩ := copy_loop data 0 0 (R * C)
    (List.replicate (Matrix.uCapacityIncrement ci * R * C) (0 : T)) (by omega)
    (by simpa using hle)
  refine ⟨buf, ?_, by simpa using h2, fun idx => ?_⟩
  · unfold Matrix.ctorData memcpy_s Matrix.ctor
    simp only [gt_iff_lt, Nat.lt_irrefl, if_false]
    rw [h1, ok_bind]
  · rw [h3 idx, val_replicate]
    by_cases c : idx < R * C
    · rw [if_pos c, if_pos (by omega)]; simp
    · rw [if_neg c, if_neg (by omega)]

/-- The copy constructor gives a matrix with the same live elements and a zero slack. -/
theorem ctorCopy_spec [Zero T] (ci : Nat) (m : Matrix T) (R C : Nat) (hf : m.Frame R C) :
    ∃ buf, Matrix.ctorCopy ci m = .ok ⟨R, C, buf, Matrix.uCapacityIncrement ci * R * C⟩ ∧
      buf.length = Matrix.uCapacityIncrement ci * R * C ∧
      ∀ idx, val buf idx = if idx < R * C then val m.pData idx else 0 := by
  obtain ⟨hR, hC, hl⟩ := hf
  unfold Matrix.ctorCopy
  rw [hR, hC]
  exact ctorData_spec ci R C m.pData hl

theorem frame_of_copy [Zero T] (ci R C : Nat) (buf : List T)
    (hl : buf.length = Matrix.uCapacityIncrement ci * R * C) :
    (⟨R, C, buf, Matrix.uCapacityIncrement ci * R * C⟩ : Matrix T).Frame R C := by
  have hge := uCapacityIncrement_ge ci
  refine ⟨rfl, rfl, ?_⟩
  show R * C ≤ buf.length
  rw [hl, Nat.mul_assoc]
  exact Nat.le_mul_of_pos_left _ (by omega)

/-- Distinct live positions have distinct offsets. -/
theorem offset_inj {a b i j C : Nat} (ha : 1 ≤ a) (hi : 1 ≤ i) (hb : 1 ≤ b) (hb2 : b ≤ C)
    (hj : 1 ≤ j) (hj2 : j ≤ C) (h : (a - 1) * C + (b - 1) = (i - 1) * C + (j - 1)) :
    a = i ∧ b = j := by
  obtain ⟨a', rfl⟩ : ∃ a', a = a' + 1 := ⟨a - 1, by omega⟩
  obtain ⟨i', rfl⟩ : ∃ i', i = i' + 1 := ⟨i - 1, by omega⟩
  simp only [Nat.add_sub_cancel] at h
  rcases Nat.lt_trichotomy a' i' with hlt | heq | hgt
  · have := Nat.mul_le_mul_right C (show a' + 1 ≤ i' by omega)
    rw [Nat.add_mul, Nat.one_mul] at this
    omega
  · subst heq
    omega
  · have := Nat.mul_le_mul_right C (show i' + 1 ≤ a' by omega)
    rw [Nat.add_mul, Nat.one_mul] at this
    omega

/-- Assignment through `ElemAt` changes exactly one live element. -/
theorem set_spec [Zero T] (m : Matrix T) (R C i j : Nat) (v : T) (hf : m.Frame R C)
    (hi : 1 ≤ i) (hi2 : i ≤ R) (hj : 1 ≤ j) (hj2 : j ≤ C) :
    ∃ buf, m.set i j v = .ok { m with pData := buf } ∧ buf.length = m.pData.length ∧
      (∀ idx, val buf idx = if idx = (i - 1) * C + (j - 1) then v else val m.pData idx) ∧
      ∀ a b, 1 ≤ a → a ≤ R → 1 ≤ b → b ≤ C →
        Matrix.at1 { m with pData := buf } a b = if a = i ∧ b = j then v else m.at1 a b := by
  obtain ⟨hR, hC, hl⟩ := hf
  have hlt := offset_lt hi hi2 hj hj2
  have e : (i - 1) * C + j - 1 = (i - 1) * C + (j - 1) := by omega
  have hv : ∀ idx, val (m.pData.set ((i - 1) * C + (j - 1)) v) idx =
      if idx = (i - 1) * C + (j - 1) then v else val m.pData idx := by
    intro idx
    rw [val_set]
    by_cases c : idx = (i - 1) * C + (j - 1)
    · rw [if_pos ⟨c, by omega⟩, if_pos c]
    · rw [if_neg (fun h => c h.1), if_neg c]
  refine ⟨m.pData.set ((i - 1) * C + (j - 1)) v, ?_, by simp, hv, ?_⟩
  · unfold Matrix.set Matrix.ElemAt
    rw [if_pos (by omega), ok_bind, hC, e, store_of_lt _ _ _ (by omega), ok_bind]
  · intro a b ha ha2 hb hb2
    unfold Matrix.at1
    simp only [hC]
    rw [hv]
    by_cases c : a = i ∧ b = j
    · obtain ⟨rfl, rfl⟩ := c
      simp
    · rw [if_neg c, if_neg]
      intro h
      exact c (offset_inj ha hi hb hb2 hj hj2 h)

/-- The unchecked read `ElementAt(i, j)` of a live element. -/
theorem load_ElementAt [Zero T] (m : Matrix T) (R C i j : Nat) (hf : m.Frame R C)
    (hi : 1 ≤ i) (hi2 : i ≤ R) (hj : 1 ≤ j) (hj2 : j ≤ C) :
    load m.pData (m.ElementAt i j) = .ok (m.at1 i j) := by
  obtain ⟨hR, hC, hl⟩ := hf
  have hlt := offset_lt hi hi2 hj hj2
  unfold Matrix.ElementAt Matrix.at1
  rw [hC]
  have e : (i - 1) * C + j - 1 = (i - 1) * C + (j - 1) := by omega
  rw [e, load_of_lt _ _ (by omega)]

theorem frame_ctor [Zero T] (ci R C : Nat) : (Matrix.ctor ci R C : Matrix T).Frame R C := by
  have hge := uCapacityIncrement_ge ci
  refine ⟨rfl, rfl, ?_⟩
  show R * C ≤ (List.replicate (Matrix.uCapacityIncrement ci * R * C) (0 : T)).length
  rw [List.length_replicate, Nat.mul_assoc]
  exact Nat.le_mul_of_pos_left _ (by omega)

theorem at1_ctor [Zero T] (ci R C a b : Nat) : (Matrix.ctor ci R C : Matrix T).at1 a b = 0 := by
  unfold Matrix.at1 Matrix.ctor
  exact val_replicate _ _

/-- The matrix product computes the sum of products of a row by a column. -/
theorem mul_spec [Semiring T] (A B : Matrix T) (R K C : Nat) (hA : A.Frame R K)
    (hB : B.Frame K C) :
    ∃ P, A.mul B = .ok P ∧ P.Frame R C ∧
      P.pData.length = Matrix.uCapacityIncrement Matrix.defaultIncrement * R * C ∧
      ∀ i j, 1 ≤ i → i ≤ R → 1 ≤ j → j ≤ C → P.at1 i j = dotUpTo A B i j K := by
  have hAR := hA.1
  have hAC := hA.2.1
  have hBR := hB.1
  have hBC := hB.2.1
  -- the invariant: cells before `(i, j)` are final, cell `(i, j)` holds a partial sum
  let Inv : Nat → Nat → Nat → Matrix T → Prop := fun i j k r =>
    r.Frame R C ∧ r.pData.length = Matrix.uCapacityIncrement Matrix.defaultIncrement * R * C ∧
    ∀ a b, 1 ≤ a → a ≤ R → 1 ≤ b → b ≤ C →
      r.at1 a b = if a < i ∨ (a = i ∧ b < j) then dotUpTo A B a b K
        else if a = i ∧ b = j then dotUpTo A B a b k else 0
  have inner : ∀ (i j : Nat) (r : Matrix T), 1 ≤ i → i ≤ R → 1 ≤ j → j ≤ C → Inv i j 0 r →
      ∃ r', forUp (fun k (r3 : Matrix T) =>
          load A.pData (A.ElementAt i k) >>= fun a =>
          load B.pData (B.ElementAt k j) >>= fun b =>
          r3.get i j >>= fun old => r3.set i j (old + a * b)) 1 K r = .ok r' ∧ Inv i j K r' := by
    intro i j r hi hi2 hj hj2 h0
    have h := forUp_inv (fun k (r3 : Matrix T) =>
          load A.pData (A.ElementAt i k) >>= fun a =>
          load B.pData (B.ElementAt k j) >>= fun b =>
          r3.get i j >>= fun old => r3.set i j (old + a * b))
      (fun k r => Inv i j (k - 1) r) K 1 r h0
      (by
        intro k s hk hk2 ⟨hf, hlen, hv⟩
        obtain ⟨buf, hs, hbl, _, hat⟩ := set_spec s R C i j
          (s.at1 i j + A.at1 i k * B.at1 k j) hf hi hi2 hj hj2
        refine ⟨{ s with pData := buf }, ?_, ?_, ?_, ?_⟩
        · dsimp only
          rw [load_ElementAt A R K i k hA hi hi2 hk (by omega), ok_bind,
            load_ElementAt B K C k j hB hk (by omega) hj hj2, ok_bind,
            get_of_frame s R C i j hf hi hi2 hj hj2, ok_bind, hs]
        · exact ⟨hf.1, hf.2.1, by show R * C ≤ buf.length; rw [hbl]; exact hf.2.2⟩
        · show buf.length = _
          rw [hbl]; exact hlen
        · intro a b ha ha2 hb hb2
          rw [hat a b ha ha2 hb hb2]
          by_cases c : a = i ∧ b = j
          · obtain ⟨rfl, rfl⟩ := c
            rw [if_pos ⟨rfl, rfl⟩, if_neg (by omega), if_pos ⟨rfl, rfl⟩]
            rw [hv a b ha ha2 hb hb2, if_neg (by omega), if_pos ⟨rfl, rfl⟩]
            obtain ⟨k', rfl⟩ : ∃ k', k = k' + 1 := ⟨k - 1, by omega⟩
            simp only [Nat.add_sub_cancel]
            unfold dotUpTo
            rw [Finset.sum_range_succ]
          · rw [if_neg c, hv a b ha ha2 hb hb2]
            by_cases c2 : a < i ∨ (a = i ∧ b < j)
            · rw [if_pos c2, if_pos c2]
            · rw [if_neg c2, if_neg c2, if_neg c, if_neg c])
    obtain ⟨r', h1, h2⟩ := h
    refine ⟨r', h1, ?_⟩
    have e : 1 + K - 1 = K := by omega
    rw [e] at h2
    exact h2
  have middle : ∀ (i : Nat) (r : Matrix T), 1 ≤ i → i ≤ R → Inv i 1 0 r →
      ∃ r', forUp (fun j r2 => forUp (fun k (r3 : Matrix T) =>
          load A.pData (A.ElementAt i k) >>= fun a =>
          load B.pData (B.ElementAt k j) >>= fun b =>
          r3.get i j >>= fun old => r3.set i j (old + a * b)) 1 K r2) 1 C r = .ok r' ∧
        Inv (i + 1) 1 0 r' := by
    intro i r hi hi2 h0
    have h := forUp_inv (fun j r2 => forUp (fun k (r3 : Matrix T) =>
          load A.pData (A.ElementAt i k) >>= fun a =>
          load B.pData (B.ElementAt k j) >>= fun b =>
          r3.get i j >>= fun old => r3.set i j (old + a * b)) 1 K r2)
      (fun j r => Inv i j 0 r) C 1 r h0
      (by
        intro j s hj hj2 hI
        obtain ⟨r', h1, hf, hlen, hv⟩ := inner i j s hi hi2 hj (by omega) hI
        refine ⟨r', h1, hf, hlen, ?_⟩
        intro a b ha ha2 hb hb2
        rw [hv a b ha ha2 hb hb2]
        by_cases c : a < i ∨ (a = i ∧ b < j)
        · have c' : a < i ∨ (a = i ∧ b < j + 1) := by omega
          rw [if_pos c, if_pos c']
        · rw [if_neg c]
          by_cases c2 : a = i ∧ b = j
          · have c' : a < i ∨ (a = i ∧ b < j + 1) := by omega
            rw [if_pos c2, if_pos c']
          · have c' : ¬ (a < i ∨ (a = i ∧ b < j + 1)) := by omega
            rw [if_neg c2, if_neg c']
            by_cases c3 : a = i ∧ b = j + 1
            · rw [if_pos c3]; simp [dotUpTo]
            · rw [if_neg c3])
    obtain ⟨r', h1, hf, hlen, hv⟩ := h
    refine ⟨r', h1, hf, hlen, ?_⟩
    intro a b ha ha2 hb hb2
    rw [hv a b ha ha2 hb hb2]
    by_cases c : a < i ∨ (a = i ∧ b < 1 + C)
    · have c' : a < i + 1 ∨ (a = i + 1 ∧ b < 1) := by omega
      rw [if_pos c, if_pos c']
    · have c1 : ¬ (a = i ∧ b = 1 + C) := by omega
      have c2 : ¬ (a < i + 1 ∨ (a = i + 1 ∧ b < 1)) := by omega
      rw [if_neg c, if_neg c1, if_neg c2]
      by_cases c3 : a = i + 1 ∧ b = 1
      · rw [if_pos c3]; simp [dotUpTo]
      · rw [if_neg c3]
  have outer := forUp_inv (fun i r1 => forUp (fun j r2 => forUp (fun k (r3 : Matrix T) =>
          load A.pData (A.ElementAt i k) >>= fun a =>
          load B.pData (B.ElementAt k j) >>= fun b =>
          r3.get i j >>= fun old => r3.set i j (old + a * b)) 1 K r2) 1 C r1)
      (fun i r => Inv i 1 0 r) R 1 (Matrix.ctor Matrix.defaultIncrement R C)
      ⟨frame_ctor _ _ _, by simp [Matrix.ctor], fun a b ha ha2 hb hb2 => by
        rw [at1_ctor, if_neg (by omega)]
        by_cases c : a = 1 ∧ b = 1
        · rw [if_pos c]; simp [dotUpTo]
        · rw [if_neg c]⟩
      (fun i s hi hi2 hI => middle i s hi (by omega) hI)
  obtain ⟨P, h1, hf, hlen, hv⟩ := outer
  refine ⟨P, ?_, hf, hlen, ?_⟩
  · unfold Matrix.mul
    rw [if_pos (by rw [hAC, hBR])]
    simp only [hAR, hAC, hBC]
    exact h1
  · intro i j hi hi2 hj hj2
    rw [hv i j hi hi2 hj hj2, if_pos (by omega)]

end BasicLemmas

/-! ## Minors -/

section MinorLemmas

variable {T : Type}

theorem lin_lt {a b K W : Nat} (ha : a < K) (hb : b < W) : a * W + b < K * W := by
  have := Nat.mul_le_mul_right W (show a + 1 ≤ K by omega)
  rw [Nat.add_mul, Nat.one_mul] at this
  omega

/-- A loop whose body leaves the state unchanged. -/
theorem forUp_skip {σ : Type} (body : Nat → σ → Except Err σ) (lo cnt : Nat) (s : σ)
    (h : ∀ i t, lo ≤ i → i < lo + cnt → body i t = .ok t) : forUp body lo cnt s = .ok s := by
  obtain ⟨s', h1, h2⟩ := forUp_inv body (fun _ t => t = s) cnt lo s rfl
    (fun i t hi hi2 ht => ⟨t, h i t hi hi2, ht⟩)
  rw [h1, h2]

theorem MinorOf_spec [Zero T] (A : Matrix T) (W m n : Nat) (hA : A.Frame (W + 1) (W + 1))
    (hm : 1 ≤ m) (hm2 : m ≤ W + 1) (hn : 1 ≤ n) (hn2 : n ≤ W + 1) :
    ∃ buf, A.MinorOf m n = .ok ⟨W, W, buf, Matrix.uCapacityIncrement Matrix.defaultIncrement * W * W⟩ ∧
      buf.length = Matrix.uCapacityIncrement Matrix.defaultIncrement * W * W ∧
      ∀ a b, a < W → b < W → val buf (a * W + b) = A.at1 (skipAt m a) (skipAt n b) := by
  have hge := uCapacityIncrement_ge Matrix.defaultIncrement
  have hWW : W * W ≤ Matrix.uCapacityIncrement Matrix.defaultIncrement * W * W := by
    rw [Nat.mul_assoc]
    exact Nat.le_mul_of_pos_left _ (by omega)
  obtain ⟨hAR, hAC, hAl⟩ := hA
  let L := Matrix.uCapacityIncrement Matrix.defaultIncrement * W * W
  -- rows of the minor that are complete
  let Done : Nat → List T → Prop := fun k buf =>
    buf.length = L ∧ ∀ a b, a < k → b < W → val buf (a * W + b) = A.at1 (skipAt m a) (skipAt n b)
  have inner : ∀ (i : Nat) (st : List T × Nat), 1 ≤ i → i ≤ W + 1 →
      Done (keptBefore m i) st.1 → st.2 = keptBefore m i * W →
      ∃ st', forUp (fun j (st : List T × Nat) =>
          if i ≠ m ∧ j ≠ n then
            load A.pData (A.ElementAt i j) >>= fun v =>
            store st.1 st.2 v >>= fun b => .ok (b, st.2 + 1)
          else .ok st) 1 (W + 1) st = .ok st' ∧
        Done (keptBefore m (i + 1)) st'.1 ∧ st'.2 = keptBefore m (i + 1) * W := by
    intro i st hi hi2 hD hidx
    by_cases him : i = m
    · refine ⟨st, forUp_skip _ _ _ _ (fun j t _ _ => ?_), ?_, ?_⟩
      · dsimp only
        rw [if_neg (fun h => h.1 him)]
      · have : keptBefore m (i + 1) = keptBefore m i := by
          unfold keptBefore; subst him; simp
        rw [this]; exact hD
      · have : keptBefore m (i + 1) = keptBefore m i := by
          unfold keptBefore; subst him; simp
        rw [this]; exact hidx
    · have hk1 : keptBefore m (i + 1) = keptBefore m i + 1 := by
        unfold keptBefore; split <;> split <;> omega
      have hkW : keptBefore m i < W := by
        unfold keptBefore; split <;> omega
      have hsk : skipAt m (keptBefore m i) = i := by
        unfold skipAt keptBefore; split <;> split <;> omega
      have h := forUp_inv (fun j (st : List T × Nat) =>
          if i ≠ m ∧ j ≠ n then
            load A.pData (A.ElementAt i j) >>= fun v =>
            store st.1 st.2 v >>= fun b => .ok (b, st.2 + 1)
          else .ok st)
        (fun j st => Done (keptBefore m i) st.1 ∧ st.2 = keptBefore m i * W + keptBefore n j ∧
          ∀ b, b < keptBefore n j →
            val st.1 (keptBefore m i * W + b) = A.at1 i (skipAt n b))
        (W + 1) 1 st ⟨hD, by simp [keptBefore, hidx], fun b hb => by
          simp [keptBefore] at hb⟩
        (by
          intro j s hj hj2 ⟨⟨hl, hd⟩, hix, hrow⟩
          by_cases hjn : j = n
          · refine ⟨s, ?_, ⟨hl, hd⟩, ?_, ?_⟩
            · dsimp only
              rw [if_neg (fun h => h.2 hjn)]
            · have : keptBefore n (j + 1) = keptBefore n j := by
                unfold keptBefore; subst hjn; simp
              rw [this]; exact hix
            · have : keptBefore n (j + 1) = keptBefore n j := by
                unfold keptBefore; subst hjn; simp
              rw [this]; exact hrow
          · have hk2 : keptBefore n (j + 1) = keptBefore n j + 1 := by
              unfold keptBefore; split <;> split <;> omega
            have hkj : keptBefore n j < W := by
              unfold keptBefore; split <;> omega
            have hskj : skipAt n (keptBefore n j) = j := by
              unfold skipAt keptBefore; split <;> split <;> omega
            have hlt := lin_lt hkW hkj
            have hld : load A.pData (A.ElementAt i j) = .ok (A.at1 i j) :=
              load_ElementAt A (W + 1) (W + 1) i j ⟨hAR, hAC, hAl⟩ hi hi2 hj (by omega)
            refine ⟨(s.1.set s.2 (A.at1 i j), s.2 + 1), ?_, ⟨?_, ?_⟩, ?_, ?_⟩
            · dsimp only
              rw [if_pos ⟨him, hjn⟩, hld, ok_bind, store_of_lt _ _ _ (by rw [hl, hix]; omega),
                ok_bind]
            · show (s.1.set s.2 (A.at1 i j)).length = L
              simp [hl]
            · intro a b ha hb
              show val (s.1.set s.2 (A.at1 i j)) (a * W + b) = _
              have := lin_lt ha hb
              rw [val_set, if_neg (by omega)]
              exact hd a b ha hb
            · show s.2 + 1 = _
              rw [hk2, hix]; omega
            · intro b hb
              show val (s.1.set s.2 (A.at1 i j)) (keptBefore m i * W + b) = _
              rw [val_set]
              by_cases hbk : b = keptBefore n j
              · rw [if_pos ⟨by omega, by rw [hl, hix]; omega⟩, hbk, hskj]
              · rw [if_neg (by omega)]
                exact hrow b (by omega))
      obtain ⟨st', h1, ⟨hl, hd⟩, hix, hrow⟩ := h
      have hkn : keptBefore n (1 + (W + 1)) = W := by
        unfold keptBefore; split <;> omega
      rw [hkn] at hix hrow
      refine ⟨st', h1, ⟨hl, ?_⟩, ?_⟩
      · intro a b ha hb
        by_cases hak : a = keptBefore m i
        · rw [hak, hrow b hb, hsk]
        · exact hd a b (by omega) hb
      · rw [hk1, hix]; ring
  have outer := forUp_inv (fun i st1 => forUp (fun j (st : List T × Nat) =>
          if i ≠ m ∧ j ≠ n then
            load A.pData (A.ElementAt i j) >>= fun v =>
            store st.1 st.2 v >>= fun b => .ok (b, st.2 + 1)
          else .ok st) 1 (W + 1) st1)
      (fun i st => Done (keptBefore m i) st.1 ∧ st.2 = keptBefore m i * W)
      (W + 1) 1 ((Matrix.ctor Matrix.defaultIncrement W W : Matrix T).pData, 0)
      ⟨⟨by simp [Matrix.ctor, L], fun a b ha _ => by simp [keptBefore] at ha⟩,
        by simp [keptBefore]⟩
      (fun i s hi hi2 ⟨hD, hix⟩ => inner i s hi (by omega) hD hix)
  obtain ⟨st, h1, ⟨hl, hd⟩, _⟩ := outer
  have hkm : keptBefore m (1 + (W + 1)) = W := by
    unfold keptBefore; split <;> omega
  rw [hkm] at hd
  refine ⟨st.1, ?_, hl, hd⟩
  unfold Matrix.MinorOf
  rw [if_pos (by rw [hAR, hAC])]
  simp only [hAR, hAC, Matrix.usub]
  have e : (if 1 ≤ W + 1 then W + 1 - 1 else W + 1 + 2 ^ 64 - 1) = W := by
    rw [if_pos (by omega)]; omega
  rw [e, h1, ok_bind]
  rfl

end MinorLemmas

/-! ## The determinant -/

section DeterminantLemmas

variable {T : Type}

theorem det_eq_laplace [CommRing T] (A : Matrix T) (W : Nat) :
    Matrix.det (A.toMat (W + 2) (W + 2)) =
      ∑ k in Finset.range (W + 2), laplaceTerm A (W + 1) k := by
  rw [Matrix.det_succ_row_zero, ← Fin.sum_univ_eq_sum_range]
  apply Finset.sum_congr rfl
  intro j _
  have e : (A.toMat (W + 2) (W + 2)).submatrix Fin.succ j.succAbove = minorMat A (W + 1) j.val := by
    ext a b
    simp only [Matrix.submatrix_apply, Matrix.toMat, minorMat, skipAt, Fin.val_succ]
    have h1 : ¬ (a.val + 1 < 1) := by omega
    rw [if_neg h1]
    by_cases c : b.val < j.val
    · have : (j.succAbove b).val = b.val := by
        rw [Fin.succAbove_of_castSucc_lt _ _ (by simpa [Fin.lt_def] using c)]
        simp
      rw [this, if_pos (by omega)]
    · have : (j.succAbove b).val = b.val + 1 := by
        rw [Fin.succAbove_of_le_castSucc _ _ (by simpa [Fin.le_def] using Nat.le_of_not_lt c)]
        simp
      rw [this, if_neg (by omega)]
  rw [e]
  unfold laplaceTerm
  have e0 : A.toMat (W + 2) (W + 2) 0 j = A.at1 1 (j.val + 1) := by
    simp [Matrix.toMat]
  rw [e0]
  ring

theorem ofMatrix_spec [Zero T] (M : Matrix T) (N : Nat) (hM : M.Frame N N) :
    ∃ buf, Determinant.ofMatrix M =
        .ok ⟨⟨N, N, buf, Matrix.uCapacityIncrement Matrix.defaultIncrement * N * N⟩, N⟩ ∧
      buf.length = Matrix.uCapacityIncrement Matrix.defaultIncrement * N * N ∧
      ∀ idx, val buf idx = if idx < N * N then val M.pData idx else 0 := by
  obtain ⟨buf, h1, h2, h3⟩ := ctorCopy_spec Matrix.defaultIncrement M N N hM
  refine ⟨buf, ?_, h2, h3⟩
  unfold Determinant.ofMatrix
  rw [if_pos (by rw [hM.1, hM.2.1]), h1, ok_bind, hM.1]

theorem valueRec_eq_det [CommRing T] :
    ∀ (W fuel : Nat) (d : Determinant T), W ≤ fuel → d.size = W + 1 →
      d.pMat.Frame (W + 1) (W + 1) →
      Determinant.valueRec fuel d = .ok (Matrix.det (d.pMat.toMat (W + 1) (W + 1))) := by
  intro W
  induction W with
  | zero =>
    intro fuel d _ hs hf
    unfold Determinant.valueRec
    rw [if_pos hs, load_of_lt _ _ (by have := hf.2.2; omega)]
    rw [Matrix.det_fin_one]
    simp [Matrix.toMat, Matrix.at1]
  | succ W ih =>
    intro fuel d hfuel hs hf
    obtain ⟨f, rfl⟩ : ∃ f, fuel = f + 1 := ⟨fuel - 1, by omega⟩
    rcases d with ⟨A, sz⟩
    simp only at hs hf
    subst hs
    have hlen := hf.2.2
    have hlt : ∀ i, i < W + 2 → i < A.pData.length := by
      intro i hi
      have : W + 2 ≤ (W + 1 + 1) * (W + 1 + 1) := Nat.le_mul_of_pos_left _ (by omega)
      omega
    have h := forUp_inv (fun i (st : T × T) =>
          A.MinorOf 1 (i + 1) >>= fun minorMat =>
          Determinant.ofMatrix minorMat >>= fun minorDet =>
          Determinant.valueRec f minorDet >>= fun v =>
          load A.pData i >>= fun a =>
          .ok (st.1 + st.2 * v * a, -st.2))
      (fun i st => st.1 = ∑ k in Finset.range i, laplaceTerm A (W + 1) k ∧ st.2 = (-1) ^ i)
      (W + 2) 0 ((0 : T), (1 : T)) ⟨by simp, by simp⟩
      (by
        intro i st _ hi ⟨hsum, hsign⟩
        obtain ⟨buf, hm1, hm2, hm3⟩ := MinorOf_spec A (W + 1) 1 (i + 1) hf (by omega) (by omega)
          (by omega) (by omega)
        obtain ⟨buf', ho1, ho2, ho3⟩ := ofMatrix_spec
          (⟨W + 1, W + 1, buf, Matrix.uCapacityIncrement Matrix.defaultIncrement * (W + 1) * (W + 1)⟩ :
            Matrix T) (W + 1) (frame_of_copy _ _ _ _ hm2)
        have hv := ih f ⟨⟨W + 1, W + 1, buf',
          Matrix.uCapacityIncrement Matrix.defaultIncrement * (W + 1) * (W + 1)⟩, W + 1⟩ (by omega) rfl
          (frame_of_copy _ _ _ _ ho2)
        have hmat : Matrix.toMat (⟨W + 1, W + 1, buf',
            Matrix.uCapacityIncrement Matrix.defaultIncrement * (W + 1) * (W + 1)⟩ : Matrix T)
            (W + 1) (W + 1) = minorMat A (W + 1) i := by
          ext a b
          simp only [Matrix.toMat, Matrix.at1, minorMat, Nat.add_sub_cancel]
          have := lin_lt a.isLt b.isLt
          rw [ho3, if_pos this]
          exact hm3 a.val b.val a.isLt b.isLt
        rw [hmat] at hv
        refine ⟨(st.1 + st.2 * Matrix.det (minorMat A (W + 1) i) * A.at1 1 (i + 1), -st.2), ?_, ?_, ?_⟩
        · dsimp only
          rw [hm1, ok_bind, ho1, ok_bind, hv, ok_bind, load_of_lt _ _ (hlt i (by omega)), ok_bind]
          simp [Matrix.at1]
        · show st.1 + st.2 * _ * _ = _
          rw [Finset.sum_range_succ, hsum, hsign]
          rfl
        · show -st.2 = _
          rw [hsign, pow_succ]; ring)
    obtain ⟨st, h1, hsum, _⟩ := h
    simp only [Nat.zero_add] at hsum
    unfold Determinant.valueRec
    simp only
    rw [if_neg (by omega), h1, ok_bind, hsum, det_eq_laplace]

end DeterminantLemmas

section DeterminantValue

variable {T : Type}

/-- The live matrix of a copy is the live matrix of the original. -/
theorem toMat_of_val_eq [Zero T] (M M' : Matrix T) (R C : Nat) (hC : M.uCol = C)
    (hC' : M'.uCol = C) (h : ∀ idx, idx < R * C → val M'.pData idx = val M.pData idx) :
    M'.toMat R C = M.toMat R C := by
  ext a b
  simp only [Matrix.toMat, Matrix.at1, Nat.add_sub_cancel, hC, hC']
  exact h _ (lin_lt a.isLt b.isLt)

/-- `Value()` of the determinant built from a square matrix of size at least 1. -/
theorem Value_of_frame [CommRing T] (A : Matrix T) (N : Nat) (hN : 1 ≤ N) (hA : A.Frame N N) :
    ∃ d, Determinant.ofMatrix A = .ok d ∧ d.Value = .ok (Matrix.det (A.toMat N N)) := by
  obtain ⟨W, rfl⟩ : ∃ W, N = W + 1 := ⟨N - 1, by omega⟩
  obtain ⟨buf, h1, h2, h3⟩ := ofMatrix_spec A (W + 1) hA
  refine ⟨_, h1, ?_⟩
  unfold Determinant.Value
  rw [valueRec_eq_det W (W + 1) _ (by omega) rfl (frame_of_copy _ _ _ _ h2)]
  congr 2
  apply toMat_of_val_eq A _ (W + 1) (W + 1) hA.2.1 rfl
  intro idx hidx
  show val buf idx = _
  rw [h3, if_pos hidx]

/-- `Value()` of an empty determinant is `0`: the loop does not run. -/
theorem Value_of_empty [CommRing T] (A : Matrix T) (hA : A.Frame 0 0) :
    ∃ d, Determinant.ofMatrix A = .ok d ∧ d.Value = .ok 0 := by
  obtain ⟨buf, h1, _, _⟩ := ofMatrix_spec A 0 hA
  refine ⟨_, h1, ?_⟩
  unfold Determinant.Value Determinant.valueRec
  simp [forUp_zero, ok_bind]

/-- The value of the minor that `Value()` computes for column `i + 1`. -/
theorem minor_Value [CommRing T] (A : Matrix T) (W i : Nat) (hA : A.Frame (W + 2) (W + 2))
    (hi : i < W + 2) :
    ∃ M dM, A.MinorOf 1 (i + 1) = .ok M ∧ Determinant.ofMatrix M = .ok dM ∧
      dM.Value = .ok (Matrix.det (minorMat A (W + 1) i)) := by
  obtain ⟨buf, hm1, hm2, hm3⟩ := MinorOf_spec A (W + 1) 1 (i + 1) hA (by omega) (by omega)
    (by omega) (by omega)
  have hfM := frame_of_copy (T := T) Matrix.defaultIncrement (W + 1) (W + 1) buf hm2
  obtain ⟨dM, hd1, hd2⟩ := Value_of_frame _ (W + 1) (by omega) hfM
  refine ⟨_, dM, hm1, hd1, ?_⟩
  rw [hd2]
  congr 2
  ext a b
  simp only [Matrix.toMat, Matrix.at1, minorMat, Nat.add_sub_cancel]
  exact hm3 a.val b.val a.isLt b.isLt

/-- The live matrix of a product is the product of the live matrices. -/
theorem toMat_mul [Semiring T] (A B P : Matrix T) (R K C : Nat)
    (h : ∀ i j, 1 ≤ i → i ≤ R → 1 ≤ j → j ≤ C → P.at1 i j = dotUpTo A B i j K) :
    P.toMat R C = A.toMat R K * B.toMat K C := by
  ext a b
  rw [Matrix.mul_apply]
  simp only [Matrix.toMat]
  rw [h _ _ (by omega) (by have := a.isLt; omega) (by omega) (by have := b.isLt; omega)]
  unfold dotUpTo
  rw [← Fin.sum_univ_eq_sum_range (fun x => A.at1 (a.val + 1) (x + 1) * B.at1 (x + 1) (b.val + 1))]

theorem laplace_sum_Icc [CommRing T] (A : Matrix T) (W : Nat) :
    ∑ k in Finset.range (W + 2), laplaceTerm A (W + 1) k =
      ∑ j in Finset.Icc 1 (W + 2),
        (-1) ^ (j + 1) * A.at1 1 j * Matrix.det (minorMat A (W + 1) (j - 1)) := by
  rw [Finset.range_eq_Ico]
  have e : Finset.Icc 1 (W + 2) = Finset.Ico (0 + 1) (W + 2 + 1) := by
    ext x; simp [Finset.mem_Icc, Finset.mem_Ico]; omega
  rw [e, ← Finset.sum_Ico_add' _ 0 (W + 2) 1]
  apply Finset.sum_congr rfl
  intro k _
  unfold laplaceTerm
  simp only [Nat.add_sub_cancel]
  rw [pow_succ, pow_succ]
  ring

end DeterminantValue

/-! ## Claims on the determinant -/

/-- C3: for an `N × N` matrix with `N ≥ 1` over a commutative ring, `Value()` is the
determinant of the matrix; it is the sole element when `N = 1`, and for `N ≥ 2` it is the
expansion along the first row, the sum over `j = 1..N` of
`(-1)^(j+1) * a(1,j) * Value(MinorOf(1, j))`.  For `[[1, 2], [3, 4]]` it is `-2`. -/
theorem Determinant_Value_is_determinant :
    (∀ (T : Type) [CommRing T] (A : Matrix T) (N : Nat), 1 ≤ N → A.Frame N N →
      ∃ d, Determinant.ofMatrix A = .ok d ∧
        d.Value = .ok (Matrix.det (A.toMat N N)) ∧
        (N = 1 → ∃ a, A.get 1 1 = .ok a ∧ d.Value = .ok a) ∧
        (2 ≤ N → ∃ a v : Nat → T,
          (∀ j, 1 ≤ j → j ≤ N → A.get 1 j = .ok (a j) ∧
            ∃ M dM, A.MinorOf 1 j = .ok M ∧ Determinant.ofMatrix M = .ok dM ∧
              dM.Value = .ok (v j)) ∧
          d.Value = .ok (∑ j in Finset.Icc 1 N, (-1) ^ (j + 1) * a j * v j))) ∧
    (∃ A d, Matrix.ctorData 2 2 2 [(1 : ℚ), 2, 3, 4] 4 = .ok A ∧
      Determinant.ofMatrix A = .ok d ∧ d.Value = .ok (-2)) := by
  refine ⟨?_, ?_⟩
  · intro T _ A N hN hA
    obtain ⟨d, hd1, hd2⟩ := Value_of_frame A N hN hA
    refine ⟨d, hd1, hd2, ?_, ?_⟩
    · intro h1
      subst h1
      refine ⟨A.at1 1 1, get_of_frame A 1 1 1 1 hA (by omega) (by omega) (by omega) (by omega), ?_⟩
      rw [hd2, Matrix.det_fin_one]
      simp [Matrix.toMat]
    · intro h2
      obtain ⟨W, rfl⟩ : ∃ W, N = W + 2 := ⟨N - 2, by omega⟩
      refine ⟨fun j => A.at1 1 j, fun j => Matrix.det (minorMat A (W + 1) (j - 1)), ?_, ?_⟩
      · intro j hj hj2
        refine ⟨get_of_frame A _ _ 1 j hA (by omega) (by omega) hj hj2, ?_⟩
        obtain ⟨j', rfl⟩ : ∃ j', j = j' + 1 := ⟨j - 1, by omega⟩
        simpa using minor_Value A W j' hA (by omega)
      · rw [hd2, det_eq_laplace, laplace_sum_Icc]
  · exact ⟨⟨2, 2, [1, 2, 3, 4, 0, 0, 0, 0], 8⟩, ⟨⟨2, 2, [1, 2, 3, 4, 0, 0, 0, 0], 8⟩, 2⟩,
      rfl, rfl, by decide!⟩

/-- The general statement of C3 applied to the `2 × 2` matrix `[[1, 2], [3, 4]]`, where
`Value()` runs the expansion along the first row. -/
theorem Determinant_Value_is_determinant_witness :
    ∃ d, Determinant.ofMatrix (⟨2, 2, [1, 2, 3, 4, 0, 0, 0, 0], 8⟩ : Matrix ℚ) = .ok d ∧
      d.Value = .ok (Matrix.det ((⟨2, 2, [1, 2, 3, 4, 0, 0, 0, 0], 8⟩ : Matrix ℚ).toMat 2 2)) ∧
      (2 = 1 → ∃ a, (⟨2, 2, [1, 2, 3, 4, 0, 0, 0, 0], 8⟩ : Matrix ℚ).get 1 1 = .ok a ∧
        d.Value = .ok a) ∧
      (2 ≤ 2 → ∃ a v : Nat → ℚ,
        (∀ j, 1 ≤ j → j ≤ 2 →
          (⟨2, 2, [1, 2, 3, 4, 0, 0, 0, 0], 8⟩ : Matrix ℚ).get 1 j = .ok (a j) ∧
          ∃ M dM, (⟨2, 2, [1, 2, 3, 4, 0, 0, 0, 0], 8⟩ : Matrix ℚ).MinorOf 1 j = .ok M ∧
            Determinant.ofMatrix M = .ok dM ∧ dM.Value = .ok (v j)) ∧
        d.Value = .ok (∑ j in Finset.Icc 1 2, (-1) ^ (j + 1) * a j * v j)) :=
  Determinant_Value_is_determinant.1 ℚ ⟨2, 2, [1, 2, 3, 4, 0, 0, 0, 0], 8⟩ 2 (by decide)
    ⟨rfl, rfl, by decide⟩

/-- C4: the determinant is multiplicative on `N × N` matrices over a commutative ring:
`Value()` of the product `A * B` is the product of the values of `A` and `B`. -/
theorem Determinant_Value_mul (T : Type) [CommRing T] (A B : Matrix T) (N : Nat)
    (hA : A.Frame N N) (hB : B.Frame N N) :
    ∃ P dA dB dP a b, A.mul B = .ok P ∧ Determinant.ofMatrix A = .ok dA ∧
      Determinant.ofMatrix B = .ok dB ∧ Determinant.ofMatrix P = .ok dP ∧
      dA.Value = .ok a ∧ dB.Value = .ok b ∧ dP.Value = .ok (a * b) := by
  obtain ⟨P, hP1, hP2, _, hP4⟩ := mul_spec A B N N N hA hB
  rcases Nat.eq_zero_or_pos N with h0 | hpos
  · subst h0
    obtain ⟨dA, ha1, ha2⟩ := Value_of_empty A hA
    obtain ⟨dB, hb1, hb2⟩ := Value_of_empty B hB
    obtain ⟨dP, hp1, hp2⟩ := Value_of_empty P hP2
    exact ⟨P, dA, dB, dP, 0, 0, hP1, ha1, hb1, hp1, ha2, hb2, by rw [hp2]; simp⟩
  · obtain ⟨dA, ha1, ha2⟩ := Value_of_frame A N hpos hA
    obtain ⟨dB, hb1, hb2⟩ := Value_of_frame B N hpos hB
    obtain ⟨dP, hp1, hp2⟩ := Value_of_frame P N hpos hP2
    refine ⟨P, dA, dB, dP, _, _, hP1, ha1, hb1, hp1, ha2, hb2, ?_⟩
    rw [hp2, toMat_mul A B P N N N hP4, Matrix.det_mul]

/-- C4 applied to `A = [[1, 2], [3, 4]]` and `B = [[5, 6], [7, 8]]`: the values are `-2`,
`-2` and, for the product `[[19, 22], [43, 50]]`, `4`. -/
theorem Determinant_Value_mul_witness :
    (∃ P dA dB dP a b,
      (⟨2, 2, [1, 2, 3, 4, 0, 0, 0, 0], 8⟩ : Matrix ℚ).mul
        ⟨2, 2, [5, 6, 7, 8, 0, 0, 0, 0], 8⟩ = .ok P ∧
      Determinant.ofMatrix (⟨2, 2, [1, 2, 3, 4, 0, 0, 0, 0], 8⟩ : Matrix ℚ) = .ok dA ∧
      Determinant.ofMatrix (⟨2, 2, [5, 6, 7, 8, 0, 0, 0, 0], 8⟩ : Matrix ℚ) = .ok dB ∧
      Determinant.ofMatrix P = .ok dP ∧
      dA.Value = .ok a ∧ dB.Value = .ok b ∧ dP.Value = .ok (a * b)) ∧
    (∃ P dA dB dP,
      (⟨2, 2, [1, 2, 3, 4, 0, 0, 0, 0], 8⟩ : Matrix ℚ).mul
        ⟨2, 2, [5, 6, 7, 8, 0, 0, 0, 0], 8⟩ = .ok P ∧
      P = ⟨2, 2, [19, 22, 43, 50, 0, 0, 0, 0], 8⟩ ∧
      Determinant.ofMatrix (⟨2, 2, [1, 2, 3, 4, 0, 0, 0, 0], 8⟩ : Matrix ℚ) = .ok dA ∧
      Determinant.ofMatrix (⟨2, 2, [5, 6, 7, 8, 0, 0, 0, 0], 8⟩ : Matrix ℚ) = .ok dB ∧
      Determinant.ofMatrix P = .ok dP ∧
      dA.Value = .ok (-2) ∧ dB.Value = .ok (-2) ∧ dP.Value = .ok 4) :=
  ⟨Determinant_Value_mul ℚ ⟨2, 2, [1, 2, 3, 4, 0, 0, 0, 0], 8⟩
      ⟨2, 2, [5, 6, 7, 8, 0, 0, 0, 0], 8⟩ 2 ⟨rfl, rfl, by decide⟩ ⟨rfl, rfl, by decide⟩,
    ⟨⟨2, 2, [19, 22, 43, 50, 0, 0, 0, 0], 8⟩, ⟨⟨2, 2, [1, 2, 3, 4, 0, 0, 0, 0], 8⟩, 2⟩,
      ⟨⟨2, 2, [5, 6, 7, 8, 0, 0, 0, 0], 8⟩, 2⟩, ⟨⟨2, 2, [19, 22, 43, 50, 0, 0, 0, 0], 8⟩, 2⟩,
      by decide!, rfl, rfl, rfl, rfl, by decide!, by decide!, by decide!⟩⟩

/-! ## Elementary row transformations -/

section RowOps

variable {T : Type}

/-- The loop of `RowInterchange` on two disjoint rows of the buffer. -/
theorem swap_loop [Zero T] (p1 p2 C : Nat) (b0 : List T)
    (hdis : p1 + C ≤ p2 ∨ p2 + C ≤ p1) (h1 : p1 + C ≤ b0.length) (h2 : p2 + C ≤ b0.length) :
    ∃ buf, forUp (fun i b =>
        load b (p1 + i) >>= fun tmp =>
        load b (p2 + i) >>= fun v2 =>
        store b (p1 + i) v2 >>= fun b1 =>
        store b1 (p2 + i) tmp) 0 C b0 = .ok buf ∧
      buf.length = b0.length ∧
      ∀ idx, val buf idx =
        if p1 ≤ idx ∧ idx < p1 + C then val b0 (idx - p1 + p2)
        else if p2 ≤ idx ∧ idx < p2 + C then val b0 (idx - p2 + p1) else val b0 idx := by
  have h := forUp_inv (fun i b =>
        load b (p1 + i) >>= fun tmp =>
        load b (p2 + i) >>= fun v2 =>
        store b (p1 + i) v2 >>= fun b1 =>
        store b1 (p2 + i) tmp)
    (fun i b => b.length = b0.length ∧
      ∀ idx, val b idx =
        if p1 ≤ idx ∧ idx < p1 + i then val b0 (idx - p1 + p2)
        else if p2 ≤ idx ∧ idx < p2 + i then val b0 (idx - p2 + p1) else val b0 idx)
    C 0 b0 ⟨rfl, fun idx => by
      have c1 : ¬ (p1 ≤ idx ∧ idx < p1 + 0) := by omega
      have c2 : ¬ (p2 ≤ idx ∧ idx < p2 + 0) := by omega
      rw [if_neg c1, if_neg c2]⟩
    (by
      intro i b _ hi ⟨hl, hv⟩
      have e1 : val b (p1 + i) = val b0 (p1 + i) := by
        have c1 : ¬ (p1 ≤ p1 + i ∧ p1 + i < p1 + i) := by omega
        have c2 : ¬ (p2 ≤ p1 + i ∧ p1 + i < p2 + i) := by omega
        rw [hv, if_neg c1, if_neg c2]
      have e2 : val b (p2 + i) = val b0 (p2 + i) := by
        have c1 : ¬ (p1 ≤ p2 + i ∧ p2 + i < p1 + i) := by omega
        have c2 : ¬ (p2 ≤ p2 + i ∧ p2 + i < p2 + i) := by omega
        rw [hv, if_neg c1, if_neg c2]
      refine ⟨(b.set (p1 + i) (val b0 (p2 + i))).set (p2 + i) (val b0 (p1 + i)), ?_, ?_, ?_⟩
      · dsimp only
        rw [load_of_lt b _ (by omega), ok_bind, load_of_lt b _ (by omega), ok_bind,
          store_of_lt b _ _ (by omega), ok_bind, store_of_lt _ _ _ (by simp; omega), e1, e2]
      · simp [hl]
      · intro idx
        rw [val_set, val_set, hv idx]
        simp only [List.length_set]
        by_cases c1 : idx = p2 + i
        · have d1 : ¬ (p1 ≤ idx ∧ idx < p1 + (i + 1)) := by omega
          have d2 : p2 ≤ idx ∧ idx < p2 + (i + 1) := by omega
          have d3 : idx = p2 + i ∧ p2 + i < b.length := by omega
          rw [if_pos d3, if_neg d1, if_pos d2]
          have : idx - p2 + p1 = p1 + i := by omega
          rw [this]
        · have d3 : ¬ (idx = p2 + i ∧ p2 + i < b.length) := by omega
          rw [if_neg d3]
          by_cases c2 : idx = p1 + i
          · have d1 : p1 ≤ idx ∧ idx < p1 + (i + 1) := by omega
            have d4 : idx = p1 + i ∧ p1 + i < b.length := by omega
            rw [if_pos d4, if_pos d1]
            have : idx - p1 + p2 = p2 + i := by omega
            rw [this]
          · have d4 : ¬ (idx = p1 + i ∧ p1 + i < b.length) := by omega
            rw [if_neg d4]
            have d5 : (p1 ≤ idx ∧ idx < p1 + (i + 1)) ↔ (p1 ≤ idx ∧ idx < p1 + i) := by omega
            have d6 : (p2 ≤ idx ∧ idx < p2 + (i + 1)) ↔ (p2 ≤ idx ∧ idx < p2 + i) := by omega
            simp only [d5, d6])
  simpa using h

/-- The loop of `RowScaling` on one row of the buffer. -/
theorem scale_loop [Zero T] [Mul T] (p C : Nat) (k : T) (b0 : List T) (h1 : p + C ≤ b0.length) :
    ∃ buf, forUp (fun i b => load b (p + i) >>= fun v => store b (p + i) (v * k)) 0 C b0
        = .ok buf ∧
      buf.length = b0.length ∧
      ∀ idx, val buf idx = if p ≤ idx ∧ idx < p + C then val b0 idx * k else val b0 idx := by
  have h := forUp_inv (fun i b => load b (p + i) >>= fun v => store b (p + i) (v * k))
    (fun i b => b.length = b0.length ∧
      ∀ idx, val b idx = if p ≤ idx ∧ idx < p + i then val b0 idx * k else val b0 idx)
    C 0 b0 ⟨rfl, fun idx => by
      have c1 : ¬ (p ≤ idx ∧ idx < p + 0) := by omega
      rw [if_neg c1]⟩
    (by
      intro i b _ hi ⟨hl, hv⟩
      have e1 : val b (p + i) = val b0 (p + i) := by
        have c1 : ¬ (p ≤ p + i ∧ p + i < p + i) := by omega
        rw [hv, if_neg c1]
      refine ⟨b.set (p + i) (val b0 (p + i) * k), ?_, ?_, ?_⟩
      · dsimp only
        rw [load_of_lt b _ (by omega), ok_bind, store_of_lt b _ _ (by omega), e1]
      · simp [hl]
      · intro idx
        rw [val_set, hv idx]
        by_cases c1 : idx = p + i
        · have d1 : p ≤ idx ∧ idx < p + (i + 1) := by omega
          have d3 : idx = p + i ∧ p + i < b.length := by omega
          rw [if_pos d3, if_pos d1, c1]
        · have d3 : ¬ (idx = p + i ∧ p + i < b.length) := by omega
          have d5 : (p ≤ idx ∧ idx < p + (i + 1)) ↔ (p ≤ idx ∧ idx < p + i) := by omega
          rw [if_neg d3]
          simp only [d5])
  simpa using h

/-- The loop of `RowAddition` on two disjoint rows of the buffer. -/
theorem axpy_loop [Zero T] [Add T] [Mul T] (pS pT C : Nat) (k : T) (b0 : List T)
    (hdis : pS + C ≤ pT ∨ pT + C ≤ pS) (h1 : pS + C ≤ b0.length) (h2 : pT + C ≤ b0.length) :
    ∃ buf, forUp (fun i b =>
        load b (pS + i) >>= fun s =>
        load b (pT + i) >>= fun t =>
        store b (pT + i) (t + k * s)) 0 C b0 = .ok buf ∧
      buf.length = b0.length ∧
      ∀ idx, val buf idx =
        if pT ≤ idx ∧ idx < pT + C then val b0 idx + k * val b0 (idx - pT + pS)
        else val b0 idx := by
  have h := forUp_inv (fun i b =>
        load b (pS + i) >>= fun s =>
        load b (pT + i) >>= fun t =>
        store b (pT + i) (t + k * s))
    (fun i b => b.length = b0.length ∧
      ∀ idx, val b idx =
        if pT ≤ idx ∧ idx < pT + i then val b0 idx + k * val b0 (idx - pT + pS)
        else val b0 idx)
    C 0 b0 ⟨rfl, fun idx => by
      have c1 : ¬ (pT ≤ idx ∧ idx < pT + 0) := by omega
      rw [if_neg c1]⟩
    (by
      intro i b _ hi ⟨hl, hv⟩
      have e1 : val b (pS + i) = val b0 (pS + i) := by
        have c1 : ¬ (pT ≤ pS + i ∧ pS + i < pT + i) := by omega
        rw [hv, if_neg c1]
      have e2 : val b (pT + i) = val b0 (pT + i) := by
        have c1 : ¬ (pT ≤ pT + i ∧ pT + i < pT + i) := by omega
        rw [hv, if_neg c1]
      refine ⟨b.set (pT + i) (val b0 (pT + i) + k * val b0 (pS + i)), ?_, ?_, ?_⟩
      · dsimp only
        rw [load_of_lt b _ (by omega), ok_bind, load_of_lt b _ (by omega), ok_bind,
          store_of_lt b _ _ (by omega), e1, e2]
      · simp [hl]
      · intro idx
        rw [val_set, hv idx]
        by_cases c1 : idx = pT + i
        · have d1 : pT ≤ idx ∧ idx < pT + (i + 1) := by omega
          have d3 : idx = pT + i ∧ pT + i < b.length := by omega
          rw [if_pos d3, if_pos d1, c1]
          have : pT + i - pT + pS = pS + i := by omega
          rw [this]
        · have d3 : ¬ (idx = pT + i ∧ pT + i < b.length) := by omega
          have d5 : (pT ≤ idx ∧ idx < pT + (i + 1)) ↔ (pT ≤ idx ∧ idx < pT + i) := by omega
          rw [if_neg d3]
          simp only [d5])
  simpa using h

/-- An offset lies in row `p` of the buffer exactly when it is the offset of an element of
row `p`. -/
theorem row_mem_iff {a b p C : Nat} (ha : 1 ≤ a) (hp : 1 ≤ p) (hb : 1 ≤ b) (hb2 : b ≤ C) :
    ((p - 1) * C ≤ (a - 1) * C + (b - 1) ∧ (a - 1) * C + (b - 1) < (p - 1) * C + C) ↔ a = p := by
  obtain ⟨a', rfl⟩ : ∃ a', a = a' + 1 := ⟨a - 1, by omega⟩
  obtain ⟨p', rfl⟩ : ∃ p', p = p' + 1 := ⟨p - 1, by omega⟩
  simp only [Nat.add_sub_cancel]
  constructor
  · intro ⟨h1, h2⟩
    rcases Nat.lt_trichotomy a' p' with hlt | heq | hgt
    · have := Nat.mul_le_mul_right C (show a' + 1 ≤ p' by omega)
      rw [Nat.add_mul, Nat.one_mul] at this
      omega
    · rw [heq]
    · have := Nat.mul_le_mul_right C (show p' + 1 ≤ a' by omega)
      rw [Nat.add_mul, Nat.one_mul] at this
      omega
  · intro h
    have : a' = p' := by omega
    subst this
    omega

/-- Two different rows occupy disjoint parts of the buffer. -/
theorem rows_disjoint {p q C : Nat} (hp : 1 ≤ p) (hq : 1 ≤ q) (hpq : p ≠ q) :
    (p - 1) * C + C ≤ (q - 1) * C ∨ (q - 1) * C + C ≤ (p - 1) * C := by
  obtain ⟨p', rfl⟩ : ∃ p', p = p' + 1 := ⟨p - 1, by omega⟩
  obtain ⟨q', rfl⟩ : ∃ q', q = q' + 1 := ⟨q - 1, by omega⟩
  simp only [Nat.add_sub_cancel]
  rcases Nat.lt_or_gt_of_ne (show p' ≠ q' by omega) with h | h
  · left
    have := Nat.mul_le_mul_right C (show p' + 1 ≤ q' by omega)
    rw [Nat.add_mul, Nat.one_mul] at this
    exact this
  · right
    have := Nat.mul_le_mul_right C (show q' + 1 ≤ p' by omega)
    rw [Nat.add_mul, Nat.one_mul] at this
    exact this

/-- A row of a framed matrix lies inside the buffer. -/
theorem row_in_buffer {p R C : Nat} (hp : 1 ≤ p) (hp2 : p ≤ R) : (p - 1) * C + C ≤ R * C := by
  obtain ⟨p', rfl⟩ : ∃ p', p = p' + 1 := ⟨p - 1, by omega⟩
  simp only [Nat.add_sub_cancel]
  have := Nat.mul_le_mul_right C hp2
  rw [Nat.add_mul, Nat.one_mul] at this
  exact this

/-- The address `&ElemAt(p, 1)` of a row. -/
theorem ElemAt_row (m : Matrix T) (R C p : Nat) (hf : m.Frame R C) (hC : 1 ≤ C) (hp : 1 ≤ p)
    (hp2 : p ≤ R) : m.ElemAt p 1 = .ok ((p - 1) * C) := by
  unfold Matrix.ElemAt
  rw [if_pos (by rw [hf.1, hf.2.1]; omega), hf.2.1]
  rfl

theorem RowInterchange_spec [Zero T] (m : Matrix T) (R C p q : Nat) (hf : m.Frame R C)
    (hC : 1 ≤ C) (hp : 1 ≤ p) (hp2 : p ≤ R) (hq : 1 ≤ q) (hq2 : q ≤ R) (hpq : p ≠ q) :
    ∃ buf, m.RowInterchange p q = .ok { m with pData := buf } ∧
      buf.length = m.pData.length ∧
      ∀ a b, 1 ≤ a → a ≤ R → 1 ≤ b → b ≤ C →
        Matrix.at1 { m with pData := buf } a b = m.at1 (swapF p q a) b := by
  have hl := hf.2.2
  have r1 := row_in_buffer (C := C) hp hp2
  have r2 := row_in_buffer (C := C) hq hq2
  obtain ⟨buf, h1, h2, h3⟩ := swap_loop ((p - 1) * C) ((q - 1) * C) C m.pData
    (rows_disjoint hp hq hpq) (by omega) (by omega)
  refine ⟨buf, ?_, h2, ?_⟩
  · unfold Matrix.RowInterchange
    rw [if_pos (by rw [hf.1]; omega), ElemAt_row m R C p hf hC hp hp2, ok_bind,
      ElemAt_row m R C q hf hC hq hq2, ok_bind, hf.2.1, h1, ok_bind]
  · intro a b ha ha2 hb hb2
    unfold Matrix.at1 swapF
    simp only [hf.2.1]
    rw [h3]
    by_cases c1 : a = p
    · subst c1
      rw [if_pos ((row_mem_iff ha ha hb hb2).2 rfl), if_pos rfl]
      have e : (a - 1) * C + (b - 1) - (a - 1) * C + (q - 1) * C = (q - 1) * C + (b - 1) := by
        omega
      rw [e]
    · rw [if_neg (fun h => c1 ((row_mem_iff ha hp hb hb2).1 h)), if_neg c1]
      by_cases c2 : a = q
      · subst c2
        rw [if_pos ((row_mem_iff ha ha hb hb2).2 rfl), if_pos rfl]
        have e : (a - 1) * C + (b - 1) - (a - 1) * C + (p - 1) * C = (p - 1) * C + (b - 1) := by
          omega
        rw [e]
      · rw [if_neg (fun h => c2 ((row_mem_iff ha hq hb hb2).1 h)), if_neg c2]

theorem RowScaling_spec [Zero T] [Mul T] [DecidableEq T] (m : Matrix T) (R C r : Nat) (k : T)
    (hf : m.Frame R C) (hC : 1 ≤ C) (hr : 1 ≤ r) (hr2 : r ≤ R) (hk : k ≠ 0) :
    ∃ buf, m.RowScaling r k = .ok { m with pData := buf } ∧
      buf.length = m.pData.length ∧
      ∀ a b, 1 ≤ a → a ≤ R → 1 ≤ b → b ≤ C →
        Matrix.at1 { m with pData := buf } a b =
          if a = r then m.at1 a b * k else m.at1 a b := by
  have hl := hf.2.2
  have r1 := row_in_buffer (C := C) hr hr2
  obtain ⟨buf, h1, h2, h3⟩ := scale_loop ((r - 1) * C) C k m.pData (by omega)
  refine ⟨buf, ?_, h2, ?_⟩
  · unfold Matrix.RowScaling
    rw [if_pos (by rw [hf.1]; omega), if_pos hk, ElemAt_row m R C r hf hC hr hr2, ok_bind,
      hf.2.1, h1, ok_bind]
  · intro a b ha ha2 hb hb2
    unfold Matrix.at1
    simp only [hf.2.1]
    rw [h3]
    by_cases c1 : a = r
    · rw [if_pos ((row_mem_iff ha hr hb hb2).2 c1), if_pos c1]
    · rw [if_neg (fun h => c1 ((row_mem_iff ha hr hb hb2).1 h)), if_neg c1]

theorem RowAddition_spec [Zero T] [Add T] [Mul T] (m : Matrix T) (R C s t : Nat) (k : T)
    (hf : m.Frame R C) (hC : 1 ≤ C) (hs : 1 ≤ s) (hs2 : s ≤ R) (ht : 1 ≤ t) (ht2 : t ≤ R)
    (hst : s ≠ t) :
    ∃ buf, m.RowAddition s k t = .ok { m with pData := buf } ∧
      buf.length = m.pData.length ∧
      ∀ a b, 1 ≤ a → a ≤ R → 1 ≤ b → b ≤ C →
        Matrix.at1 { m with pData := buf } a b =
          if a = t then m.at1 t b + k * m.at1 s b else m.at1 a b := by
  have hl := hf.2.2
  have r1 := row_in_buffer (C := C) hs hs2
  have r2 := row_in_buffer (C := C) ht ht2
  obtain ⟨buf, h1, h2, h3⟩ := axpy_loop ((s - 1) * C) ((t - 1) * C) C k m.pData
    (rows_disjoint hs ht hst) (by omega) (by omega)
  refine ⟨buf, ?_, h2, ?_⟩
  · unfold Matrix.RowAddition
    rw [if_pos (by rw [hf.1]; omega), ElemAt_row m R C s hf hC hs hs2, ok_bind,
      ElemAt_row m R C t hf hC ht ht2, ok_bind, hf.2.1, h1, ok_bind]
  · intro a b ha ha2 hb hb2
    unfold Matrix.at1
    simp only [hf.2.1]
    rw [h3]
    by_cases c1 : a = t
    · subst c1
      rw [if_pos ((row_mem_iff ha ha hb hb2).2 rfl), if_pos rfl]
      have e : (a - 1) * C + (b - 1) - (a - 1) * C + (s - 1) * C = (s - 1) * C + (b - 1) := by
        omega
      rw [e]
    · rw [if_neg (fun h => c1 ((row_mem_iff ha ht hb hb2).1 h)), if_neg c1]

/-- Replacing the buffer by one of the same length keeps the frame. -/
theorem frame_with (m : Matrix T) (R C : Nat) (hf : m.Frame R C) (buf : List T)
    (hl : buf.length = m.pData.length) : Matrix.Frame { m with pData := buf } R C :=
  ⟨hf.1, hf.2.1, by show R * C ≤ buf.length; rw [hl]; exact hf.2.2⟩

end RowOps

/-! ## Row equivalence -/

section RowEquivLemmas

variable {T : Type}

theorem RowEquiv.refl [CommRing T] {R C : Nat} (M : MathMatrix (Fin R) (Fin C) T) :
    RowEquiv M M :=
  ⟨1, by simp, by simp⟩

theorem RowEquiv.trans [CommRing T] {R C : Nat} {M1 M2 M3 : MathMatrix (Fin R) (Fin C) T}
    (h1 : RowEquiv M1 M2) (h2 : RowEquiv M2 M3) : RowEquiv M1 M3 := by
  obtain ⟨P, hP, e1⟩ := h1
  obtain ⟨Q, hQ, e2⟩ := h2
  refine ⟨Q * P, ?_, ?_⟩
  · rw [Matrix.det_mul]; exact hQ.mul hP
  · rw [e2, e1, Matrix.mul_assoc]

/-- Interchanging two rows is a row equivalence. -/
theorem rowEquiv_swap [CommRing T] {R C : Nat} (M M' : MathMatrix (Fin R) (Fin C) T)
    (p q : Fin R) (h : ∀ a b, M' a b = M (Equiv.swap p q a) b) : RowEquiv M M' := by
  refine ⟨(Equiv.swap p q).toPEquiv.toMatrix, ?_, ?_⟩
  · have := Matrix.det_permutation (R := T) (Equiv.swap p q)
    unfold Equiv.Perm.permMatrix at this
    rw [this]
    rcases Int.units_eq_one_or (Equiv.Perm.sign (Equiv.swap p q)) with h1 | h1 <;>
      rw [h1] <;> simp
  · rw [PEquiv.toPEquiv_mul_matrix]
    ext a b
    rw [h a b]
    rfl

/-- Scaling a row by a unit is a row equivalence. -/
theorem rowEquiv_scale [Field T] {R C : Nat} (M M' : MathMatrix (Fin R) (Fin C) T)
    (r : Fin R) (k : T) (hk : k ≠ 0)
    (h : ∀ a b, M' a b = if a = r then M a b * k else M a b) : RowEquiv M M' := by
  refine ⟨Matrix.diagonal (fun a => if a = r then k else 1), ?_, ?_⟩
  · rw [Matrix.det_diagonal, isUnit_iff_ne_zero, Finset.prod_ne_zero_iff]
    intro a _
    by_cases c : a = r
    · rw [if_pos c]; exact hk
    · rw [if_neg c]; exact one_ne_zero
  · ext a b
    rw [h a b, Matrix.diagonal_mul]
    by_cases c : a = r
    · rw [if_pos c, if_pos c, mul_comm]
    · rw [if_neg c, if_neg c, one_mul]

/-- Adding a multiple of another row is a row equivalence. -/
theorem rowEquiv_add [CommRing T] {R C : Nat} (M M' : MathMatrix (Fin R) (Fin C) T)
    (s t : Fin R) (k : T) (hst : s ≠ t)
    (h : ∀ a b, M' a b = if a = t then M t b + k * M s b else M a b) : RowEquiv M M' := by
  refine ⟨Matrix.transvection t s k, ?_, ?_⟩
  · rw [Matrix.det_transvection_of_ne t s (fun e => hst e.symm)]
    exact isUnit_one
  · ext a b
    rw [h a b]
    unfold Matrix.transvection
    rw [Matrix.add_mul, Matrix.one_mul, Matrix.add_apply]
    by_cases c : a = t
    · subst c
      rw [if_pos rfl]
      congr 1
      simp [Matrix.mul_apply, Matrix.stdBasisMatrix]
    · rw [if_neg c]
      have : (Matrix.stdBasisMatrix t s k * M) a b = 0 := by
        simp [Matrix.mul_apply, Matrix.stdBasisMatrix, Ne.symm c]
      rw [this, add_zero]

theorem rowEquiv_of_swap [CommRing T] (m m' : Matrix T) (R C p q : Nat)
    (hp : 1 ≤ p) (hp2 : p ≤ R) (hq : 1 ≤ q) (hq2 : q ≤ R)
    (h : ∀ a b, 1 ≤ a → a ≤ R → 1 ≤ b → b ≤ C → m'.at1 a b = m.at1 (swapF p q a) b) :
    RowEquiv (m.toMat R C) (m'.toMat R C) := by
  apply rowEquiv_swap _ _ (⟨p - 1, by omega⟩ : Fin R) (⟨q - 1, by omega⟩ : Fin R)
  intro a b
  have ha := a.isLt
  have hb := b.isLt
  simp only [Matrix.toMat]
  rw [h _ _ (by omega) (by omega) (by omega) (by omega)]
  congr 1
  rw [Equiv.swap_apply_def]
  unfold swapF
  by_cases c1 : a.val + 1 = p
  · have : a = (⟨p - 1, by omega⟩ : Fin R) := Fin.ext (by simp; omega)
    rw [if_pos c1, if_pos this]
    simp; omega
  · have : ¬ a = (⟨p - 1, by omega⟩ : Fin R) := fun e => c1 (by rw [e]; simp; omega)
    rw [if_neg c1, if_neg this]
    by_cases c2 : a.val + 1 = q
    · have : a = (⟨q - 1, by omega⟩ : Fin R) := Fin.ext (by simp; omega)
      rw [if_pos c2, if_pos this]
      simp; omega
    · have : ¬ a = (⟨q - 1, by omega⟩ : Fin R) := fun e => c2 (by rw [e]; simp; omega)
      rw [if_neg c2, if_neg this]

theorem rowEquiv_of_scale [Field T] (m m' : Matrix T) (R C r : Nat) (k : T)
    (hr : 1 ≤ r) (hr2 : r ≤ R) (hk : k ≠ 0)
    (h : ∀ a b, 1 ≤ a → a ≤ R → 1 ≤ b → b ≤ C →
      m'.at1 a b = if a = r then m.at1 a b * k else m.at1 a b) :
    RowEquiv (m.toMat R C) (m'.toMat R C) := by
  apply rowEquiv_scale _ _ (⟨r - 1, by omega⟩ : Fin R) k hk
  intro a b
  have ha := a.isLt
  have hb := b.isLt
  simp only [Matrix.toMat]
  rw [h _ _ (by omega) (by omega) (by omega) (by omega)]
  by_cases c1 : a.val + 1 = r
  · have : a = (⟨r - 1, by omega⟩ : Fin R) := Fin.ext (by simp; omega)
    rw [if_pos c1, if_pos this]
  · have : ¬ a = (⟨r - 1, by omega⟩ : Fin R) := fun e => c1 (by rw [e]; simp; omega)
    rw [if_neg c1, if_neg this]

theorem rowEquiv_of_add [CommRing T] (m m' : Matrix T) (R C s t : Nat) (k : T)
    (hs : 1 ≤ s) (hs2 : s ≤ R) (ht : 1 ≤ t) (ht2 : t ≤ R) (hst : s ≠ t)
    (h : ∀ a b, 1 ≤ a → a ≤ R → 1 ≤ b → b ≤ C →
      m'.at1 a b = if a = t then m.at1 t b + k * m.at1 s b else m.at1 a b) :
    RowEquiv (m.toMat R C) (m'.toMat R C) := by
  apply rowEquiv_add _ _ (⟨s - 1, by omega⟩ : Fin R) (⟨t - 1, by omega⟩ : Fin R) k
    (fun e => hst (by have := congrArg Fin.val e; simp at this; omega))
  intro a b
  have ha := a.isLt
  have hb := b.isLt
  simp only [Matrix.toMat]
  rw [h _ _ (by omega) (by omega) (by omega) (by omega)]
  have e1 : t - 1 + 1 = t := by omega
  have e2 : s - 1 + 1 = s := by omega
  by_cases c1 : a.val + 1 = t
  · have : a = (⟨t - 1, by omega⟩ : Fin R) := Fin.ext (by simp; omega)
    rw [if_pos c1, if_pos this, e1, e2]
  · have : ¬ a = (⟨t - 1, by omega⟩ : Fin R) := fun e => c1 (by rw [e]; simp; omega)
    rw [if_neg c1, if_neg this]

/-- Matrices with the same live elements have the same live matrix. -/
theorem toMat_congr [Zero T] (m m' : Matrix T) (R C : Nat)
    (h : ∀ a b, 1 ≤ a → a ≤ R → 1 ≤ b → b ≤ C → m'.at1 a b = m.at1 a b) :
    m'.toMat R C = m.toMat R C := by
  ext a b
  have ha := a.isLt
  have hb := b.isLt
  exact h _ _ (by omega) (by omega) (by omega) (by omega)

/-- The pivot search returns the first row at or below `idx` with a nonzero entry in column
`i`, or `R + 1` when there is none. -/
theorem pivotSearch_spec [Zero T] [DecidableEq T] (m : Matrix T) (R C i : Nat)
    (hf : m.Frame R C) (hi : 1 ≤ i) (hi2 : i ≤ C) :
    ∀ (fuel idx : Nat), 1 ≤ idx → idx ≤ R + 1 → R + 1 ≤ idx + fuel →
      ∃ p, m.pivotSearch i fuel idx = .ok p ∧ idx ≤ p ∧ p ≤ R + 1 ∧
        (∀ a, idx ≤ a → a < p → m.at1 a i = 0) ∧ (p ≤ R → m.at1 p i ≠ 0) := by
  intro fuel
  induction fuel with
  | zero =>
    intro idx h1 h2 h3
    refine ⟨idx, ?_, Nat.le_refl _, h2, fun a h4 h5 => by omega, fun h => by omega⟩
    unfold Matrix.pivotSearch
    rw [if_neg (by rw [hf.1]; omega)]
  | succ f ih =>
    intro idx h1 h2 h3
    unfold Matrix.pivotSearch
    by_cases c : idx ≤ R
    · rw [if_pos (by rw [hf.1]; exact c), get_of_frame m R C idx i hf h1 c hi hi2, ok_bind]
      by_cases hz : m.at1 idx i = 0
      · rw [if_pos hz]
        obtain ⟨p, hp1, hp2, hp3, hp4, hp5⟩ := ih (idx + 1) (by omega) (by omega) (by omega)
        refine ⟨p, hp1, by omega, hp3, ?_, hp5⟩
        intro a ha1 ha2
        by_cases e : a = idx
        · rw [e]; exact hz
        · exact hp4 a (by omega) ha2
      · rw [if_neg hz]
        exact ⟨idx, rfl, Nat.le_refl _, by omega, fun a h4 h5 => by omega, fun _ => hz⟩
    · rw [if_neg (by rw [hf.1]; exact c)]
      exact ⟨idx, rfl, Nat.le_refl _, h2, fun a h4 h5 => by omega, fun h => by omega⟩

end RowEquivLemmas

/-! ## The passes of `RowReduce` -/

section Passes

variable {T : Type}

/-- The loop that clears column `i` below row `i`. -/
theorem elimBelow_loop [Field T] (r2 : Matrix T) (R C i : Nat) (hf : r2.Frame R C)
    (hi : 1 ≤ i) (hi2 : i ≤ R) (hi3 : i ≤ C) :
    ∃ m', forUp (fun j (r3 : Matrix T) => r3.get j i >>= fun v => r3.RowAddition i (-v) j)
        (i + 1) (R - i) r2 = .ok m' ∧
      m'.Frame R C ∧ m'.pData.length = r2.pData.length ∧
      RowEquiv (r2.toMat R C) (m'.toMat R C) ∧
      ∀ a b, 1 ≤ a → a ≤ R → 1 ≤ b → b ≤ C → m'.at1 a b = elimBelowM r2.at1 i a b := by
  have h := forUp_inv (fun j (r3 : Matrix T) => r3.get j i >>= fun v => r3.RowAddition i (-v) j)
    (fun j r3 => r3.Frame R C ∧ r3.pData.length = r2.pData.length ∧
      RowEquiv (r2.toMat R C) (r3.toMat R C) ∧
      ∀ a b, 1 ≤ a → a ≤ R → 1 ≤ b → b ≤ C →
        r3.at1 a b = if i < a ∧ a < j then r2.at1 a b + (-(r2.at1 a i)) * r2.at1 i b
          else r2.at1 a b)
    (R - i) (i + 1) r2
    ⟨hf, rfl, RowEquiv.refl _, fun a b _ _ _ _ => by
      have c : ¬ (i < a ∧ a < i + 1) := by omega
      rw [if_neg c]⟩
    (by
      intro j s hj hj2 ⟨hfs, hls, hre, hv⟩
      obtain ⟨buf, h1, h2, h3⟩ := RowAddition_spec s R C i j (-(s.at1 j i)) hfs (by omega)
        hi hi2 (by omega) (by omega) (by omega)
      have hfs' := frame_with s R C hfs buf h2
      refine ⟨{ s with pData := buf }, ?_, hfs', h2.trans hls, ?_, ?_⟩
      · dsimp only
        rw [get_of_frame s R C j i hfs (by omega) (by omega) hi hi3, ok_bind, h1]
      · exact hre.trans (rowEquiv_of_add s _ R C i j _ hi hi2 (by omega) (by omega) (by omega) h3)
      · intro a b ha ha2 hb hb2
        rw [h3 a b ha ha2 hb hb2]
        have hji : s.at1 j i = r2.at1 j i := by
          have c : ¬ (i < j ∧ j < j) := by omega
          rw [hv j i (by omega) (by omega) hi hi3, if_neg c]
        have hib : s.at1 i b = r2.at1 i b := by
          have c : ¬ (i < i ∧ i < j) := by omega
          rw [hv i b hi hi2 hb hb2, if_neg c]
        by_cases c1 : a = j
        · subst c1
          have c2 : i < a ∧ a < a + 1 := by omega
          have c3 : ¬ (i < a ∧ a < a) := by omega
          rw [if_pos rfl, if_pos c2, hji, hib, hv a b ha ha2 hb hb2, if_neg c3]
        · rw [if_neg c1, hv a b ha ha2 hb hb2]
          have c2 : (i < a ∧ a < j + 1) ↔ (i < a ∧ a < j) := by omega
          simp only [c2])
  obtain ⟨m', h1, hfm, hlm, hre, hv⟩ := h
  refine ⟨m', h1, hfm, hlm, hre, ?_⟩
  intro a b ha ha2 hb hb2
  rw [hv a b ha ha2 hb hb2]
  unfold elimBelowM
  have c2 : (i < a ∧ a < i + 1 + (R - i)) ↔ i < a := by omega
  simp only [c2]

/-- The loop that clears column `i` above row `i`. -/
theorem elimAbove_loop [Field T] (r : Matrix T) (R C i : Nat) (hf : r.Frame R C)
    (hi : 1 ≤ i) (hi2 : i ≤ R) (hi3 : i ≤ C) :
    ∃ m', forUp (fun j (r3 : Matrix T) => r3.get j i >>= fun v => r3.RowAddition i (-v) j)
        1 (i - 1) r = .ok m' ∧
      m'.Frame R C ∧ m'.pData.length = r.pData.length ∧
      RowEquiv (r.toMat R C) (m'.toMat R C) ∧
      ∀ a b, 1 ≤ a → a ≤ R → 1 ≤ b → b ≤ C → m'.at1 a b = elimAboveM r.at1 i a b := by
  have h := forUp_inv (fun j (r3 : Matrix T) => r3.get j i >>= fun v => r3.RowAddition i (-v) j)
    (fun j r3 => r3.Frame R C ∧ r3.pData.length = r.pData.length ∧
      RowEquiv (r.toMat R C) (r3.toMat R C) ∧
      ∀ a b, 1 ≤ a → a ≤ R → 1 ≤ b → b ≤ C →
        r3.at1 a b = if a < j then r.at1 a b + (-(r.at1 a i)) * r.at1 i b else r.at1 a b)
    (i - 1) 1 r
    ⟨hf, rfl, RowEquiv.refl _, fun a b ha _ _ _ => by
      have c : ¬ (a < 1) := by omega
      rw [if_neg c]⟩
    (by
      intro j s hj hj2 ⟨hfs, hls, hre, hv⟩
      obtain ⟨buf, h1, h2, h3⟩ := RowAddition_spec s R C i j (-(s.at1 j i)) hfs (by omega)
        hi hi2 (by omega) (by omega) (by omega)
      have hfs' := frame_with s R C hfs buf h2
      refine ⟨{ s with pData := buf }, ?_, hfs', h2.trans hls, ?_, ?_⟩
      · dsimp only
        rw [get_of_frame s R C j i hfs (by omega) (by omega) hi hi3, ok_bind, h1]
      · exact hre.trans (rowEquiv_of_add s _ R C i j _ hi hi2 (by omega) (by omega) (by omega) h3)
      · intro a b ha ha2 hb hb2
        rw [h3 a b ha ha2 hb hb2]
        have hji : s.at1 j i = r.at1 j i := by
          have c : ¬ (j < j) := by omega
          rw [hv j i (by omega) (by omega) hi hi3, if_neg c]
        have hib : s.at1 i b = r.at1 i b := by
          have c : ¬ (i < j) := by omega
          rw [hv i b hi hi2 hb hb2, if_neg c]
        by_cases c1 : a = j
        · subst c1
          have c2 : a < a + 1 := by omega
          have c3 : ¬ (a < a) := by omega
          rw [if_pos rfl, if_pos c2, hji, hib, hv a b ha ha2 hb hb2, if_neg c3]
        · rw [if_neg c1, hv a b ha ha2 hb hb2]
          have c2 : (a < j + 1) ↔ (a < j) := by omega
          simp only [c2])
  obtain ⟨m', h1, hfm, hlm, hre, hv⟩ := h
  refine ⟨m', h1, hfm, hlm, hre, ?_⟩
  intro a b ha ha2 hb hb2
  rw [hv a b ha ha2 hb hb2]
  unfold elimAboveM
  have c2 : (a < 1 + (i - 1)) ↔ a < i := by omega
  simp only [c2]

/-- One step of the forward pass: either column `i` has no pivot at or below row `i` and
nothing changes, or the pivot row `p` is moved to row `i`, scaled, and used to clear the
column below. -/
theorem forwardStep_spec [Field T] [DecidableEq T] (m : Matrix T) (R C i : Nat)
    (hf : m.Frame R C) (hi : 1 ≤ i) (hi2 : i ≤ R) (hi3 : i ≤ C) :
    ∃ m', Matrix.forwardStep i m = .ok m' ∧ m'.Frame R C ∧
      m'.pData.length = m.pData.length ∧ RowEquiv (m.toMat R C) (m'.toMat R C) ∧
      (((∀ a, i ≤ a → a ≤ R → m.at1 a i = 0) ∧ m' = m) ∨
        ∃ p, i ≤ p ∧ p ≤ R ∧ m.at1 p i ≠ 0 ∧ (∀ a, i ≤ a → a < p → m.at1 a i = 0) ∧
          ∀ a b, 1 ≤ a → a ≤ R → 1 ≤ b → b ≤ C → m'.at1 a b = forwardM m.at1 i p a b) := by
  have hC : 1 ≤ C := by omega
  obtain ⟨p, hp1, hp2, hp3, hp4, hp5⟩ := pivotSearch_spec m R C i hf hi hi3 (R + 1) i hi
    (by omega) (by omega)
  unfold Matrix.forwardStep
  rw [hf.1, hp1, ok_bind]
  by_cases hpR : p = R + 1
  · rw [if_pos hpR]
    exact ⟨m, rfl, hf, rfl, RowEquiv.refl _, Or.inl ⟨fun a h1 h2 => hp4 a h1 (by omega), rfl⟩⟩
  · rw [if_neg hpR]
    have hpR' : p ≤ R := by omega
    have hpiv := hp5 hpR'
    -- the interchange
    have step1 : ∃ r1, (if p ≠ i then m.RowInterchange p i else .ok m) = .ok r1 ∧
        r1.Frame R C ∧ r1.pData.length = m.pData.length ∧
        RowEquiv (m.toMat R C) (r1.toMat R C) ∧
        ∀ a b, 1 ≤ a → a ≤ R → 1 ≤ b → b ≤ C → r1.at1 a b = swapM m.at1 p i a b := by
      by_cases hpi : p = i
      · refine ⟨m, by rw [if_neg (fun h => h hpi)], hf, rfl, RowEquiv.refl _, ?_⟩
        intro a b _ _ _ _
        unfold swapM swapF
        subst hpi
        by_cases c : a = p
        · rw [if_pos c, c]
        · rw [if_neg c, if_neg c]
      · obtain ⟨buf, h1, h2, h3⟩ := RowInterchange_spec m R C p i hf hC (by omega) hpR' hi hi2 hpi
        exact ⟨_, by rw [if_pos hpi]; exact h1, frame_with m R C hf buf h2, h2,
          rowEquiv_of_swap m _ R C p i (by omega) hpR' hi hi2 h3, h3⟩
    obtain ⟨r1, hr1, hf1, hl1, hre1, hv1⟩ := step1
    have hr1ii : r1.at1 i i = m.at1 p i := by
      rw [hv1 i i hi hi2 hi hi3]
      unfold swapM swapF
      by_cases c : i = p
      · rw [if_pos c, c]
      · rw [if_neg c, if_pos rfl]
    have hk : (1 : T) / m.at1 p i ≠ 0 := one_div_ne_zero hpiv
    obtain ⟨buf2, h21, h22, h23⟩ := RowScaling_spec r1 R C i (1 / m.at1 p i) hf1 hC hi hi2 hk
    have hf2 := frame_with r1 R C hf1 buf2 h22
    have hre2 := rowEquiv_of_scale r1 _ R C i _ hi hi2 hk h23
    obtain ⟨m', h31, hf3, hl3, hre3, hv3⟩ := elimBelow_loop _ R C i hf2 hi hi2 hi3
    refine ⟨m', ?_, hf3, (hl3.trans h22).trans hl1, (hre1.trans hre2).trans hre3,
      Or.inr ⟨p, hp2, hpR', hpiv, hp4, ?_⟩⟩
    · rw [hr1, ok_bind, get_of_frame r1 R C i i hf1 hi hi2 hi hi3, ok_bind, hr1ii, h21, ok_bind]
      have h31' := h31
      rw [← hf1.1] at h31'
      exact h31'
    · intro a b ha ha2 hb hb2
      rw [hv3 a b ha ha2 hb hb2]
      unfold forwardM elimBelowM scaleM
      rw [h23 a b ha ha2 hb hb2, h23 a i ha ha2 hi hi3, h23 i b hi hi2 hb hb2,
        hv1 a b ha ha2 hb hb2, hv1 a i ha ha2 hi hi3, hv1 i b hi hi2 hb hb2]

/-- One step of the backward pass. -/
theorem backwardStep_spec [Field T] [DecidableEq T] (m : Matrix T) (R C i : Nat)
    (hf : m.Frame R C) (hi : 1 ≤ i) (hi2 : i ≤ R) (hi3 : i ≤ C) :
    ∃ m', Matrix.backwardStep i m = .ok m' ∧ m'.Frame R C ∧
      m'.pData.length = m.pData.length ∧ RowEquiv (m.toMat R C) (m'.toMat R C) ∧
      ((m.at1 i i = 0 ∧ m' = m) ∨
        (m.at1 i i ≠ 0 ∧
          ∀ a b, 1 ≤ a → a ≤ R → 1 ≤ b → b ≤ C → m'.at1 a b = elimAboveM m.at1 i a b)) := by
  unfold Matrix.backwardStep
  rw [get_of_frame m R C i i hf hi hi2 hi hi3, ok_bind]
  by_cases hz : m.at1 i i = 0
  · rw [if_pos hz]
    exact ⟨m, rfl, hf, rfl, RowEquiv.refl _, Or.inl ⟨hz, rfl⟩⟩
  · rw [if_neg hz]
    obtain ⟨m', h1, hf', hl', hre, hv⟩ := elimAbove_loop m R C i hf hi hi2 hi3
    exact ⟨m', h1, hf', hl', hre, Or.inr ⟨hz, hv⟩⟩

theorem swapF_cases (p q a : Nat) : swapF p q a = a ∨ swapF p q a = p ∨ swapF p q a = q := by
  unfold swapF
  by_cases c1 : a = p
  · rw [if_pos c1]; right; right; rfl
  · rw [if_neg c1]
    by_cases c2 : a = q
    · rw [if_pos c2]; right; left; rfl
    · rw [if_neg c2]; left; rfl

/-- The forward step keeps the echelon form of the earlier columns and puts column `i` in
echelon form. -/
theorem echelon_forwardM [Field T] (f g : Nat → Nat → T) (R C i p : Nat)
    (hi : 1 ≤ i) (hi2 : i ≤ R) (hi3 : i ≤ C) (hp : i ≤ p) (hp2 : p ≤ R) (hpiv : f p i ≠ 0)
    (he : Echelon f R (i - 1))
    (hg : ∀ a b, 1 ≤ a → a ≤ R → 1 ≤ b → b ≤ C → g a b = forwardM f i p a b) :
    Echelon g R i := by
  have hsw : ∀ a, 1 ≤ a → a ≤ R → 1 ≤ swapF p i a ∧ swapF p i a ≤ R := by
    intro a h1 h2
    rcases swapF_cases p i a with h | h | h <;> rw [h] <;> omega
  have hswi : swapF p i i = p := by
    unfold swapF
    by_cases c : i = p
    · rw [if_pos c, c]
    · rw [if_neg c, if_pos rfl]
  -- earlier columns stay zero below the diagonal after the interchange
  have hz : ∀ c a, 1 ≤ c → c < i → c < a → a ≤ R → f (swapF p i a) c = 0 := by
    intro c a hc1 hc2 hca haR
    apply (he c hc1 (by omega)).1
    · rcases swapF_cases p i a with h | h | h <;> rw [h] <;> omega
    · exact (hsw a (by omega) haR).2
  intro c hc1 hc2
  by_cases hci : c = i
  · subst hci
    have hone : f p c * (1 / f p c) = 1 := by field_simp
    constructor
    · intro a hca haR
      rw [hg a c (by omega) haR hc1 hi3]
      unfold forwardM elimBelowM scaleM swapM
      have c1 : ¬ a = c := by omega
      rw [if_pos hca, if_neg c1, if_pos rfl, hswi, hone]
      ring
    · left
      rw [hg c c hc1 hi2 hc1 hi3]
      unfold forwardM elimBelowM scaleM swapM
      have c1 : ¬ c < c := by omega
      rw [if_neg c1, if_pos rfl, hswi, hone]
  · have hclt : c < i := by omega
    constructor
    · intro a hca haR
      rw [hg a c (by omega) haR hc1 (by omega)]
      unfold forwardM elimBelowM scaleM swapM
      have z1 := hz c a hc1 hclt hca haR
      have z2 := hz c i hc1 hclt hclt hi2
      by_cases c1 : i < a
      · have c2 : ¬ a = i := by omega
        rw [if_pos c1, if_neg c2, if_pos rfl, z1, z2]
        ring
      · rw [if_neg c1]
        by_cases c2 : a = i
        · rw [if_pos c2, z1]; ring
        · rw [if_neg c2, z1]
    · have hd := (he c hc1 (by omega)).2
      rw [hg c c hc1 (by omega) hc1 (by omega)]
      unfold forwardM elimBelowM scaleM swapM
      have c1 : ¬ i < c := by omega
      have c2 : ¬ c = i := by omega
      have c3 : swapF p i c = c := by
        unfold swapF
        rw [if_neg (by omega), if_neg (by omega)]
      rw [if_neg c1, if_neg c2, c3]
      exact hd

/-- The forward pass over the first `n` columns. -/
theorem forward_pass [Field T] [DecidableEq T] (m : Matrix T) (R C n : Nat)
    (hf : m.Frame R C) (hn : n ≤ R) (hn2 : n ≤ C) :
    ∃ m', forUp Matrix.forwardStep 1 n m = .ok m' ∧ m'.Frame R C ∧
      m'.pData.length = m.pData.length ∧ RowEquiv (m.toMat R C) (m'.toMat R C) ∧ Echelon m'.at1 R n := by
  have h := forUp_inv Matrix.forwardStep
    (fun i s => s.Frame R C ∧ s.pData.length = m.pData.length ∧
      RowEquiv (m.toMat R C) (s.toMat R C) ∧ Echelon s.at1 R (i - 1))
    n 1 m ⟨hf, rfl, RowEquiv.refl _, fun c h1 h2 => by omega⟩
    (by
      intro i s hi hi2 ⟨hfs, hls, hre, he⟩
      obtain ⟨m', h1, hf', hl', hre', hcase⟩ :=
        forwardStep_spec s R C i hfs hi (by omega) (by omega)
      refine ⟨m', h1, hf', hl'.trans hls, hre.trans hre', ?_⟩
      simp only [Nat.add_sub_cancel]
      rcases hcase with ⟨hzero, heq⟩ | ⟨p, hp1, hp2, hpiv, _, hv⟩
      · subst heq
        intro c hc1 hc2
        by_cases hci : c = i
        · subst hci
          exact ⟨fun a h1 h2 => hzero a (by omega) h2, Or.inr (hzero c (by omega) (by omega))⟩
        · exact he c hc1 (by omega)
      · exact echelon_forwardM s.at1 m'.at1 R C i p hi (by omega) (by omega) hp1 hp2 hpiv he hv)
  obtain ⟨m', h1, hf', hl', hre, he⟩ := h
  refine ⟨m', h1, hf', hl', hre, ?_⟩
  have e : 1 + n - 1 = n := by omega
  rw [e] at he
  exact he

theorem backInv_skip [Field T] (f : Nat → Nat → T) (R i : Nat) (hi : 1 ≤ i)
    (hb : BackInv f R i) (hz : f i i = 0) : BackInv f R (i - 1) := by
  refine ⟨hb.1, ?_⟩
  intro c hc1 hc2 hone a ha1 ha2
  by_cases hci : c = i
  · subst hci
    rw [hz] at hone
    exact absurd hone zero_ne_one
  · exact hb.2 c (by omega) hc2 hone a ha1 ha2

theorem backInv_elimAbove [Field T] (f g : Nat → Nat → T) (R C i : Nat) (hi : 1 ≤ i)
    (hi2 : i ≤ R) (hRC : R ≤ C) (hb : BackInv f R i) (hnz : f i i ≠ 0)
    (hg : ∀ a b, 1 ≤ a → a ≤ R → 1 ≤ b → b ≤ C → g a b = elimAboveM f i a b) :
    BackInv g R (i - 1) := by
  have hii : f i i = 1 := by
    rcases (hb.1 i hi hi2).2 with h | h
    · exact h
    · exact absurd h hnz
  -- row `i` is zero in every other column `c ≤ R` that matters
  have hrow_lt : ∀ c, 1 ≤ c → c < i → f i c = 0 := fun c hc1 hc2 =>
    (hb.1 c hc1 (by omega)).1 i hc2 hi2
  refine ⟨?_, ?_⟩
  · intro c hc1 hc2
    constructor
    · intro a hca haR
      rw [hg a c (by omega) haR hc1 (by omega)]
      unfold elimAboveM
      have hac := (hb.1 c hc1 hc2).1 a hca haR
      by_cases c1 : a < i
      · rw [if_pos c1, hac, hrow_lt c hc1 (by omega)]
        ring
      · rw [if_neg c1, hac]
    · rw [hg c c hc1 hc2 hc1 (by omega)]
      unfold elimAboveM
      by_cases c1 : c < i
      · rw [if_pos c1, hrow_lt c hc1 c1]
        have := (hb.1 c hc1 hc2).2
        simpa using this
      · rw [if_neg c1]
        exact (hb.1 c hc1 hc2).2
  · intro c hc1 hc2 hone a ha1 ha2
    have hcc : g c c = f c c := by
      rw [hg c c (by omega) hc2 (by omega) (by omega)]
      unfold elimAboveM
      rw [if_neg (by omega)]
    rw [hcc] at hone
    rw [hg a c ha1 (by omega) (by omega) (by omega)]
    unfold elimAboveM
    by_cases hci : c = i
    · subst hci
      rw [if_pos ha2, hii]
      ring
    · have hci' : i < c := by omega
      have hac := hb.2 c hci' hc2 hone a ha1 ha2
      by_cases c1 : a < i
      · rw [if_pos c1, hac, hb.2 c hci' hc2 hone i hi hci']
        ring
      · rw [if_neg c1, hac]

/-- The backward pass. -/
theorem backward_pass [Field T] [DecidableEq T] (m : Matrix T) (R C : Nat)
    (hf : m.Frame R C) (hRC : R ≤ C) (he : Echelon m.at1 R R) :
    ∃ m', forDown Matrix.backwardStep R m = .ok m' ∧ m'.Frame R C ∧
      m'.pData.length = m.pData.length ∧ RowEquiv (m.toMat R C) (m'.toMat R C) ∧ Reduced m'.at1 R := by
  have h := forDown_inv Matrix.backwardStep
    (fun i s => s.Frame R C ∧ s.pData.length = m.pData.length ∧
      RowEquiv (m.toMat R C) (s.toMat R C) ∧ BackInv s.at1 R i)
    R m ⟨hf, rfl, RowEquiv.refl _, he, fun c h1 h2 => by omega⟩
    (by
      intro i s hi hi2 ⟨hfs, hls, hre, hb⟩
      obtain ⟨m', h1, hf', hl', hre', hcase⟩ := backwardStep_spec s R C i hfs hi hi2 (by omega)
      refine ⟨m', h1, hf', hl'.trans hls, hre.trans hre', ?_⟩
      rcases hcase with ⟨hz, heq⟩ | ⟨hnz, hv⟩
      · subst heq
        exact backInv_skip _ R i hi hb hz
      · exact backInv_elimAbove s.at1 m'.at1 R C i hi hi2 hRC hb hnz hv)
  obtain ⟨m', h1, hf', hl', hre, hb⟩ := h
  refine ⟨m', h1, hf', hl', hre, ?_⟩
  intro c hc1 hc2
  refine ⟨(hb.1 c hc1 hc2).1, ?_⟩
  rcases (hb.1 c hc1 hc2).2 with h | h
  · exact Or.inl ⟨h, hb.2 c (by omega) hc2 h⟩
  · exact Or.inr h

theorem reorderScan_none [Zero T] [DecidableEq T] (m : Matrix T) (R C i : Nat)
    (hf : m.Frame R C) (hi : 1 ≤ i) (hi2 : i ≤ C) :
    ∀ (fuel j : Nat), 1 ≤ j → j ≤ R + 1 → R + 1 ≤ j + fuel →
      (∀ a, j ≤ a → a ≤ R → m.at1 a i = 0) →
      Matrix.reorderScan i fuel j m = .ok (R + 1, m) := by
  intro fuel
  induction fuel with
  | zero =>
    intro j h1 h2 h3 _
    have : j = R + 1 := by omega
    subst this
    unfold Matrix.reorderScan
    rw [if_neg (by rw [hf.1]; omega)]
  | succ f ih =>
    intro j h1 h2 h3 hz
    unfold Matrix.reorderScan
    by_cases c : j ≤ R
    · rw [if_pos (by rw [hf.1]; exact c), get_of_frame m R C j i hf h1 c hi hi2, ok_bind]
      have : ¬ (m.at1 j i ≠ 0) := fun h => h (hz j (Nat.le_refl _) c)
      rw [if_neg this]
      exact ih (j + 1) (by omega) (by omega) (by omega) (fun a ha1 ha2 => hz a (by omega) ha2)
    · have : j = R + 1 := by omega
      subst this
      rw [if_neg (by rw [hf.1]; omega)]

/-- On a matrix of the reduced shape the reordering pass changes nothing. -/
theorem reorderLoop_reduced [Field T] [DecidableEq T] (m : Matrix T) (R C : Nat)
    (hf : m.Frame R C) (hRC : R ≤ C) (hr : Reduced m.at1 R) :
    ∀ (fuel i : Nat), 1 ≤ i → i ≤ R + 1 → R + 1 ≤ i + fuel →
      Matrix.reorderLoop fuel i m = .ok m := by
  intro fuel
  induction fuel with
  | zero =>
    intro i h1 h2 h3
    unfold Matrix.reorderLoop
    rw [if_neg (by rw [hf.1]; omega)]
  | succ f ih =>
    intro i h1 h2 h3
    unfold Matrix.reorderLoop
    by_cases c : i ≤ R
    · rw [if_pos (by rw [hf.1]; exact c), get_of_frame m R C i i hf h1 c h1 (by omega), ok_bind]
      by_cases hd : m.at1 i i ≠ 0
      · rw [if_pos hd]
        exact ih (i + 1) (by omega) (by omega) (by omega)
      · rw [if_neg hd]
        have hd0 : m.at1 i i = 0 := by
          by_contra h
          exact hd h
        have hz : ∀ a, i ≤ a → a ≤ R → m.at1 a i = 0 := by
          intro a ha1 ha2
          by_cases e : a = i
          · rw [e]; exact hd0
          · exact (hr i h1 c).1 a (by omega) ha2
        rw [hf.1, reorderScan_none m R C i hf h1 (by omega) (R + 1) i h1 (by omega) (by omega) hz,
          ok_bind]
        simp only
        rw [hf.1, if_pos rfl]
    · rw [if_neg (by rw [hf.1]; exact c)]

/-- `RowReduce` on an `R × C` matrix with `R ≤ C` succeeds; the result is row equivalent to
the matrix and has the reduced shape. -/
theorem RowReduce_spec [Field T] [DecidableEq T] (A : Matrix T) (R C : Nat)
    (hf : A.Frame R C) (hRC : R ≤ C) :
    ∃ B, A.RowReduce = .ok B ∧ B.Frame R C ∧
      B.pData.length = Matrix.uCapacityIncrement Matrix.defaultIncrement * R * C ∧
      RowEquiv (A.toMat R C) (B.toMat R C) ∧ Reduced B.at1 R := by
  obtain ⟨buf, hc1, hc2, hc3⟩ := ctorCopy_spec Matrix.defaultIncrement A R C hf
  have hf0 := frame_of_copy (T := T) Matrix.defaultIncrement R C buf hc2
  have hm0 : Matrix.toMat (⟨R, C, buf, Matrix.uCapacityIncrement Matrix.defaultIncrement * R * C⟩ :
      Matrix T) R C = A.toMat R C := by
    apply toMat_of_val_eq A _ R C hf.2.1 rfl
    intro idx hidx
    show val buf idx = _
    rw [hc3, if_pos hidx]
  obtain ⟨m1, h1, hf1, hl1, hre1, he1⟩ := forward_pass _ R C R hf0 (Nat.le_refl _) hRC
  obtain ⟨m2, h2, hf2, hl2, hre2, hr2⟩ := backward_pass m1 R C hf1 hRC he1
  have h3 := reorderLoop_reduced m2 R C hf2 hRC hr2 (R + 1) 1 (Nat.le_refl _) (by omega) (by omega)
  refine ⟨m2, ?_, hf2, (hl2.trans hl1).trans hc2, ?_, hr2⟩
  · unfold Matrix.RowReduce
    rw [hc1, ok_bind]
    simp only
    rw [h1, ok_bind, hf1.1, h2, ok_bind, hf2.1, h3]
  · rw [← hm0]
    exact hre1.trans hre2

/-- A copy loop fails when the source is too short. -/
theorem copy_loop_short [Zero T] (src : List T) (n : Nat) (dst : List T)
    (hs : src.length < n) (hd : n ≤ dst.length) :
    forUp (fun j b => load src (0 + j) >>= fun v => store b (0 + j) v) 0 n dst
      = .error Err.OutOfBuffer := by
  obtain ⟨k, rfl⟩ : ∃ k, n = src.length + (k + 1) := ⟨n - src.length - 1, by omega⟩
  rw [forUp_add]
  obtain ⟨buf, h1, _, _⟩ := copy_loop src 0 0 src.length dst (by omega) (by omega)
  rw [h1, ok_bind, forUp_succ, load_of_ge _ _ (by omega)]
  rfl

/-- `RowReduce` fails when the buffer does not hold the live elements. -/
theorem RowReduce_short [Field T] [DecidableEq T] (A : Matrix T)
    (h : A.pData.length < A.uRow * A.uCol) : A.RowReduce = .error Err.OutOfBuffer := by
  have hge := uCapacityIncrement_ge Matrix.defaultIncrement
  have hle : A.uRow * A.uCol ≤ Matrix.uCapacityIncrement Matrix.defaultIncrement * A.uRow * A.uCol := by
    rw [Nat.mul_assoc]
    exact Nat.le_mul_of_pos_left _ (by omega)
  unfold Matrix.RowReduce Matrix.ctorCopy Matrix.ctorData memcpy_s Matrix.ctor
  simp only [gt_iff_lt, Nat.lt_irrefl, if_false]
  rw [copy_loop_short A.pData _ _ h (by simpa using hle)]
  rfl

/-- `RowReduce` fails with an out-of-range access when there are more rows than columns. -/
theorem RowReduce_tall [Field T] [DecidableEq T] (A : Matrix T) (R C : Nat)
    (hf : A.Frame R C) (hRC : C < R) : A.RowReduce = .error Err.IndexOutOfRange := by
  obtain ⟨k, rfl⟩ : ∃ k, R = C + (k + 1) := ⟨R - C - 1, by omega⟩
  obtain ⟨buf, hc1, hc2, hc3⟩ := ctorCopy_spec Matrix.defaultIncrement A _ C hf
  have hf0 := frame_of_copy (T := T) Matrix.defaultIncrement _ C buf hc2
  obtain ⟨m1, h1, hf1, _, _, _⟩ := forward_pass _ _ C C hf0 (by omega) (Nat.le_refl _)
  have hstep : Matrix.forwardStep (1 + C) m1 = .error Err.IndexOutOfRange := by
    unfold Matrix.forwardStep Matrix.pivotSearch
    rw [if_pos (by rw [hf1.1]; omega)]
    unfold Matrix.get Matrix.ElemAt
    rw [if_neg (by rw [hf1.2.1]; omega)]
    rfl
  unfold Matrix.RowReduce
  rw [hc1, ok_bind]
  simp only
  rw [forUp_add, h1, ok_bind, forUp_succ, hstep]
  rfl

/-- If `RowReduce` completes, the buffer holds the live elements and there are at most as
many rows as columns. -/
theorem RowReduce_ok_frame [Field T] [DecidableEq T] (A B : Matrix T)
    (h : A.RowReduce = .ok B) : A.Frame A.uRow A.uCol ∧ A.uRow ≤ A.uCol := by
  have h1 : A.uRow * A.uCol ≤ A.pData.length := by
    by_contra hc
    rw [RowReduce_short A (by omega)] at h
    cases h
  have hf : A.Frame A.uRow A.uCol := ⟨rfl, rfl, h1⟩
  refine ⟨hf, ?_⟩
  by_contra hc
  rw [RowReduce_tall A _ _ hf (by omega)] at h
  cases h

theorem reduced_congr [Zero T] [One T] (f g : Nat → Nat → T) (R C : Nat) (hRC : R ≤ C)
    (h : ∀ a b, 1 ≤ a → a ≤ R → 1 ≤ b → b ≤ C → g a b = f a b) (hr : Reduced f R) :
    Reduced g R := by
  intro c hc1 hc2
  obtain ⟨h1, h2⟩ := hr c hc1 hc2
  refine ⟨fun a ha1 ha2 => by rw [h a c (by omega) ha2 hc1 (by omega)]; exact h1 a ha1 ha2, ?_⟩
  rw [h c c hc1 hc2 hc1 (by omega)]
  rcases h2 with ⟨h3, h4⟩ | h3
  · exact Or.inl ⟨h3, fun a ha1 ha2 => by
      rw [h a c ha1 (by omega) hc1 (by omega)]; exact h4 a ha1 ha2⟩
  · exact Or.inr h3

/-- On a matrix of the reduced shape a forward step changes no live element. -/
theorem forwardStep_reduced [Field T] [DecidableEq T] (m : Matrix T) (R C i : Nat)
    (hf : m.Frame R C) (hRC : R ≤ C) (hi : 1 ≤ i) (hi2 : i ≤ R) (hr : Reduced m.at1 R) :
    ∃ m', Matrix.forwardStep i m = .ok m' ∧ m'.Frame R C ∧
      ∀ a b, 1 ≤ a → a ≤ R → 1 ≤ b → b ≤ C → m'.at1 a b = m.at1 a b := by
  obtain ⟨m', h1, hf', _, _, hcase⟩ := forwardStep_spec m R C i hf hi hi2 (by omega)
  refine ⟨m', h1, hf', ?_⟩
  rcases hcase with ⟨_, heq⟩ | ⟨p, hp1, hp2, hpiv, _, hv⟩
  · subst heq
    intro a b _ _ _ _
    rfl
  · have hpi : p = i := by
      by_contra hne
      exact hpiv ((hr i hi hi2).1 p (by omega) hp2)
    subst hpi
    have hii : m.at1 p p = 1 := by
      rcases (hr p hi hi2).2 with ⟨h, _⟩ | h
      · exact h
      · exact absurd h hpiv
    intro a b ha ha2 hb hb2
    rw [hv a b ha ha2 hb hb2]
    unfold forwardM elimBelowM scaleM swapM
    have hsw : ∀ x, swapF p p x = x := by
      intro x
      unfold swapF
      by_cases c : x = p
      · rw [if_pos c, c]
      · rw [if_neg c, if_neg c]
    simp only [hsw, hii]
    by_cases c1 : p < a
    · have c2 : ¬ a = p := by omega
      have hzero := (hr p hi hi2).1 a c1 ha2
      simp [c1, c2, hzero]
    · by_cases c2 : a = p
      · simp [c1, c2]
      · simp [c1, c2]

/-- On a matrix of the reduced shape a backward step changes no live element. -/
theorem backwardStep_reduced [Field T] [DecidableEq T] (m : Matrix T) (R C i : Nat)
    (hf : m.Frame R C) (hRC : R ≤ C) (hi : 1 ≤ i) (hi2 : i ≤ R) (hr : Reduced m.at1 R) :
    ∃ m', Matrix.backwardStep i m = .ok m' ∧ m'.Frame R C ∧
      ∀ a b, 1 ≤ a → a ≤ R → 1 ≤ b → b ≤ C → m'.at1 a b = m.at1 a b := by
  obtain ⟨m', h1, hf', _, _, hcase⟩ := backwardStep_spec m R C i hf hi hi2 (by omega)
  refine ⟨m', h1, hf', ?_⟩
  rcases hcase with ⟨_, heq⟩ | ⟨hnz, hv⟩
  · subst heq
    intro a b _ _ _ _
    rfl
  · have habove : ∀ a, 1 ≤ a → a < i → m.at1 a i = 0 := by
      rcases (hr i hi hi2).2 with ⟨_, h⟩ | h
      · exact h
      · exact absurd h hnz
    intro a b ha ha2 hb hb2
    rw [hv a b ha ha2 hb hb2]
    unfold elimAboveM
    by_cases c1 : a < i
    · rw [if_pos c1, habove a ha c1]
      ring
    · rw [if_neg c1]

/-- `RowReduce` leaves the live elements of a matrix of the reduced shape unchanged. -/
theorem RowReduce_reduced [Field T] [DecidableEq T] (B : Matrix T) (R C : Nat)
    (hf : B.Frame R C) (hRC : R ≤ C) (hr : Reduced B.at1 R) :
    ∃ B', B.RowReduce = .ok B' ∧ B'.Frame R C ∧
      ∀ a b, 1 ≤ a → a ≤ R → 1 ≤ b → b ≤ C → B'.at1 a b = B.at1 a b := by
  obtain ⟨buf, hc1, hc2, hc3⟩ := ctorCopy_spec Matrix.defaultIncrement B R C hf
  have hf0 := frame_of_copy (T := T) Matrix.defaultIncrement R C buf hc2
  have hv0 : ∀ a b, 1 ≤ a → a ≤ R → 1 ≤ b → b ≤ C →
      Matrix.at1 (⟨R, C, buf, Matrix.uCapacityIncrement Matrix.defaultIncrement * R * C⟩ :
        Matrix T) a b = B.at1 a b := by
    intro a b ha ha2 hb hb2
    unfold Matrix.at1
    simp only [hf.2.1]
    rw [hc3, if_pos (offset_lt ha ha2 hb hb2)]
  have hfw := forUp_inv Matrix.forwardStep
    (fun _ s => s.Frame R C ∧ ∀ a b, 1 ≤ a → a ≤ R → 1 ≤ b → b ≤ C → s.at1 a b = B.at1 a b)
    R 1 _ ⟨hf0, hv0⟩
    (by
      intro i s hi hi2 ⟨hfs, hvs⟩
      obtain ⟨m', h1, hf', hv'⟩ := forwardStep_reduced s R C i hfs hRC hi (by omega)
        (reduced_congr _ _ R C hRC hvs hr)
      exact ⟨m', h1, hf', fun a b ha ha2 hb hb2 => by
        rw [hv' a b ha ha2 hb hb2, hvs a b ha ha2 hb hb2]⟩)
  obtain ⟨m1, h1, hf1, hv1⟩ := hfw
  have hbw := forDown_inv Matrix.backwardStep
    (fun _ s => s.Frame R C ∧ ∀ a b, 1 ≤ a → a ≤ R → 1 ≤ b → b ≤ C → s.at1 a b = B.at1 a b)
    R m1 ⟨hf1, hv1⟩
    (by
      intro i s hi hi2 ⟨hfs, hvs⟩
      obtain ⟨m', h1, hf', hv'⟩ := backwardStep_reduced s R C i hfs hRC hi hi2
        (reduced_congr _ _ R C hRC hvs hr)
      exact ⟨m', h1, hf', fun a b ha ha2 hb hb2 => by
        rw [hv' a b ha ha2 hb hb2, hvs a b ha ha2 hb hb2]⟩)
  obtain ⟨m2, h2, hf2, hv2⟩ := hbw
  have h3 := reorderLoop_reduced m2 R C hf2 hRC (reduced_congr _ _ R C hRC hv2 hr) (R + 1) 1
    (Nat.le_refl _) (by omega) (by omega)
  refine ⟨m2, ?_, hf2, hv2⟩
  unfold Matrix.RowReduce
  rw [hc1, ok_bind]
  simp only
  rw [h1, ok_bind, hf1.1, h2, ok_bind, hf2.1, h3]

end Passes

/-! ## The rank of a reduced matrix -/

section RankLemmas

variable {T : Type}

/-- The read `pRowHead[j]` in row `i` of a framed matrix. -/
theorem load_row [Zero T] (m : Matrix T) (R C i j : Nat) (hf : m.Frame R C)
    (hi : 1 ≤ i) (hi2 : i ≤ R) (hj : j < C) :
    load m.pData ((i - 1) * C + j) = .ok (m.at1 i (j + 1)) := by
  have hlt := offset_lt hi hi2 (show 1 ≤ j + 1 by omega) (show j + 1 ≤ C by omega)
  simp only [Nat.add_sub_cancel] at hlt
  rw [load_of_lt _ _ (by have := hf.2.2; omega)]
  unfold Matrix.at1
  rw [hf.2.1]
  simp only [Nat.add_sub_cancel]

theorem rankScan_congr [Zero T] [DecidableEq T] (m m' : Matrix T) (R C i : Nat)
    (hf : m.Frame R C) (hf' : m'.Frame R C) (hi : 1 ≤ i) (hi2 : i ≤ R)
    (h : ∀ a b, 1 ≤ a → a ≤ R → 1 ≤ b → b ≤ C → m'.at1 a b = m.at1 a b) :
    ∀ (fuel j : Nat), m'.rankScan ((i - 1) * C) fuel j = m.rankScan ((i - 1) * C) fuel j := by
  intro fuel
  induction fuel with
  | zero =>
    intro j
    unfold Matrix.rankScan
    rw [hf.2.1, hf'.2.1]
  | succ f ih =>
    intro j
    unfold Matrix.rankScan
    rw [hf.2.1, hf'.2.1]
    by_cases c : j < C
    · rw [if_pos c, if_pos c, load_row m R C i j hf hi hi2 c, load_row m' R C i j hf' hi hi2 c,
        h i (j + 1) hi hi2 (by omega) (by omega), ok_bind, ok_bind, ih (j + 1)]
    · rw [if_neg c, if_neg c]

/-- `RankOfReducedMatrix` only depends on the shape and on the live elements. -/
theorem RankOfReducedMatrix_congr [Zero T] [DecidableEq T] (m m' : Matrix T) (R C : Nat)
    (hf : m.Frame R C) (hf' : m'.Frame R C)
    (h : ∀ a b, 1 ≤ a → a ≤ R → 1 ≤ b → b ≤ C → m'.at1 a b = m.at1 a b) :
    m'.RankOfReducedMatrix = m.RankOfReducedMatrix := by
  have hloop : ∀ (fuel i : Nat), 1 ≤ i → m'.rankLoop fuel i = m.rankLoop fuel i := by
    intro fuel
    induction fuel with
    | zero =>
      intro i _
      unfold Matrix.rankLoop
      rw [hf.1, hf'.1]
    | succ f ih =>
      intro i hi
      unfold Matrix.rankLoop
      rw [hf.1, hf'.1]
      by_cases c : i ≤ R
      · have e1 : m.ElementAt i 1 = (i - 1) * C := by
          unfold Matrix.ElementAt; rw [hf.2.1]; rfl
        have e2 : m'.ElementAt i 1 = (i - 1) * C := by
          unfold Matrix.ElementAt; rw [hf'.2.1]; rfl
        rw [if_pos c, if_pos c, e1, e2, hf.2.1, hf'.2.1,
          rankScan_congr m m' R C i hf hf' hi c h, ih (i + 1) (by omega)]
      · rw [if_neg c, if_neg c]
  unfold Matrix.RankOfReducedMatrix
  rw [hf.1, hf'.1, hloop (R + 1) 1 (Nat.le_refl _)]

theorem rankScan_ok [Zero T] [DecidableEq T] (m : Matrix T) (R C i : Nat)
    (hf : m.Frame R C) (hi : 1 ≤ i) (hi2 : i ≤ R) :
    ∀ (fuel j : Nat), C ≤ j + fuel → ∃ j', m.rankScan ((i - 1) * C) fuel j = .ok j' := by
  intro fuel
  induction fuel with
  | zero =>
    intro j hj
    unfold Matrix.rankScan
    rw [hf.2.1, if_neg (by omega)]
    exact ⟨j, rfl⟩
  | succ f ih =>
    intro j hj
    unfold Matrix.rankScan
    rw [hf.2.1]
    by_cases c : j < C
    · rw [if_pos c, load_row m R C i j hf hi hi2 c, ok_bind]
      by_cases hz : m.at1 i (j + 1) ≠ 0
      · rw [if_pos hz]; exact ⟨j, rfl⟩
      · rw [if_neg hz]; exact ih (j + 1) (by omega)
    · rw [if_neg c]; exact ⟨j, rfl⟩

/-- `RankOfReducedMatrix` completes on every framed matrix. -/
theorem RankOfReducedMatrix_ok [Zero T] [DecidableEq T] (m : Matrix T) (R C : Nat)
    (hf : m.Frame R C) : ∃ k, m.RankOfReducedMatrix = .ok k := by
  have hloop : ∀ (fuel i : Nat), 1 ≤ i → R + 1 ≤ i + fuel → ∃ i', m.rankLoop fuel i = .ok i' := by
    intro fuel
    induction fuel with
    | zero =>
      intro i _ h
      unfold Matrix.rankLoop
      rw [hf.1, if_neg (by omega)]
      exact ⟨i, rfl⟩
    | succ f ih =>
      intro i hi h
      unfold Matrix.rankLoop
      rw [hf.1]
      by_cases c : i ≤ R
      · have e1 : m.ElementAt i 1 = (i - 1) * C := by
          unfold Matrix.ElementAt; rw [hf.2.1]; rfl
        obtain ⟨j', hj'⟩ := rankScan_ok m R C i hf hi c (C + 1) (i - 1) (by omega)
        rw [if_pos c, e1, hf.2.1, hj', ok_bind]
        by_cases c2 : j' = C
        · rw [if_pos c2]; exact ⟨i, rfl⟩
        · rw [if_neg c2]; exact ih (i + 1) (by omega) (by omega)
      · rw [if_neg c]; exact ⟨i, rfl⟩
  obtain ⟨i', h⟩ := hloop (R + 1) 1 (Nat.le_refl _) (by omega)
  unfold Matrix.RankOfReducedMatrix
  rw [hf.1, h]
  exact ⟨i' - 1, rfl⟩

/-- When every diagonal element is nonzero, `RankOfReducedMatrix` counts all the rows. -/
theorem RankOfReducedMatrix_full [Zero T] [DecidableEq T] (m : Matrix T) (R C : Nat)
    (hf : m.Frame R C) (hRC : R ≤ C) (hd : ∀ c, 1 ≤ c → c ≤ R → m.at1 c c ≠ 0) :
    m.RankOfReducedMatrix = .ok R := by
  have hloop : ∀ (fuel i : Nat), 1 ≤ i → i ≤ R + 1 → R + 1 ≤ i + fuel →
      m.rankLoop fuel i = .ok (R + 1) := by
    intro fuel
    induction fuel with
    | zero =>
      intro i _ h1 h2
      have : i = R + 1 := by omega
      subst this
      unfold Matrix.rankLoop
      rw [hf.1, if_neg (by omega)]
    | succ f ih =>
      intro i hi h1 h2
      unfold Matrix.rankLoop
      rw [hf.1]
      by_cases c : i ≤ R
      · have e1 : m.ElementAt i 1 = (i - 1) * C := by
          unfold Matrix.ElementAt; rw [hf.2.1]; rfl
        have hs : m.rankScan ((i - 1) * C) (C + 1) (i - 1) = .ok (i - 1) := by
          unfold Matrix.rankScan
          rw [hf.2.1, if_pos (by omega), load_row m R C i (i - 1) hf hi c (by omega), ok_bind]
          have e : i - 1 + 1 = i := by omega
          rw [e, if_pos (hd i hi c)]
        rw [if_pos c, e1, hf.2.1, hs, ok_bind, if_neg (by omega)]
        exact ih (i + 1) (by omega) (by omega) (by omega)
      · have : i = R + 1 := by omega
        subst this
        rw [if_neg c]
  unfold Matrix.RankOfReducedMatrix
  rw [hf.1, hloop (R + 1) 1 (Nat.le_refl _) (by omega) (by omega)]
  rfl

end RankLemmas

/-! ## Claims on `RowReduce` and `Rank` -/

/-- C7: the rank is invariant under the reduction used to compute it: whenever
`RowReduce` completes on `A` with result `B`, `Rank()` completes on `A` and `B` and gives the
same number. -/
theorem Rank_RowReduce (T : Type) [Field T] [DecidableEq T] (A B : Matrix T)
    (h : A.RowReduce = .ok B) : B.Rank = A.Rank ∧ ∃ k, A.Rank = .ok k := by
  obtain ⟨hf, hRC⟩ := RowReduce_ok_frame A B h
  obtain ⟨B0, h0, hfB, _, _, hr⟩ := RowReduce_spec A A.uRow A.uCol hf hRC
  rw [h] at h0
  cases h0
  obtain ⟨B', h1, hfB', hv⟩ := RowReduce_reduced B A.uRow A.uCol hfB hRC hr
  have e : B.Rank = A.Rank := by
    unfold Matrix.Rank
    rw [h, h1, ok_bind, ok_bind]
    exact RankOfReducedMatrix_congr B B' A.uRow A.uCol hfB hfB' hv
  refine ⟨e, ?_⟩
  obtain ⟨k, hk⟩ := RankOfReducedMatrix_ok B A.uRow A.uCol hfB
  exact ⟨k, by unfold Matrix.Rank; rw [h, ok_bind, hk]⟩

/-- C7 applied to the matrix `[[1, 2], [3, 4]]`, which reduces to the identity. -/
theorem Rank_RowReduce_witness :
    (⟨2, 2, [1, 0, 0, 1, 0, 0, 0, 0], 8⟩ : Matrix ℚ).Rank
        = (⟨2, 2, [1, 2, 3, 4, 0, 0, 0, 0], 8⟩ : Matrix ℚ).Rank ∧
      ∃ k, (⟨2, 2, [1, 2, 3, 4, 0, 0, 0, 0], 8⟩ : Matrix ℚ).Rank = .ok k :=
  Rank_RowReduce ℚ ⟨2, 2, [1, 2, 3, 4, 0, 0, 0, 0], 8⟩ ⟨2, 2, [1, 0, 0, 1, 0, 0, 0, 0], 8⟩
    (by decide!)

/-! ## The inverse -/

section InverseLemmas

variable {T : Type}

/-- The loop that writes `1` on the diagonal. -/
theorem diag_loop [Zero T] [One T] (E0 : Matrix T) (R : Nat) (hf : E0.Frame R R) :
    ∃ E, forUp (fun i (E : Matrix T) => E.set i i 1) 1 R E0 = .ok E ∧ E.Frame R R ∧
      E.pData.length = E0.pData.length ∧
      ∀ a b, 1 ≤ a → a ≤ R → 1 ≤ b → b ≤ R →
        E.at1 a b = if a = b then 1 else E0.at1 a b := by
  have h := forUp_inv (fun i (E : Matrix T) => E.set i i 1)
    (fun i E => E.Frame R R ∧ E.pData.length = E0.pData.length ∧
      ∀ a b, 1 ≤ a → a ≤ R → 1 ≤ b → b ≤ R →
        E.at1 a b = if a = b ∧ a < i then 1 else E0.at1 a b)
    R 1 E0 ⟨hf, rfl, fun a b ha _ _ _ => by
      have c : ¬ (a = b ∧ a < 1) := by omega
      rw [if_neg c]⟩
    (by
      intro i s hi hi2 ⟨hfs, hls, hv⟩
      obtain ⟨buf, h1, h2, _, h4⟩ := set_spec s R R i i 1 hfs hi (by omega) hi (by omega)
      refine ⟨{ s with pData := buf }, h1, frame_with s R R hfs buf h2, h2.trans hls, ?_⟩
      intro a b ha ha2 hb hb2
      rw [h4 a b ha ha2 hb hb2]
      by_cases c : a = i ∧ b = i
      · have c' : a = b ∧ a < i + 1 := by omega
        rw [if_pos c, if_pos c']
      · rw [if_neg c, hv a b ha ha2 hb hb2]
        have c' : (a = b ∧ a < i + 1) ↔ (a = b ∧ a < i) := by omega
        simp only [c'])
  obtain ⟨E, h1, hfE, hlE, hv⟩ := h
  refine ⟨E, h1, hfE, hlE, ?_⟩
  intro a b ha ha2 hb hb2
  rw [hv a b ha ha2 hb hb2]
  have c' : (a = b ∧ a < 1 + R) ↔ a = b := by omega
  simp only [c']

/-- The `LEFT` case of `CombineWith`: every row is the row of `mat` followed by the row of
`this`. -/
theorem combineLeft_spec [Zero T] (this mat : Matrix T) (R Ct Cm : Nat)
    (ht : this.Frame R Ct) (hm : mat.Frame R Cm) :
    ∃ M, Matrix.combineLeft this mat = .ok M ∧ M.Frame R (Ct + Cm) ∧
      M.pData.length = Matrix.uCapacityIncrement Matrix.defaultIncrement * R * (Ct + Cm) ∧
      ∀ a b, 1 ≤ a → a ≤ R → 1 ≤ b → b ≤ Ct + Cm →
        M.at1 a b = if b ≤ Cm then mat.at1 a b else this.at1 a (b - Cm) := by
  have hge := uCapacityIncrement_ge Matrix.defaultIncrement
  let W := Ct + Cm
  let L := Matrix.uCapacityIncrement Matrix.defaultIncrement * R * W
  have hRW : R * W ≤ L := by
    show R * W ≤ Matrix.uCapacityIncrement Matrix.defaultIncrement * R * W
    rw [Nat.mul_assoc]
    exact Nat.le_mul_of_pos_left _ (by omega)
  have h := forUp_inv (fun _ st => Matrix.combineLeftRow this mat st)
    (fun i (st : List T × Nat × Nat × Nat) =>
      st.2.1 = (i - 1) * W ∧ st.2.2.1 = (i - 1) * Cm ∧ st.2.2.2 = (i - 1) * Ct ∧
      st.1.length = L ∧
      ∀ a b, 1 ≤ a → a < i → 1 ≤ b → b ≤ W →
        val st.1 ((a - 1) * W + (b - 1)) = if b ≤ Cm then mat.at1 a b else this.at1 a (b - Cm))
    R 1 ((Matrix.ctor Matrix.defaultIncrement R W : Matrix T).pData, 0, 0, 0)
    ⟨by simp, by simp, by simp, by simp [Matrix.ctor, L], fun a b ha ha2 _ _ => by omega⟩
    (by
      intro i st hi hi2 hI
      rcases st with ⟨buf, pR, p1, p2⟩
      obtain ⟨e1, e2, e3, hl, hv⟩ := hI
      simp only at e1 e2 e3 hl hv
      subst e1 e2 e3
      obtain ⟨i', rfl⟩ : ∃ i', i = i' + 1 := ⟨i - 1, by omega⟩
      simp only [Nat.add_sub_cancel] at hv ⊢
      have rW := row_in_buffer (p := i' + 1) (R := R) (C := W) (by omega) (by omega)
      have rm := row_in_buffer (p := i' + 1) (R := R) (C := Cm) (by omega) (by omega)
      have rt := row_in_buffer (p := i' + 1) (R := R) (C := Ct) (by omega) (by omega)
      simp only [Nat.add_sub_cancel] at rW rm rt
      have hW : W = Ct + Cm := rfl
      obtain ⟨b1, hb1, hl1, hv1⟩ := copy_loop mat.pData (i' * Cm) (i' * W) Cm buf
        (by have := hm.2.2; omega) (by omega)
      obtain ⟨b2, hb2, hl2, hv2⟩ := copy_loop this.pData (i' * Ct) (i' * W + Cm) Ct b1
        (by have := ht.2.2; omega) (by omega)
      refine ⟨(b2, i' * W + Cm + Ct, i' * Cm + Cm, i' * Ct + Ct), ?_, ?_, ?_, ?_, ?_, ?_⟩
      · show Matrix.combineLeftRow this mat (buf, i' * W, i' * Cm, i' * Ct) = _
        unfold Matrix.combineLeftRow
        simp only [hm.2.1, ht.2.1]
        rw [hb1, ok_bind, hb2, ok_bind]
      · show i' * W + Cm + Ct = (i' + 1) * W
        rw [Nat.add_mul, Nat.one_mul]; omega
      · show i' * Cm + Cm = (i' + 1) * Cm
        rw [Nat.add_mul, Nat.one_mul]
      · show i' * Ct + Ct = (i' + 1) * Ct
        rw [Nat.add_mul, Nat.one_mul]
      · show b2.length = L
        omega
      · intro a b ha ha2 hb hb2
        show val b2 _ = _
        rw [hv2, hv1]
        by_cases c : a = i' + 1
        · subst c
          simp only [Nat.add_sub_cancel]
          by_cases c2 : b ≤ Cm
          · have d1 : ¬ (i' * W + Cm ≤ i' * W + (b - 1) ∧ i' * W + (b - 1) < i' * W + Cm + Ct) := by
              omega
            have d2 : i' * W ≤ i' * W + (b - 1) ∧ i' * W + (b - 1) < i' * W + Cm := by omega
            rw [if_neg d1, if_pos d2, if_pos c2]
            unfold Matrix.at1
            rw [hm.2.1]
            simp only [Nat.add_sub_cancel]
            have e : i' * W + (b - 1) - i' * W + i' * Cm = i' * Cm + (b - 1) := by omega
            rw [e]
          · have d1 : i' * W + Cm ≤ i' * W + (b - 1) ∧ i' * W + (b - 1) < i' * W + Cm + Ct := by
              omega
            rw [if_pos d1, if_neg c2]
            unfold Matrix.at1
            rw [ht.2.1]
            simp only [Nat.add_sub_cancel]
            have e : i' * W + (b - 1) - (i' * W + Cm) + i' * Ct = i' * Ct + (b - Cm - 1) := by
              omega
            rw [e]
        · have hlt := offset_lt ha (show a ≤ i' by omega) hb hb2
          have d1 : ¬ (i' * W + Cm ≤ (a - 1) * W + (b - 1) ∧
              (a - 1) * W + (b - 1) < i' * W + Cm + Ct) := by omega
          have d2 : ¬ (i' * W ≤ (a - 1) * W + (b - 1) ∧ (a - 1) * W + (b - 1) < i' * W + Cm) := by
            omega
          rw [if_neg d1, if_neg d2]
          exact hv a b ha (by omega) hb hb2)
  obtain ⟨st, h1, _, _, _, hl, hv⟩ := h
  refine ⟨{ (Matrix.ctor Matrix.defaultIncrement R W : Matrix T) with pData := st.1 }, ?_,
    ⟨rfl, rfl, by show R * W ≤ st.1.length; omega⟩, hl, ?_⟩
  · unfold Matrix.combineLeft
    rw [if_pos (by rw [ht.1, hm.1])]
    simp only [ht.1, ht.2.1, hm.2.1]
    rw [h1, ok_bind]
  · intro a b ha ha2 hb hb2
    exact hv a b ha (by omega) hb hb2

/-- `ColumnSplit(R + 1, RIGHT)` on an `R × 2R` matrix whose buffer has one element of slack
returns the right half.  Each row is copied with one element too many, which lands on the
first element of the next row and is overwritten there (or in the slack for the last row). -/
theorem ColumnSplit_right_half [Zero T] (B : Matrix T) (R : Nat) (hR : 1 ≤ R)
    (hf : B.Frame R (R + R)) (hl : R * (R + R) + 1 ≤ B.pData.length) :
    ∃ inv, B.ColumnSplit (R + 1) Matrix.Direction.RIGHT = .ok inv ∧ inv.Frame R R ∧
      ∀ a b, 1 ≤ a → a ≤ R → 1 ≤ b → b ≤ R → inv.at1 a b = B.at1 a (R + b) := by
  have hge := uCapacityIncrement_ge Matrix.defaultIncrement
  let L := Matrix.uCapacityIncrement Matrix.defaultIncrement * R * R
  have hRR : R * R ≤ L := by
    show R * R ≤ Matrix.uCapacityIncrement Matrix.defaultIncrement * R * R
    rw [Nat.mul_assoc]
    exact Nat.le_mul_of_pos_left _ (by omega)
  have hRR1 : R * R + 1 ≤ L := by
    have h1 : 1 ≤ R * R := Nat.mul_pos (by omega) (by omega)
    have h2 : 2 * (R * R) ≤ L := by
      show 2 * (R * R) ≤ Matrix.uCapacityIncrement Matrix.defaultIncrement * R * R
      rw [Nat.mul_assoc]
      exact Nat.mul_le_mul_right _ hge
    omega
  have h := forUp_inv (fun _ (st : List T × Nat × Nat) =>
      forUp (fun j b => load B.pData (st.2.2 + j) >>= fun v => store b (st.2.1 + j) v)
        0 (R + 1) st.1 >>= fun b1 =>
      .ok (b1, st.2.1 + R, st.2.2 + (R + R)))
    (fun i (st : List T × Nat × Nat) =>
      st.2.1 = (i - 1) * R ∧ st.2.2 = (i - 1) * (R + R) + R ∧ st.1.length = L ∧
      ∀ a b, 1 ≤ a → a < i → 1 ≤ b → b ≤ R →
        val st.1 ((a - 1) * R + (b - 1)) = B.at1 a (R + b))
    R 1 ((Matrix.ctor Matrix.defaultIncrement R R : Matrix T).pData, 0, R)
    ⟨by simp, by simp, by simp [Matrix.ctor, L], fun a b ha ha2 _ _ => by omega⟩
    (by
      intro i st hi hi2 hI
      rcases st with ⟨buf, pS, pR⟩
      obtain ⟨e1, e2, hlb, hv⟩ := hI
      simp only at e1 e2 hlb hv
      subst e1 e2
      obtain ⟨i', rfl⟩ : ∃ i', i = i' + 1 := ⟨i - 1, by omega⟩
      simp only [Nat.add_sub_cancel] at hv ⊢
      have r1 := row_in_buffer (p := i' + 1) (R := R) (C := R) (by omega) (by omega)
      have r2 := row_in_buffer (p := i' + 1) (R := R) (C := R + R) (by omega) (by omega)
      simp only [Nat.add_sub_cancel] at r1 r2
      obtain ⟨b1, hb1, hl1, hv1⟩ := copy_loop B.pData (i' * (R + R) + R) (i' * R) (R + 1) buf
        (by omega) (by omega)
      refine ⟨(b1, i' * R + R, i' * (R + R) + R + (R + R)), ?_, ?_, ?_, ?_, ?_⟩
      · dsimp only
        rw [hb1, ok_bind]
      · show i' * R + R = (i' + 1) * R
        rw [Nat.add_mul, Nat.one_mul]
      · show i' * (R + R) + R + (R + R) = (i' + 1) * (R + R) + R
        rw [Nat.add_mul, Nat.one_mul]; omega
      · show b1.length = L
        omega
      · intro a b ha ha2 hb hb2
        show val b1 _ = _
        rw [hv1]
        by_cases c : a = i' + 1
        · subst c
          simp only [Nat.add_sub_cancel]
          have d1 : i' * R ≤ i' * R + (b - 1) ∧ i' * R + (b - 1) < i' * R + (R + 1) := by omega
          rw [if_pos d1]
          unfold Matrix.at1
          rw [hf.2.1]
          simp only [Nat.add_sub_cancel]
          have e : i' * R + (b - 1) - i' * R + (i' * (R + R) + R) =
              i' * (R + R) + (R + b - 1) := by omega
          rw [e]
        · have hlt := offset_lt ha (show a ≤ i' by omega) hb hb2
          have d1 : ¬ (i' * R ≤ (a - 1) * R + (b - 1) ∧
              (a - 1) * R + (b - 1) < i' * R + (R + 1)) := by omega
          rw [if_neg d1]
          exact hv a b ha (by omega) hb hb2)
  obtain ⟨st, h1, _, _, hlst, hv⟩ := h
  refine ⟨{ (Matrix.ctor Matrix.defaultIncrement R R : Matrix T) with pData := st.1 }, ?_,
    ⟨rfl, rfl, by show R * R ≤ st.1.length; omega⟩, ?_⟩
  · unfold Matrix.ColumnSplit Matrix.columnSplitRows
    simp only [hf.1, hf.2.1]
    have e1 : (if R + 1 ≤ R + R then R + 1 else R + R) = R + 1 := by
      rw [if_pos (by omega)]
    have e2 : R + R - (R + 1) + 1 = R := by omega
    rw [e1, e2]
    simp only [Nat.add_sub_cancel]
    have e3 : (Matrix.ctor Matrix.defaultIncrement R R : Matrix T).uCol = R := rfl
    rw [e3, h1, ok_bind]
  · intro a b ha ha2 hb hb2
    exact hv a b ha (by omega) hb hb2

theorem ctorFill_spec [Zero T] (ci R C : Nat) (v : T) :
    ∃ buf, Matrix.ctorFill ci R C v = .ok ⟨R, C, buf, Matrix.uCapacityIncrement ci * R * C⟩ ∧
      buf.length = Matrix.uCapacityIncrement ci * R * C ∧
      ∀ idx, val buf idx = if idx < R * C then v else 0 := by
  have hge := uCapacityIncrement_ge ci
  have hle : R * C ≤ Matrix.uCapacityIncrement ci * R * C := by
    rw [Nat.mul_assoc]
    exact Nat.le_mul_of_pos_left _ (by omega)
  obtain ⟨buf, h1, h2, h3⟩ := fill_loop v 0 0 (R * C)
    (List.replicate (Matrix.uCapacityIncrement ci * R * C) (0 : T)) (by simpa using hle)
  refine ⟨buf, ?_, by simpa using h2, fun idx => ?_⟩
  · unfold Matrix.ctorFill Matrix.ctor
    simp only
    have h1' : forUp (fun i b => store b i v) 0 (R * C)
        (List.replicate (Matrix.uCapacityIncrement ci * R * C) (0 : T)) = .ok buf := by
      simpa using h1
    rw [h1', ok_bind]
  · rw [h3 idx, val_replicate]
    by_cases c : idx < R * C
    · rw [if_pos c, if_pos (by omega)]
    · rw [if_neg c, if_neg (by omega)]

/-- `Identity(R)` is the `R × R` matrix with `1` on the diagonal and `0` elsewhere. -/
theorem Identity_spec [Zero T] [One T] (R : Nat) :
    ∃ I : Matrix T, Matrix.Identity R = .ok I ∧ I.Frame R R ∧
      ∀ a b, 1 ≤ a → a ≤ R → 1 ≤ b → b ≤ R → I.at1 a b = if a = b then 1 else 0 := by
  obtain ⟨buf, h1, h2, h3⟩ := ctorFill_spec (T := T) Matrix.defaultIncrement R R 0
  have hf0 := frame_of_copy (T := T) Matrix.defaultIncrement R R buf h2
  obtain ⟨I, hI1, hI2, _, hI4⟩ := diag_loop _ R hf0
  refine ⟨I, ?_, hI2, ?_⟩
  · unfold Matrix.Identity Matrix.Zeroes
    rw [h1, ok_bind, hI1]
  · intro a b ha ha2 hb hb2
    rw [hI4 a b ha ha2 hb hb2]
    by_cases c : a = b
    · rw [if_pos c, if_pos c]
    · rw [if_neg c, if_neg c]
      unfold Matrix.at1
      show val buf _ = 0
      rw [h3]
      split <;> rfl

/-- Framed matrices with the same live matrix are the same to an observer. -/
theorem sameAs_of_toMat [Zero T] (m m' : Matrix T) (R C : Nat) (hf : m.Frame R C)
    (hf' : m'.Frame R C) (h : m.toMat R C = m'.toMat R C) : m.SameAs m' := by
  refine ⟨by rw [hf.1, hf'.1], by rw [hf.2.1, hf'.2.1], ?_⟩
  intro i j hi hi2 hj hj2
  rw [hf.1] at hi2
  rw [hf.2.1] at hj2
  refine ⟨m.at1 i j, get_of_frame m R C i j hf hi hi2 hj hj2, ?_⟩
  rw [get_of_frame m' R C i j hf' hi hi2 hj hj2]
  have := congrFun (congrFun h ⟨i - 1, by omega⟩) ⟨j - 1, by omega⟩
  simp only [Matrix.toMat] at this
  have e1 : i - 1 + 1 = i := by omega
  have e2 : j - 1 + 1 = j := by omega
  rw [e1, e2] at this
  rw [this]

/-- A square matrix of the reduced shape with nonzero determinant is the identity. -/
theorem reduced_eq_one [Field T] (f : Nat → Nat → T) (R : Nat) (hr : Reduced f R)
    (hdet : Matrix.det (fun (a b : Fin R) => f (a.val + 1) (b.val + 1)) ≠ 0) :
    (∀ c, 1 ≤ c → c ≤ R → f c c = 1) ∧
      (fun (a b : Fin R) => f (a.val + 1) (b.val + 1)) = (1 : MathMatrix (Fin R) (Fin R) T) := by
  have htri : Matrix.BlockTriangular (fun (a b : Fin R) => f (a.val + 1) (b.val + 1)) id := by
    intro i j hij
    have hi := i.isLt
    have hlt : j.val < i.val := hij
    exact (hr (j.val + 1) (by omega) (by omega)).1 (i.val + 1) (by omega) (by omega)
  rw [Matrix.det_of_upperTriangular htri, Finset.prod_ne_zero_iff] at hdet
  have hdiag : ∀ c, 1 ≤ c → c ≤ R → f c c = 1 ∧ ∀ a, 1 ≤ a → a < c → f a c = 0 := by
    intro c hc1 hc2
    have hnz := hdet ⟨c - 1, by omega⟩ (Finset.mem_univ _)
    simp only at hnz
    have e : c - 1 + 1 = c := by omega
    rw [e] at hnz
    rcases (hr c hc1 hc2).2 with h | h
    · exact h
    · exact absurd h hnz
  refine ⟨fun c h1 h2 => (hdiag c h1 h2).1, ?_⟩
  ext a b
  have ha := a.isLt
  have hb := b.isLt
  rw [Matrix.one_apply]
  by_cases c : a = b
  · rw [if_pos c, c]
    exact (hdiag (b.val + 1) (by omega) (by omega)).1
  · rw [if_neg c]
    have hne : a.val ≠ b.val := fun e => c (Fin.ext e)
    rcases Nat.lt_or_gt_of_ne hne with h | h
    · exact (hdiag (b.val + 1) (by omega) (by omega)).2 (a.val + 1) (by omega) (by omega)
    · exact (hr (b.val + 1) (by omega) (by omega)).1 (a.val + 1) (by omega) (by omega)

theorem rankScan_found [Zero T] [DecidableEq T] (m : Matrix T) (R C i j0 : Nat)
    (hf : m.Frame R C) (hi : 1 ≤ i) (hi2 : i ≤ R) (hj0 : j0 < C) (hnz : m.at1 i (j0 + 1) ≠ 0) :
    ∀ (fuel j : Nat), j ≤ j0 → j0 < j + fuel →
      ∃ j', m.rankScan ((i - 1) * C) fuel j = .ok j' ∧ j' < C := by
  intro fuel
  induction fuel with
  | zero => intro j h1 h2; omega
  | succ f ih =>
    intro j h1 h2
    unfold Matrix.rankScan
    rw [hf.2.1, if_pos (by omega), load_row m R C i j hf hi hi2 (by omega), ok_bind]
    by_cases hz : m.at1 i (j + 1) ≠ 0
    · rw [if_pos hz]; exact ⟨j, rfl, by omega⟩
    · rw [if_neg hz]
      have hne : j ≠ j0 := fun e => hz (by rw [e]; exact hnz)
      exact ih (j + 1) (by omega) (by omega)

/-- When every row `i` has a nonzero element at or after column `i`, `RankOfReducedMatrix`
counts all the rows. -/
theorem RankOfReducedMatrix_all [Zero T] [DecidableEq T] (m : Matrix T) (R C : Nat)
    (hf : m.Frame R C)
    (hd : ∀ i, 1 ≤ i → i ≤ R → ∃ j0, i - 1 ≤ j0 ∧ j0 < C ∧ m.at1 i (j0 + 1) ≠ 0) :
    m.RankOfReducedMatrix = .ok R := by
  have hloop : ∀ (fuel i : Nat), 1 ≤ i → i ≤ R + 1 → R + 1 ≤ i + fuel →
      m.rankLoop fuel i = .ok (R + 1) := by
    intro fuel
    induction fuel with
    | zero =>
      intro i _ h1 h2
      have : i = R + 1 := by omega
      subst this
      unfold Matrix.rankLoop
      rw [hf.1, if_neg (by omega)]
    | succ f ih =>
      intro i hi h1 h2
      unfold Matrix.rankLoop
      rw [hf.1]
      by_cases c : i ≤ R
      · have e1 : m.ElementAt i 1 = (i - 1) * C := by
          unfold Matrix.ElementAt; rw [hf.2.1]; rfl
        obtain ⟨j0, h3, h4, h5⟩ := hd i hi c
        obtain ⟨j', hs, hj'⟩ := rankScan_found m R C i j0 hf hi c h4 h5 (C + 1) (i - 1) h3
          (by omega)
        rw [if_pos c, e1, hf.2.1, hs, ok_bind, if_neg (by omega)]
        exact ih (i + 1) (by omega) (by omega) (by omega)
      · have : i = R + 1 := by omega
        subst this
        rw [if_neg c]
  unfold Matrix.RankOfReducedMatrix
  rw [hf.1, hloop (R + 1) 1 (Nat.le_refl _) (by omega) (by omega)]
  rfl

/-- `Inverse()` returns a matrix on every square matrix of size at least 1: the reduction of
`[A | I]` is `[P * A | P]` for an invertible `P`, the rank test always passes because it scans
the rows of `P` too, and the result is `P`. -/
theorem Inverse_total [Field T] [DecidableEq T] (A : Matrix T) (R : Nat) (hR : 1 ≤ R)
    (hf : A.Frame R R) :
    ∃ inv B : Matrix T, A.Inverse = .ok inv ∧ inv.Frame R R ∧ Reduced B.at1 R ∧
      IsUnit (Matrix.det (inv.toMat R R)) ∧
      (fun (a b : Fin R) => B.at1 (a.val + 1) (b.val + 1)) = inv.toMat R R * A.toMat R R := by
  have h2 : Matrix.uCapacityIncrement Matrix.defaultIncrement = 2 := rfl
  obtain ⟨E, hE1, hE2, _, hE4⟩ := diag_loop (Matrix.ctor Matrix.defaultIncrement R R : Matrix T) R
    (frame_ctor _ _ _)
  obtain ⟨M, hM1, hM2, _, hM4⟩ := combineLeft_spec E A R R R hE2 hf
  obtain ⟨B, hB1, hB2, hB3, ⟨P, hP, hBP⟩, hB5⟩ := RowReduce_spec M R (R + R) hM2 (by omega)
  -- the left block of the reduced matrix is `P * A`
  have hleft : (fun (a b : Fin R) => B.at1 (a.val + 1) (b.val + 1)) = P * A.toMat R R := by
    ext a b
    have hb := b.isLt
    have e := congrFun (congrFun hBP a) (Fin.castAdd R b)
    simp only [Matrix.toMat, Fin.coe_castAdd] at e
    rw [e, Matrix.mul_apply, Matrix.mul_apply]
    apply Finset.sum_congr rfl
    intro k _
    have hk := k.isLt
    simp only [Matrix.toMat, Fin.coe_castAdd]
    rw [hM4 _ _ (by omega) (by omega) (by omega) (by omega), if_pos (by omega)]
  -- the right block of the reduced matrix is `P`
  have hright : (fun (a b : Fin R) => B.at1 (a.val + 1) (R + (b.val + 1))) = P := by
    ext a b
    have hb := b.isLt
    have e := congrFun (congrFun hBP a) (Fin.natAdd R b)
    simp only [Matrix.toMat, Fin.coe_natAdd] at e
    have e' : R + (b.val + 1) = R + b.val + 1 := by omega
    rw [e', e, Matrix.mul_apply]
    have hterm : ∀ k : Fin R, P a k * M.toMat R (R + R) k (Fin.natAdd R b) =
        if k = b then P a k else 0 := by
      intro k
      have hk := k.isLt
      simp only [Matrix.toMat, Fin.coe_natAdd]
      rw [hM4 _ _ (by omega) (by omega) (by omega) (by omega), if_neg (by omega)]
      have e2 : R + b.val + 1 - R = b.val + 1 := by omega
      rw [e2, hE4 _ _ (by omega) (by omega) (by omega) (by omega), at1_ctor]
      by_cases c : k = b
      · rw [if_pos c, if_pos (by rw [c]), mul_one]
      · have c' : ¬ (k.val + 1 = b.val + 1) := fun h => c (Fin.ext (by omega))
        rw [if_neg c, if_neg c', mul_zero]
    rw [Finset.sum_congr rfl (fun k _ => hterm k)]
    simp
  -- every row of `P` has a nonzero element, so the rank test passes
  have hrow : ∀ i, 1 ≤ i → i ≤ R → ∃ j0, i - 1 ≤ j0 ∧ j0 < R + R ∧ B.at1 i (j0 + 1) ≠ 0 := by
    intro i hi hi2
    have hex : ∃ b : Fin R, P ⟨i - 1, by omega⟩ b ≠ 0 := by
      by_contra hcon
      push_neg at hcon
      exact hP.ne_zero (Matrix.det_eq_zero_of_row_eq_zero ⟨i - 1, by omega⟩ hcon)
    obtain ⟨b, hb⟩ := hex
    have hbl := b.isLt
    refine ⟨R + b.val, by omega, by omega, ?_⟩
    have e := congrFun (congrFun hright ⟨i - 1, by omega⟩) b
    simp only at e
    have e1 : i - 1 + 1 = i := by omega
    have e2 : R + (b.val + 1) = R + b.val + 1 := by omega
    rw [e1, e2] at e
    rw [e]
    exact hb
  have hrank := RankOfReducedMatrix_all B R (R + R) hB2 hrow
  have hlen : R * (R + R) + 1 ≤ B.pData.length := by
    have h1 : 1 ≤ R * (R + R) := Nat.mul_pos (by omega) (by omega)
    have h3 : 2 * R * (R + R) = 2 * (R * (R + R)) := Nat.mul_assoc _ _ _
    rw [hB3, h2, h3]
    omega
  obtain ⟨inv, hI1, hI2, hI3⟩ := ColumnSplit_right_half B R hR hB2 hlen
  have hinv : inv.toMat R R = P := by
    rw [← hright]
    ext a b
    have ha := a.isLt
    have hb := b.isLt
    simp only [Matrix.toMat]
    rw [hI3 _ _ (by omega) (by omega) (by omega) (by omega)]
  refine ⟨inv, B, ?_, hI2, hB5, by rw [hinv]; exact hP, by rw [hinv]; exact hleft⟩
  unfold Matrix.Inverse Matrix.CombineWith
  rw [if_pos (by rw [hf.1, hf.2.1])]
  simp only [hf.1, hf.2.1]
  rw [hE1, ok_bind, hM1, ok_bind, hB1, ok_bind, hrank, ok_bind, if_pos rfl, hI1]

/-- `Inverse()` on a square matrix with nonzero determinant returns a left inverse. -/
theorem Inverse_spec [Field T] [DecidableEq T] (A : Matrix T) (R : Nat) (hR : 1 ≤ R)
    (hf : A.Frame R R) (hdet : Matrix.det (A.toMat R R) ≠ 0) :
    ∃ inv, A.Inverse = .ok inv ∧ inv.Frame R R ∧ inv.toMat R R * A.toMat R R = 1 := by
  obtain ⟨inv, B, h1, h2, h3, h4, h5⟩ := Inverse_total A R hR hf
  refine ⟨inv, h1, h2, ?_⟩
  have hLdet : Matrix.det (fun (a b : Fin R) => B.at1 (a.val + 1) (b.val + 1)) ≠ 0 := by
    rw [h5, Matrix.det_mul]
    exact mul_ne_zero h4.ne_zero hdet
  rw [← h5]
  exact (reduced_eq_one B.at1 R h3 hLdet).2

end InverseLemmas

/-! ## Claims on `Inverse`, `RowReduce` and `Rank` -/

/-- C1: for a square `R × R` matrix `A` (`R ≥ 1`) over a field that has a two-sided inverse,
`Inverse()` succeeds and returns an `R × R` matrix `inv` such that both products `A * inv` and
`inv * A` are equal to `Identity(R)`.  For `[[1, 2], [3, 4]]` the result is
`[[-2, 1], [3/2, -1/2]]`. -/
theorem Inverse_is_two_sided_inverse :
    (∀ (T : Type) [Field T] [DecidableEq T] (A : Matrix T) (R : Nat), 1 ≤ R → A.Frame R R →
      (∃ Binv : MathMatrix (Fin R) (Fin R) T,
        A.toMat R R * Binv = 1 ∧ Binv * A.toMat R R = 1) →
      ∃ inv P Q I, A.Inverse = .ok inv ∧ inv.uRow = R ∧ inv.uCol = R ∧
        A.mul inv = .ok P ∧ inv.mul A = .ok Q ∧ Matrix.Identity R = .ok I ∧
        P.SameAs I ∧ Q.SameAs I) ∧
    (∃ A inv : Matrix ℚ, Matrix.ctorData 2 2 2 [1, 2, 3, 4] 4 = .ok A ∧
      A.Inverse = .ok inv ∧ inv.uRow = 2 ∧ inv.uCol = 2 ∧
      inv.get 1 1 = .ok (-2) ∧ inv.get 1 2 = .ok 1 ∧
      inv.get 2 1 = .ok (3 / 2) ∧ inv.get 2 2 = .ok (-1 / 2)) := by
  refine ⟨?_, ?_⟩
  · intro T _ _ A R hR hf ⟨Binv, hB1, _⟩
    have hdet : Matrix.det (A.toMat R R) ≠ 0 := by
      intro h0
      have := congrArg Matrix.det hB1
      rw [Matrix.det_mul, h0, zero_mul, Matrix.det_one] at this
      exact zero_ne_one this
    obtain ⟨inv, hi1, hi2, hi3⟩ := Inverse_spec A R hR hf hdet
    have hi4 : A.toMat R R * inv.toMat R R = 1 := Matrix.mul_eq_one_comm.1 hi3
    obtain ⟨P, hP1, hP2, _, hP4⟩ := mul_spec A inv R R R hf hi2
    obtain ⟨Q, hQ1, hQ2, _, hQ4⟩ := mul_spec inv A R R R hi2 hf
    obtain ⟨I, hI1, hI2, hI3⟩ := Identity_spec (T := T) R
    have hI : I.toMat R R = 1 := by
      ext a b
      have ha := a.isLt
      have hb := b.isLt
      simp only [Matrix.toMat]
      rw [hI3 _ _ (by omega) (by omega) (by omega) (by omega), Matrix.one_apply]
      by_cases c : a = b
      · rw [if_pos c, if_pos (by rw [c])]
      · have c' : ¬ (a.val + 1 = b.val + 1) := fun h => c (Fin.ext (by omega))
        rw [if_neg c, if_neg c']
    refine ⟨inv, P, Q, I, hi1, hi2.1, hi2.2.1, hP1, hQ1, hI1, ?_, ?_⟩
    · apply sameAs_of_toMat P I R R hP2 hI2
      rw [toMat_mul A inv P R R R hP4, hi4, hI]
    · apply sameAs_of_toMat Q I R R hQ2 hI2
      rw [toMat_mul inv A Q R R R hQ4, hi3, hI]
  · exact ⟨⟨2, 2, [1, 2, 3, 4, 0, 0, 0, 0], 8⟩, ⟨2, 2, [-2, 1, 3 / 2, -1 / 2, 0, 0, 0, 0], 8⟩,
      rfl, by decide!, rfl, rfl, by decide!, by decide!, by decide!, by decide!⟩

/-- The general statement of C1 applied to the `2 × 2` matrix `[[1, 2], [3, 4]]`, whose
inverse is `[[-2, 1], [3/2, -1/2]]`. -/
theorem Inverse_is_two_sided_inverse_witness :
    ∃ inv P Q I, (⟨2, 2, [1, 2, 3, 4, 0, 0, 0, 0], 8⟩ : Matrix ℚ).Inverse = .ok inv ∧
      inv.uRow = 2 ∧ inv.uCol = 2 ∧
      (⟨2, 2, [1, 2, 3, 4, 0, 0, 0, 0], 8⟩ : Matrix ℚ).mul inv = .ok P ∧
      inv.mul (⟨2, 2, [1, 2, 3, 4, 0, 0, 0, 0], 8⟩ : Matrix ℚ) = .ok Q ∧
      Matrix.Identity 2 = .ok I ∧ P.SameAs I ∧ Q.SameAs I :=
  Inverse_is_two_sided_inverse.1 ℚ ⟨2, 2, [1, 2, 3, 4, 0, 0, 0, 0], 8⟩ 2 (by decide)
    ⟨rfl, rfl, by decide⟩
    ⟨!![-2, 1; 3 / 2, -1 / 2], by
      ext a b
      fin_cases a <;> fin_cases b <;>
        simp [Matrix.mul_apply, Fin.sum_univ_two, Matrix.toMat, Matrix.at1, val] <;> norm_num,
      by
      ext a b
      fin_cases a <;> fin_cases b <;>
        simp [Matrix.mul_apply, Fin.sum_univ_two, Matrix.toMat, Matrix.at1, val] <;> norm_num⟩

/-- C2 (the code departs from the claim): the `2 × 2` zero matrix is singular and
`Invertible()` returns false on it, but `Inverse()` does not fail: it returns the identity.
More generally `Inverse()` returns a matrix on every square matrix (`Inverse_total`): the
rank test scans the rows of the augmented matrix, which are never zero. -/
theorem Inverse_of_singular_returns :
    (Matrix.ctor 2 2 2 : Matrix ℚ).Invertible = .ok false ∧
      (Matrix.ctor 2 2 2 : Matrix ℚ).Inverse = .ok ⟨2, 2, [1, 0, 0, 1, 0, 0, 0, 0], 8⟩ := by
  constructor <;> decide!

/-- C5 (the code departs from the claim): `RowReduce` maps `[[0, 1], [0, 1]]` to
`[[0, 0], [0, 1]]`, where the zero row lies above the row of the pivot. -/
theorem RowReduce_leaves_zero_row_on_top :
    ∃ A : Matrix ℚ, Matrix.ctorData 2 2 2 [0, 1, 0, 1] 4 = .ok A ∧
      A.RowReduce = .ok ⟨2, 2, [0, 0, 0, 1, 0, 0, 0, 0], 8⟩ :=
  ⟨⟨2, 2, [0, 1, 0, 1, 0, 0, 0, 0], 8⟩, rfl, by decide!⟩

/-- C6 (the code departs from the claim): `Rank()` returns `0` on `[[0, 0], [0, 1]]`, a
matrix of rank `1`. -/
theorem Rank_misses_row :
    ∃ A : Matrix ℚ, Matrix.ctorData 2 2 2 [0, 0, 0, 1] 4 = .ok A ∧
      A.Rank = .ok 0 ∧ Matrix.rank (A.toMat 2 2) = 1 := by
  refine ⟨⟨2, 2, [0, 0, 0, 1, 0, 0, 0, 0], 8⟩, rfl, by decide!, ?_⟩
  have e : (Matrix.toMat (⟨2, 2, [0, 0, 0, 1, 0, 0, 0, 0], 8⟩ : Matrix ℚ) 2 2)
      = Matrix.diagonal ![0, 1] := by
    ext a b
    fin_cases a <;> fin_cases b <;> simp [Matrix.toMat, Matrix.at1, val]
  rw [e, Matrix.rank_diagonal]
  decide

/-! ## Concatenation, splitting and transposition -/

section StructureLemmas

variable {T : Type}

/-- A loop that copies the first `n` elements of `src` to the start of `dst`. -/
theorem copy_loop00 [Zero T] (src : List T) (n : Nat) (dst : List T)
    (hs : n ≤ src.length) (hd : n ≤ dst.length) :
    ∃ buf, forUp (fun j b => load src j >>= fun v => store b j v) 0 n dst = .ok buf ∧
      buf.length = dst.length ∧
      ∀ idx, val buf idx = if idx < n then val src idx else val dst idx := by
  obtain ⟨buf, h1, h2, h3⟩ := copy_loop src 0 0 n dst (by omega) (by omega)
  refine ⟨buf, ?_, h2, ?_⟩
  · have e : (fun j (b : List T) => load src j >>= fun v => store b j v) =
        (fun j b => load src (0 + j) >>= fun v => store b (0 + j) v) := by
      funext j b
      rw [Nat.zero_add]
    rw [e]
    exact h1
  · intro idx
    rw [h3 idx]
    by_cases c : idx < n
    · rw [if_pos (by omega), if_pos c]
      simp
    · rw [if_neg (by omega), if_neg c]

/-- The `ABOVE` case of `CombineWith`: the rows of `mat`, then the rows of `this`. -/
theorem combineAbove_spec [Zero T] (this mat : Matrix T) (Rt Rm C : Nat)
    (ht : this.Frame Rt C) (hm : mat.Frame Rm C) :
    ∃ M, Matrix.combineAbove this mat = .ok M ∧ M.Frame (Rt + Rm) C ∧
      ∀ a b, 1 ≤ a → a ≤ Rt + Rm → 1 ≤ b → b ≤ C →
        M.at1 a b = if a ≤ Rm then mat.at1 a b else this.at1 (a - Rm) b := by
  have hge := uCapacityIncrement_ge Matrix.defaultIncrement
  let L := Matrix.uCapacityIncrement Matrix.defaultIncrement * (Rt + Rm) * C
  have hsum : (Rt + Rm) * C = Rm * C + Rt * C := by rw [Nat.add_mul]; omega
  have hRW : (Rt + Rm) * C ≤ L := by
    show (Rt + Rm) * C ≤ Matrix.uCapacityIncrement Matrix.defaultIncrement * (Rt + Rm) * C
    rw [Nat.mul_assoc]
    exact Nat.le_mul_of_pos_left _ (by omega)
  have hl0 : (Matrix.ctor Matrix.defaultIncrement (Rt + Rm) C : Matrix T).pData.length = L := by
    simp [Matrix.ctor, L]
  obtain ⟨b1, hb1, hl1, hv1⟩ := copy_loop00 mat.pData (Rm * C)
    (Matrix.ctor Matrix.defaultIncrement (Rt + Rm) C : Matrix T).pData
    hm.2.2 (by omega)
  obtain ⟨b2, hb2, hl2, hv2⟩ := copy_loop0 this.pData (Rm * C) (Rt * C) b1
    ht.2.2 (by omega)
  refine ⟨{ (Matrix.ctor Matrix.defaultIncrement (Rt + Rm) C : Matrix T) with pData := b2 }, ?_,
    ⟨rfl, rfl, by show (Rt + Rm) * C ≤ b2.length; omega⟩, ?_⟩
  · unfold Matrix.combineAbove
    rw [if_pos (by rw [ht.2.1, hm.2.1])]
    simp only [ht.1, ht.2.1, hm.1, hm.2.1]
    rw [hb1, ok_bind, hb2, ok_bind]
  · intro a b ha ha2 hb hb2
    show val b2 ((a - 1) * C + (b - 1)) = _
    rw [hv2, hv1]
    by_cases c : a ≤ Rm
    · have hlt := offset_lt ha c hb hb2
      rw [if_neg (by omega), if_pos hlt, if_pos c]
      unfold Matrix.at1
      rw [hm.2.1]
    · obtain ⟨a', rfl⟩ : ∃ a', a = Rm + a' + 1 := ⟨a - Rm - 1, by omega⟩
      have e1 : (Rm + a' + 1 - 1) * C = Rm * C + a' * C := by
        simp only [Nat.add_sub_cancel]
        rw [Nat.add_mul]
      have hlt := offset_lt (i := a' + 1) (R := Rt) (by omega) (by omega) hb hb2
      simp only [Nat.add_sub_cancel] at hlt
      rw [e1, if_pos (by omega), if_neg c]
      unfold Matrix.at1
      rw [ht.2.1]
      have e2 : Rm * C + a' * C + (b - 1) - Rm * C = (Rm + a' + 1 - Rm - 1) * C + (b - 1) := by
        have : Rm + a' + 1 - Rm - 1 = a' := by omega
        rw [this]; omega
      rw [e2]

/-- The `TOPLEFT` case of `CombineWith`: `mat` in the top-left corner, `this` in the
bottom-right corner, zero elsewhere. -/
theorem combineCorner_spec [Zero T] (this mat : Matrix T) (Rt Ct Rm Cm : Nat)
    (ht : this.Frame Rt Ct) (hm : mat.Frame Rm Cm) :
    ∃ M, Matrix.combineCorner this mat 0 = .ok M ∧ M.Frame (Rt + Rm) (Ct + Cm) ∧
      ∀ a b, 1 ≤ a → a ≤ Rt + Rm → 1 ≤ b → b ≤ Ct + Cm →
        M.at1 a b = if a ≤ Rm then (if b ≤ Cm then mat.at1 a b else 0)
          else (if b ≤ Cm then 0 else this.at1 (a - Rm) (b - Cm)) := by
  have hge := uCapacityIncrement_ge Matrix.defaultIncrement
  let W := Ct + Cm
  let Rr := Rt + Rm
  let L := Matrix.uCapacityIncrement Matrix.defaultIncrement * Rr * W
  have hW : W = Ct + Cm := rfl
  have hRr : Rr = Rt + Rm := rfl
  have hRW : Rr * W ≤ L := by
    show Rr * W ≤ Matrix.uCapacityIncrement Matrix.defaultIncrement * Rr * W
    rw [Nat.mul_assoc]
    exact Nat.le_mul_of_pos_left _ (by omega)
  -- first loop: the rows of `mat`
  have h1 := forUp_inv (fun _ (st : List T × Nat × Nat) =>
      forUp (fun j b => load mat.pData (st.2.2 + j) >>= fun v => store b (st.2.1 + j) v)
        0 Cm st.1 >>= fun b1 =>
      .ok (b1, st.2.1 + W, st.2.2 + Cm))
    (fun i (st : List T × Nat × Nat) =>
      st.2.1 = (i - 1) * W ∧ st.2.2 = (i - 1) * Cm ∧ st.1.length = L ∧
      ∀ a b, 1 ≤ a → a ≤ Rr → 1 ≤ b → b ≤ W →
        val st.1 ((a - 1) * W + (b - 1)) = if a < i ∧ b ≤ Cm then mat.at1 a b else 0)
    Rm 1 ((Matrix.ctor Matrix.defaultIncrement Rr W : Matrix T).pData, 0, 0)
    ⟨by simp, by simp, by simp [Matrix.ctor, L], fun a b ha _ _ _ => by
      rw [if_neg (by omega)]
      exact at1_ctor Matrix.defaultIncrement Rr W a b⟩
    (by
      intro i st hi hi2 hI
      rcases st with ⟨buf, pH, pS⟩
      obtain ⟨e1, e2, hlb, hv⟩ := hI
      simp only at e1 e2 hlb hv
      subst e1 e2
      obtain ⟨i', rfl⟩ : ∃ i', i = i' + 1 := ⟨i - 1, by omega⟩
      simp only [Nat.add_sub_cancel] at hv ⊢
      have r1 := row_in_buffer (p := i' + 1) (R := Rm) (C := Cm) (by omega) (by omega)
      have r2 := row_in_buffer (p := i' + 1) (R := Rr) (C := W) (by omega) (by omega)
      simp only [Nat.add_sub_cancel] at r1 r2
      obtain ⟨b1, hb1, hl1, hv1⟩ := copy_loop mat.pData (i' * Cm) (i' * W) Cm buf
        (by have := hm.2.2; omega) (by omega)
      refine ⟨(b1, i' * W + W, i' * Cm + Cm), ?_, ?_, ?_, ?_, ?_⟩
      · dsimp only
        rw [hb1, ok_bind]
      · show i' * W + W = (i' + 1) * W
        rw [Nat.add_mul, Nat.one_mul]
      · show i' * Cm + Cm = (i' + 1) * Cm
        rw [Nat.add_mul, Nat.one_mul]
      · show b1.length = L
        omega
      · intro a b ha ha2 hb hb2
        show val b1 _ = _
        rw [hv1, hv a b ha ha2 hb hb2]
        have hrow := row_mem_iff (a := a) (b := b) (p := i' + 1) (C := W) ha (by omega) hb hb2
        simp only [Nat.add_sub_cancel] at hrow
        by_cases c : a = i' + 1
        · subst c
          simp only [Nat.add_sub_cancel]
          by_cases c2 : b ≤ Cm
          · have d1 : i' * W ≤ i' * W + (b - 1) ∧ i' * W + (b - 1) < i' * W + Cm := by omega
            rw [if_pos d1, if_pos ⟨by omega, c2⟩]
            unfold Matrix.at1
            rw [hm.2.1]
            simp only [Nat.add_sub_cancel]
            have e : i' * W + (b - 1) - i' * W + i' * Cm = i' * Cm + (b - 1) := by omega
            rw [e]
          · have d1 : ¬ (i' * W ≤ i' * W + (b - 1) ∧ i' * W + (b - 1) < i' * W + Cm) := by omega
            rw [if_neg d1, if_neg (by omega), if_neg (by omega)]
        · have d1 : ¬ (i' * W ≤ (a - 1) * W + (b - 1) ∧ (a - 1) * W + (b - 1) < i' * W + Cm) := by
            intro hh
            exact c (hrow.1 ⟨hh.1, by omega⟩)
          rw [if_neg d1]
          by_cases c2 : a < i' + 1 ∧ b ≤ Cm
          · rw [if_pos c2, if_pos ⟨by omega, c2.2⟩]
          · rw [if_neg c2, if_neg (by omega)])
  obtain ⟨st1, hst1, hp1, _, hl1, hv1⟩ := h1
  rcases st1 with ⟨buf1, pH1, pS1⟩
  simp only at hp1 hl1 hv1
  have hp1' : pH1 = Rm * W := by rw [hp1]; congr 1; omega
  subst hp1'
  -- second loop: the rows of `this`
  have h2 := forUp_inv (fun _ (st : List T × Nat × Nat) =>
      forUp (fun j b => load this.pData (st.2.2 + j) >>= fun v => store b (st.2.1 + j) v)
        0 Ct st.1 >>= fun b1 =>
      .ok (b1, st.2.1 + W, st.2.2 + Ct))
    (fun i (st : List T × Nat × Nat) =>
      st.2.1 = (Rm + (i - 1)) * W + Cm ∧ st.2.2 = (i - 1) * Ct ∧ st.1.length = L ∧
      ∀ a b, 1 ≤ a → a ≤ Rr → 1 ≤ b → b ≤ W →
        val st.1 ((a - 1) * W + (b - 1)) =
          if a ≤ Rm then (if b ≤ Cm then mat.at1 a b else 0)
          else (if a - Rm < i ∧ Cm < b then this.at1 (a - Rm) (b - Cm) else 0))
    Rt 1 (buf1, Rm * W + Cm, 0)
    ⟨by simp, by simp, hl1, fun a b ha ha2 hb hb2 => by
      show val buf1 _ = _
      rw [hv1 a b ha ha2 hb hb2]
      by_cases c : a ≤ Rm
      · rw [if_pos c]
        by_cases c2 : b ≤ Cm
        · rw [if_pos c2, if_pos ⟨by omega, c2⟩]
        · rw [if_neg c2, if_neg (by omega)]
      · rw [if_neg c, if_neg (by omega), if_neg (by omega)]⟩
    (by
      intro i st hi hi2 hI
      rcases st with ⟨buf, pH, pS⟩
      obtain ⟨e1, e2, hlb, hv⟩ := hI
      simp only at e1 e2 hlb hv
      subst e1 e2
      obtain ⟨i', rfl⟩ : ∃ i', i = i' + 1 := ⟨i - 1, by omega⟩
      simp only [Nat.add_sub_cancel] at hv ⊢
      have r1 := row_in_buffer (p := i' + 1) (R := Rt) (C := Ct) (by omega) (by omega)
      have r2 := row_in_buffer (p := Rm + i' + 1) (R := Rr) (C := W) (by omega) (by omega)
      simp only [Nat.add_sub_cancel] at r1 r2
      obtain ⟨b1, hb1, hlb1, hvb1⟩ := copy_loop this.pData (i' * Ct) ((Rm + i') * W + Cm) Ct buf
        (by have := ht.2.2; omega) (by omega)
      refine ⟨(b1, (Rm + i') * W + Cm + W, i' * Ct + Ct), ?_, ?_, ?_, ?_, ?_⟩
      · dsimp only
        rw [hb1, ok_bind]
      · show (Rm + i') * W + Cm + W = (Rm + (i' + 1)) * W + Cm
        have : (Rm + (i' + 1)) * W = (Rm + i') * W + W := by
          rw [← Nat.add_assoc, Nat.add_mul, Nat.one_mul]
        omega
      · show i' * Ct + Ct = (i' + 1) * Ct
        rw [Nat.add_mul, Nat.one_mul]
      · show b1.length = L
        omega
      · intro a b ha ha2 hb hb2
        show val b1 _ = _
        rw [hvb1, hv a b ha ha2 hb hb2]
        have hrow := row_mem_iff (a := a) (b := b) (p := Rm + i' + 1) (C := W) ha (by omega)
          hb hb2
        simp only [Nat.add_sub_cancel] at hrow
        by_cases c : a = Rm + i' + 1
        · subst c
          simp only [Nat.add_sub_cancel]
          have e0 : Rm + i' + 1 - Rm = i' + 1 := by omega
          have n1 : ¬ (Rm + i' + 1 ≤ Rm) := by omega
          rw [e0]
          by_cases c2 : b ≤ Cm
          · have d1 : ¬ ((Rm + i') * W + Cm ≤ (Rm + i') * W + (b - 1) ∧
                (Rm + i') * W + (b - 1) < (Rm + i') * W + Cm + Ct) := by omega
            have n2 : ¬ (i' + 1 < i' + 1 ∧ Cm < b) := by omega
            have n3 : ¬ (i' + 1 < i' + 1 + 1 ∧ Cm < b) := by omega
            rw [if_neg d1, if_neg n1, if_neg n1, if_neg n2, if_neg n3]
          · have d1 : (Rm + i') * W + Cm ≤ (Rm + i') * W + (b - 1) ∧
                (Rm + i') * W + (b - 1) < (Rm + i') * W + Cm + Ct := by omega
            have n3 : i' + 1 < i' + 1 + 1 ∧ Cm < b := by omega
            rw [if_pos d1, if_neg n1, if_pos n3]
            unfold Matrix.at1
            rw [ht.2.1]
            simp only [Nat.add_sub_cancel]
            have e : (Rm + i') * W + (b - 1) - ((Rm + i') * W + Cm) + i' * Ct =
                i' * Ct + (b - Cm - 1) := by omega
            rw [e]
        · have d1 : ¬ ((Rm + i') * W + Cm ≤ (a - 1) * W + (b - 1) ∧
              (a - 1) * W + (b - 1) < (Rm + i') * W + Cm + Ct) := by
            intro hh
            exact c (hrow.1 ⟨by omega, by omega⟩)
          rw [if_neg d1]
          by_cases c1 : a ≤ Rm
          · rw [if_pos c1, if_pos c1]
          · rw [if_neg c1, if_neg c1]
            by_cases c2 : a - Rm < i' + 1 ∧ Cm < b
            · rw [if_pos c2, if_pos ⟨by omega, c2.2⟩]
            · rw [if_neg c2, if_neg (by omega)])
  obtain ⟨st2, hst2, _, _, hl2, hv2⟩ := h2
  refine ⟨{ (Matrix.ctor Matrix.defaultIncrement Rr W : Matrix T) with pData := st2.1 }, ?_,
    ⟨rfl, rfl, by show Rr * W ≤ st2.1.length; omega⟩, ?_⟩
  · unfold Matrix.combineCorner
    simp only [ht.1, ht.2.1, hm.1, hm.2.1]
    have e3 : (Matrix.ctor Matrix.defaultIncrement (Rt + Rm) (Ct + Cm) : Matrix T).uCol = W := rfl
    rw [e3]
    rw [hst1, ok_bind]
    dsimp only
    rw [hst2, ok_bind]
  · intro a b ha ha2 hb hb2
    show val st2.1 ((a - 1) * W + (b - 1)) = _
    rw [hv2 a b ha ha2 hb hb2]
    by_cases c1 : a ≤ Rm
    · rw [if_pos c1, if_pos c1]
    · rw [if_neg c1, if_neg c1]
      by_cases c2 : b ≤ Cm
      · rw [if_pos c2, if_neg (by omega)]
      · rw [if_neg c2, if_pos ⟨by omega, by omega⟩]

/-- `ColumnSplit(index, LEFT)` keeps the first `min index C` columns. -/
theorem ColumnSplit_left_spec [Zero T] (B : Matrix T) (R C index : Nat) (hf : B.Frame R C) :
    ∃ M, B.ColumnSplit index Matrix.Direction.LEFT = .ok M ∧ M.Frame R (min index C) ∧
      ∀ a b, 1 ≤ a → a ≤ R → 1 ≤ b → b ≤ min index C → M.at1 a b = B.at1 a b := by
  have hge := uCapacityIncrement_ge Matrix.defaultIncrement
  have en : (if index ≤ C then index else C) = min index C := by
    split <;> omega
  let n := min index C
  have hn : n ≤ C := by show min index C ≤ C; omega
  let L := Matrix.uCapacityIncrement Matrix.defaultIncrement * R * n
  have hRn : R * n ≤ L := by
    show R * n ≤ Matrix.uCapacityIncrement Matrix.defaultIncrement * R * n
    rw [Nat.mul_assoc]
    exact Nat.le_mul_of_pos_left _ (by omega)
  have h := forUp_inv (fun _ (st : List T × Nat × Nat) =>
      forUp (fun j b => load B.pData (st.2.2 + j) >>= fun v => store b (st.2.1 + j) v)
        0 n st.1 >>= fun b1 =>
      .ok (b1, st.2.1 + n, st.2.2 + C))
    (fun i (st : List T × Nat × Nat) =>
      st.2.1 = (i - 1) * n ∧ st.2.2 = (i - 1) * C ∧ st.1.length = L ∧
      ∀ a b, 1 ≤ a → a < i → 1 ≤ b → b ≤ n →
        val st.1 ((a - 1) * n + (b - 1)) = B.at1 a b)
    R 1 ((Matrix.ctor Matrix.defaultIncrement R n : Matrix T).pData, 0, 0)
    ⟨by simp, by simp, by simp [Matrix.ctor, L], fun a b ha ha2 _ _ => by omega⟩
    (by
      intro i st hi hi2 hI
      rcases st with ⟨buf, pS, pR⟩
      obtain ⟨e1, e2, hlb, hv⟩ := hI
      simp only at e1 e2 hlb hv
      subst e1 e2
      obtain ⟨i', rfl⟩ : ∃ i', i = i' + 1 := ⟨i - 1, by omega⟩
      simp only [Nat.add_sub_cancel] at hv ⊢
      have r1 := row_in_buffer (p := i' + 1) (R := R) (C := n) (by omega) (by omega)
      have r2 := row_in_buffer (p := i' + 1) (R := R) (C := C) (by omega) (by omega)
      simp only [Nat.add_sub_cancel] at r1 r2
      obtain ⟨b1, hb1, hl1, hv1⟩ := copy_loop B.pData (i' * C) (i' * n) n buf
        (by have := hf.2.2; omega) (by omega)
      refine ⟨(b1, i' * n + n, i' * C + C), ?_, ?_, ?_, ?_, ?_⟩
      · dsimp only
        rw [hb1, ok_bind]
      · show i' * n + n = (i' + 1) * n
        rw [Nat.add_mul, Nat.one_mul]
      · show i' * C + C = (i' + 1) * C
        rw [Nat.add_mul, Nat.one_mul]
      · show b1.length = L
        omega
      · intro a b ha ha2 hb hb2
        show val b1 _ = _
        rw [hv1]
        by_cases c : a = i' + 1
        · subst c
          simp only [Nat.add_sub_cancel]
          have d1 : i' * n ≤ i' * n + (b - 1) ∧ i' * n + (b - 1) < i' * n + n := by omega
          rw [if_pos d1]
          unfold Matrix.at1
          rw [hf.2.1]
          simp only [Nat.add_sub_cancel]
          have e : i' * n + (b - 1) - i' * n + i' * C = i' * C + (b - 1) := by omega
          rw [e]
        · have hlt := offset_lt ha (show a ≤ i' by omega) hb hb2
          have d1 : ¬ (i' * n ≤ (a - 1) * n + (b - 1) ∧
              (a - 1) * n + (b - 1) < i' * n + n) := by omega
          rw [if_neg d1]
          exact hv a b ha (by omega) hb hb2)
  obtain ⟨st, h1, _, _, hlst, hv⟩ := h
  refine ⟨{ (Matrix.ctor Matrix.defaultIncrement R n : Matrix T) with pData := st.1 }, ?_,
    ⟨rfl, rfl, by show R * n ≤ st.1.length; omega⟩, ?_⟩
  · unfold Matrix.ColumnSplit Matrix.columnSplitRows
    simp only [hf.1, hf.2.1]
    rw [en]
    have e3 : (Matrix.ctor Matrix.defaultIncrement R n : Matrix T).uCol = n := rfl
    show (forUp _ 1 R _ >>= _) = _
    rw [e3, h1, ok_bind]
  · intro a b ha ha2 hb hb2
    exact hv a b ha (by omega) hb hb2

/-- Framed matrices with the same live elements are the same to an observer. -/
theorem sameAs_of_at1 [Zero T] (m m' : Matrix T) (R C : Nat) (hf : m.Frame R C)
    (hf' : m'.Frame R C)
    (h : ∀ a b, 1 ≤ a → a ≤ R → 1 ≤ b → b ≤ C → m.at1 a b = m'.at1 a b) : m.SameAs m' := by
  refine ⟨by rw [hf.1, hf'.1], by rw [hf.2.1, hf'.2.1], ?_⟩
  intro i j hi hi2 hj hj2
  rw [hf.1] at hi2
  rw [hf.2.1] at hj2
  refine ⟨m.at1 i j, get_of_frame m R C i j hf hi hi2 hj hj2, ?_⟩
  rw [h i j hi hi2 hj hj2]
  exact get_of_frame m' R C i j hf' hi hi2 hj hj2

/-- `Transpose()` returns the `C × R` matrix with entry `(i, j)` equal to entry `(j, i)`. -/
theorem Transpose_spec [Zero T] (A : Matrix T) (R C : Nat) (hA : A.Frame R C) :
    ∃ r, A.Transpose = .ok r ∧ r.Frame C R ∧
      ∀ i j, 1 ≤ i → i ≤ C → 1 ≤ j → j ≤ R → r.at1 i j = A.at1 j i := by
  let Inv : Nat → Nat → Matrix T → Prop := fun i j r =>
    r.Frame C R ∧ ∀ a b, 1 ≤ a → a ≤ C → 1 ≤ b → b ≤ R → (a < i ∨ (a = i ∧ b < j)) →
      r.at1 a b = A.at1 b a
  have inner : ∀ (i : Nat) (r : Matrix T), 1 ≤ i → i ≤ C → Inv i 1 r →
      ∃ r', forUp (fun j (r2 : Matrix T) =>
          load A.pData (A.ElementAt j i) >>= fun v => r2.set i j v) 1 R r = .ok r' ∧
        Inv (i + 1) 1 r' := by
    intro i r hi hi2 h0
    have h := forUp_inv (fun j (r2 : Matrix T) =>
          load A.pData (A.ElementAt j i) >>= fun v => r2.set i j v)
      (fun j r => Inv i j r) R 1 r h0
      (by
        intro j s hj hj2 ⟨hf, hv⟩
        obtain ⟨buf, hs, hbl, _, hat⟩ := set_spec s C R i j (A.at1 j i) hf hi hi2 hj (by omega)
        refine ⟨{ s with pData := buf }, ?_, ?_, ?_⟩
        · dsimp only
          rw [load_ElementAt A R C j i hA hj (by omega) hi hi2, ok_bind, hs]
        · exact ⟨hf.1, hf.2.1, by show C * R ≤ buf.length; rw [hbl]; exact hf.2.2⟩
        · intro a b ha ha2 hb hb2 hc
          rw [hat a b ha ha2 hb hb2]
          by_cases c : a = i ∧ b = j
          · obtain ⟨rfl, rfl⟩ := c
            rw [if_pos ⟨rfl, rfl⟩]
          · rw [if_neg c]
            exact hv a b ha ha2 hb hb2 (by omega))
    obtain ⟨r', h1, hf, hv⟩ := h
    exact ⟨r', h1, hf, fun a b ha ha2 hb hb2 hc => hv a b ha ha2 hb hb2 (by omega)⟩
  have outer := forUp_inv (fun i r1 => forUp (fun j (r2 : Matrix T) =>
          load A.pData (A.ElementAt j i) >>= fun v => r2.set i j v) 1 R r1)
      (fun i r => Inv i 1 r) C 1 (Matrix.ctor Matrix.defaultIncrement C R)
      ⟨frame_ctor _ _ _, fun a b ha ha2 hb hb2 hc => by omega⟩
      (fun i s hi hi2 hI => inner i s hi (by omega) hI)
  obtain ⟨P, h1, hf, hv⟩ := outer
  refine ⟨P, ?_, hf, ?_⟩
  · unfold Matrix.Transpose
    simp only [hA.1, hA.2.1]
    exact h1
  · intro i j hi hi2 hj hj2
    exact hv i j hi hi2 hj hj2 (by omega)

/-- A live element of `m` that is found again in `M` is read as the same value through
`ElemAt` in both matrices. -/
theorem get_pair [Zero T] (m M : Matrix T) (R C R' C' i j a b : Nat) (hf : m.Frame R C)
    (hF : M.Frame R' C') (hi : 1 ≤ i) (hi2 : i ≤ R) (hj : 1 ≤ j) (hj2 : j ≤ C)
    (ha : 1 ≤ a) (ha2 : a ≤ R') (hb : 1 ≤ b) (hb2 : b ≤ C') (h : M.at1 a b = m.at1 i j) :
    ∃ v, m.get i j = .ok v ∧ M.get a b = .ok v := by
  refine ⟨m.at1 i j, get_of_frame m R C i j hf hi hi2 hj hj2, ?_⟩
  rw [← h]
  exact get_of_frame M R' C' a b hF ha ha2 hb hb2

/-- A span of `2^64 - 1` rows is not clamped by `Block`: the sum with the start wraps to
`0`, and the constructor of the result is asked for `2^64 - 2` elements, which cannot be
allocated. -/
theorem Block_unclamped_span :
    (⟨2, 2, [1, 2, 3, 4, 0, 0, 0, 0], 8⟩ : Matrix ℚ).Block false 2 2 (2 ^ 64 - 1) 1 =
        .error Err.AllocationFailure ∧
      (⟨2, 2, [1, 2, 3, 4, 0, 0, 0, 0], 8⟩ : Matrix ℚ).Block true 1 1 (2 ^ 64 - 1) 1 =
        .error Err.AllocationFailure := by
  constructor <;> decide!

end StructureLemmas

/-! ## Claims on capacity, blocks, concatenation, splitting and transposition -/

/-- C11 (the code departs from the claim): from `Create(1, 1)`, of capacity 2, a first
`AddRow` gives a `2 × 1` matrix of capacity 2.  A second `AddRow` passes its position check
and needs room for 3 elements, but `Expand` is not called (the test `3 < 2` is false) and
the new row is stored beyond the 2 allocated elements. -/
theorem AddRow_outgrows_capacity :
    ∀ uninit : Nat → ℚ, ∃ m1 : Matrix ℚ,
      (Matrix.ctor 2 1 1 : Matrix ℚ).AddRow 2 false uninit [5] 1 = .ok m1 ∧
      m1.uRow = 2 ∧ m1.uCol = 1 ∧ m1.uCapacity = 2 ∧ m1.pData.length = 2 ∧
      ¬ ((m1.uRow + 1) * m1.uCol < m1.uCapacity) ∧
      m1.uCapacity < (m1.uRow + 1) * m1.uCol ∧
      m1.AddRow 2 false uninit [6] 1 = .error Err.OutOfBuffer :=
  fun _ => ⟨⟨2, 1, [0, 5], 2⟩, rfl, rfl, rfl, rfl, rfl, by decide, by decide, rfl⟩

/-- C12 (the code departs from the claim): on the `2 × 2` matrix `[[1, 2], [3, 4]]`,
`Block(0, 0, 100, 100)` fails with an index out of range, with or without
`MATRIX_INDEX_START_AT_0`; so does `Block(1, 1, 100, 100)` in the default build. -/
theorem Block_rejects_first_row_and_column :
    ∃ A : Matrix ℚ, Matrix.ctorData 2 2 2 [1, 2, 3, 4] 4 = .ok A ∧
      A.Block false 0 0 100 100 = .error Err.IndexOutOfRange ∧
      A.Block true 0 0 100 100 = .error Err.IndexOutOfRange ∧
      A.Block false 1 1 100 100 = .error Err.IndexOutOfRange :=
  ⟨⟨2, 2, [1, 2, 3, 4, 0, 0, 0, 0], 8⟩, rfl, rfl, rfl, rfl⟩

/-- C13 (the code departs from the claim): on the `2 × 2` matrix `[[1, 2], [3, 4]]`, a start
past the last row and column is accepted: `Block(3, 3, 1, 1)` in the default build and
`Block(2, 2, 1, 1)` with `MATRIX_INDEX_START_AT_0` return the empty matrix, and
`Block(2, 2, 1, 1)` in the default build returns `[[4]]`. -/
theorem Block_accepts_start_past_the_end :
    ∃ A : Matrix ℚ, Matrix.ctorData 2 2 2 [1, 2, 3, 4] 4 = .ok A ∧
      A.Block false 3 3 1 1 = .ok ⟨0, 0, [], 0⟩ ∧
      A.Block true 2 2 1 1 = .ok ⟨0, 0, [], 0⟩ ∧
      A.Block false 2 2 1 1 = .ok ⟨1, 1, [4, 0], 2⟩ :=
  ⟨⟨2, 2, [1, 2, 3, 4, 0, 0, 0, 0], 8⟩, rfl, rfl, rfl, rfl⟩

/-- C14: for `self` of shape `Rs × C` and `other` of shape `Ro × C`, `CombineWith(other,
ABOVE)` is the `(Rs + Ro) × C` matrix made of the rows of `other` followed by the rows of
`self`, and `CombineWith(other, BELOW)` is made of the rows of `self` followed by the rows of
`other`; both fail with a dimension mismatch when the column counts differ, as for a `2 × 2`
and a `2 × 3` matrix. -/
theorem CombineWith_above_below :
    (∀ (T : Type) [Zero T] (self other : Matrix T) (Rs Ro C : Nat),
      self.Frame Rs C → other.Frame Ro C →
      (∃ M, self.CombineWith other Matrix.Direction.ABOVE = .ok M ∧
        M.uRow = Rs + Ro ∧ M.uCol = C ∧
        (∀ i j, 1 ≤ i → i ≤ Ro → 1 ≤ j → j ≤ C →
          ∃ v, other.get i j = .ok v ∧ M.get i j = .ok v) ∧
        (∀ i j, 1 ≤ i → i ≤ Rs → 1 ≤ j → j ≤ C →
          ∃ v, self.get i j = .ok v ∧ M.get (Ro + i) j = .ok v)) ∧
      (∃ M, self.CombineWith other Matrix.Direction.BELOW = .ok M ∧
        M.uRow = Rs + Ro ∧ M.uCol = C ∧
        (∀ i j, 1 ≤ i → i ≤ Rs → 1 ≤ j → j ≤ C →
          ∃ v, self.get i j = .ok v ∧ M.get i j = .ok v) ∧
        (∀ i j, 1 ≤ i → i ≤ Ro → 1 ≤ j → j ≤ C →
          ∃ v, other.get i j = .ok v ∧ M.get (Rs + i) j = .ok v))) ∧
    (∀ (T : Type) [Zero T] (self other : Matrix T), self.uCol ≠ other.uCol →
      self.CombineWith other Matrix.Direction.ABOVE = .error Err.DimensionMismatch ∧
      self.CombineWith other Matrix.Direction.BELOW = .error Err.DimensionMismatch) ∧
    (∃ A B C : Matrix ℚ, Matrix.ctorData 2 2 2 [1, 2, 3, 4] 4 = .ok A ∧
      Matrix.ctorData 2 2 3 [1, 2, 3, 4, 5, 6] 6 = .ok B ∧
      Matrix.ctorData 2 2 2 [5, 6, 7, 8] 4 = .ok C ∧
      A.CombineWith B Matrix.Direction.ABOVE = .error Err.DimensionMismatch ∧
      A.CombineWith C Matrix.Direction.ABOVE =
        .ok ⟨4, 2, [5, 6, 7, 8, 1, 2, 3, 4, 0, 0, 0, 0, 0, 0, 0, 0], 16⟩) := by
  refine ⟨?_, ?_, ?_⟩
  · intro T _ self other Rs Ro C hs ho
    constructor
    · obtain ⟨M, h1, hf, hv⟩ := combineAbove_spec self other Rs Ro C hs ho
      refine ⟨M, h1, hf.1, hf.2.1, ?_, ?_⟩
      · intro i j hi hi2 hj hj2
        apply get_pair other M Ro C (Rs + Ro) C i j i j ho hf hi hi2 hj hj2 hi (by omega) hj hj2
        rw [hv i j hi (by omega) hj hj2, if_pos hi2]
      · intro i j hi hi2 hj hj2
        apply get_pair self M Rs C (Rs + Ro) C i j (Ro + i) j hs hf hi hi2 hj hj2 (by omega)
          (by omega) hj hj2
        rw [hv (Ro + i) j (by omega) (by omega) hj hj2, if_neg (by omega)]
        have e : Ro + i - Ro = i := by omega
        rw [e]
    · obtain ⟨M, h1, hf, hv⟩ := combineAbove_spec other self Ro Rs C ho hs
      have hf' : M.Frame (Rs + Ro) C := by rw [Nat.add_comm]; exact hf
      refine ⟨M, h1, hf'.1, hf'.2.1, ?_, ?_⟩
      · intro i j hi hi2 hj hj2
        apply get_pair self M Rs C (Rs + Ro) C i j i j hs hf' hi hi2 hj hj2 hi (by omega) hj hj2
        rw [hv i j hi (by omega) hj hj2, if_pos hi2]
      · intro i j hi hi2 hj hj2
        apply get_pair other M Ro C (Rs + Ro) C i j (Rs + i) j ho hf' hi hi2 hj hj2 (by omega)
          (by omega) hj hj2
        rw [hv (Rs + i) j (by omega) (by omega) hj hj2, if_neg (by omega)]
        have e : Rs + i - Rs = i := by omega
        rw [e]
  · intro T _ self other hne
    constructor
    · show Matrix.combineAbove self other = _
      unfold Matrix.combineAbove
      rw [if_neg hne]
    · show Matrix.combineAbove other self = _
      unfold Matrix.combineAbove
      rw [if_neg (fun h => hne h.symm)]
  · exact ⟨⟨2, 2, [1, 2, 3, 4, 0, 0, 0, 0], 8⟩, ⟨2, 3, [1, 2, 3, 4, 5, 6, 0, 0, 0, 0, 0, 0], 12⟩,
      ⟨2, 2, [5, 6, 7, 8, 0, 0, 0, 0], 8⟩, rfl, rfl, rfl, rfl, rfl⟩

/-- The general statement of C14 for `self = [[1, 2]]` and `other = [[3, 4], [5, 6]]`. -/
theorem CombineWith_above_below_witness :
    (∃ M, (⟨1, 2, [1, 2, 0, 0], 4⟩ : Matrix ℤ).CombineWith ⟨2, 2, [3, 4, 5, 6, 0, 0, 0, 0], 8⟩
        Matrix.Direction.ABOVE = .ok M ∧ M.uRow = 1 + 2 ∧ M.uCol = 2 ∧
      (∀ i j, 1 ≤ i → i ≤ 2 → 1 ≤ j → j ≤ 2 →
        ∃ v, (⟨2, 2, [3, 4, 5, 6, 0, 0, 0, 0], 8⟩ : Matrix ℤ).get i j = .ok v ∧
          M.get i j = .ok v) ∧
      (∀ i j, 1 ≤ i → i ≤ 1 → 1 ≤ j → j ≤ 2 →
        ∃ v, (⟨1, 2, [1, 2, 0, 0], 4⟩ : Matrix ℤ).get i j = .ok v ∧
          M.get (2 + i) j = .ok v)) ∧
    (∃ M, (⟨1, 2, [1, 2, 0, 0], 4⟩ : Matrix ℤ).CombineWith ⟨2, 2, [3, 4, 5, 6, 0, 0, 0, 0], 8⟩
        Matrix.Direction.BELOW = .ok M ∧ M.uRow = 1 + 2 ∧ M.uCol = 2 ∧
      (∀ i j, 1 ≤ i → i ≤ 1 → 1 ≤ j → j ≤ 2 →
        ∃ v, (⟨1, 2, [1, 2, 0, 0], 4⟩ : Matrix ℤ).get i j = .ok v ∧
          M.get i j = .ok v) ∧
      (∀ i j, 1 ≤ i → i ≤ 2 → 1 ≤ j → j ≤ 2 →
        ∃ v, (⟨2, 2, [3, 4, 5, 6, 0, 0, 0, 0], 8⟩ : Matrix ℤ).get i j = .ok v ∧
          M.get (1 + i) j = .ok v)) :=
  CombineWith_above_below.1 ℤ ⟨1, 2, [1, 2, 0, 0], 4⟩ ⟨2, 2, [3, 4, 5, 6, 0, 0, 0, 0], 8⟩ 1 2 2
    ⟨rfl, rfl, by decide⟩ ⟨rfl, rfl, by decide⟩

/-- C15: for `self` of shape `R × Cs` and `other` of shape `R × Co`, `CombineWith(other,
LEFT)` is the `R × (Cs + Co)` matrix whose rows are the rows of `other` followed by the rows
of `self`, and `CombineWith(other, RIGHT)` has the rows of `self` followed by the rows of
`other`; both fail with a dimension mismatch when the row counts differ. -/
theorem CombineWith_left_right :
    (∀ (T : Type) [Zero T] (self other : Matrix T) (R Cs Co : Nat),
      self.Frame R Cs → other.Frame R Co →
      (∃ M, self.CombineWith other Matrix.Direction.LEFT = .ok M ∧
        M.uRow = R ∧ M.uCol = Cs + Co ∧
        (∀ i j, 1 ≤ i → i ≤ R → 1 ≤ j → j ≤ Co →
          ∃ v, other.get i j = .ok v ∧ M.get i j = .ok v) ∧
        (∀ i j, 1 ≤ i → i ≤ R → 1 ≤ j → j ≤ Cs →
          ∃ v, self.get i j = .ok v ∧ M.get i (Co + j) = .ok v)) ∧
      (∃ M, self.CombineWith other Matrix.Direction.RIGHT = .ok M ∧
        M.uRow = R ∧ M.uCol = Cs + Co ∧
        (∀ i j, 1 ≤ i → i ≤ R → 1 ≤ j → j ≤ Cs →
          ∃ v, self.get i j = .ok v ∧ M.get i j = .ok v) ∧
        (∀ i j, 1 ≤ i → i ≤ R → 1 ≤ j → j ≤ Co →
          ∃ v, other.get i j = .ok v ∧ M.get i (Cs + j) = .ok v))) ∧
    (∀ (T : Type) [Zero T] (self other : Matrix T), self.uRow ≠ other.uRow →
      self.CombineWith other Matrix.Direction.LEFT = .error Err.DimensionMismatch ∧
      self.CombineWith other Matrix.Direction.RIGHT = .error Err.DimensionMismatch) := by
  refine ⟨?_, ?_⟩
  · intro T _ self other R Cs Co hs ho
    constructor
    · obtain ⟨M, h1, hf, _, hv⟩ := combineLeft_spec self other R Cs Co hs ho
      refine ⟨M, h1, hf.1, hf.2.1, ?_, ?_⟩
      · intro i j hi hi2 hj hj2
        apply get_pair other M R Co R (Cs + Co) i j i j ho hf hi hi2 hj hj2 hi hi2 hj (by omega)
        rw [hv i j hi hi2 hj (by omega), if_pos hj2]
      · intro i j hi hi2 hj hj2
        apply get_pair self M R Cs R (Cs + Co) i j i (Co + j) hs hf hi hi2 hj hj2 hi hi2
          (by omega) (by omega)
        rw [hv i (Co + j) hi hi2 (by omega) (by omega), if_neg (by omega)]
        have e : Co + j - Co = j := by omega
        rw [e]
    · obtain ⟨M, h1, hf, _, hv⟩ := combineLeft_spec other self R Co Cs ho hs
      have hf' : M.Frame R (Cs + Co) := by rw [Nat.add_comm]; exact hf
      refine ⟨M, h1, hf'.1, hf'.2.1, ?_, ?_⟩
      · intro i j hi hi2 hj hj2
        apply get_pair self M R Cs R (Cs + Co) i j i j hs hf' hi hi2 hj hj2 hi hi2 hj (by omega)
        rw [hv i j hi hi2 hj (by omega), if_pos hj2]
      · intro i j hi hi2 hj hj2
        apply get_pair other M R Co R (Cs + Co) i j i (Cs + j) ho hf' hi hi2 hj hj2 hi hi2
          (by omega) (by omega)
        rw [hv i (Cs + j) hi hi2 (by omega) (by omega), if_neg (by omega)]
        have e : Cs + j - Cs = j := by omega
        rw [e]
  · intro T _ self other hne
    constructor
    · show Matrix.combineLeft self other = _
      unfold Matrix.combineLeft
      rw [if_neg hne]
    · show Matrix.combineLeft other self = _
      unfold Matrix.combineLeft
      rw [if_neg (fun h => hne h.symm)]

/-- The general statement of C15 for `self = [[1], [2]]` and `other = [[3, 4], [5, 6]]`. -/
theorem CombineWith_left_right_witness :
    (∃ M, (⟨2, 1, [1, 2, 0, 0], 4⟩ : Matrix ℤ).CombineWith ⟨2, 2, [3, 4, 5, 6, 0, 0, 0, 0], 8⟩
        Matrix.Direction.LEFT = .ok M ∧ M.uRow = 2 ∧ M.uCol = 1 + 2 ∧
      (∀ i j, 1 ≤ i → i ≤ 2 → 1 ≤ j → j ≤ 2 →
        ∃ v, (⟨2, 2, [3, 4, 5, 6, 0, 0, 0, 0], 8⟩ : Matrix ℤ).get i j = .ok v ∧
          M.get i j = .ok v) ∧
      (∀ i j, 1 ≤ i → i ≤ 2 → 1 ≤ j → j ≤ 1 →
        ∃ v, (⟨2, 1, [1, 2, 0, 0], 4⟩ : Matrix ℤ).get i j = .ok v ∧
          M.get i (2 + j) = .ok v)) ∧
    (∃ M, (⟨2, 1, [1, 2, 0, 0], 4⟩ : Matrix ℤ).CombineWith ⟨2, 2, [3, 4, 5, 6, 0, 0, 0, 0], 8⟩
        Matrix.Direction.RIGHT = .ok M ∧ M.uRow = 2 ∧ M.uCol = 1 + 2 ∧
      (∀ i j, 1 ≤ i → i ≤ 2 → 1 ≤ j → j ≤ 1 →
        ∃ v, (⟨2, 1, [1, 2, 0, 0], 4⟩ : Matrix ℤ).get i j = .ok v ∧
          M.get i j = .ok v) ∧
      (∀ i j, 1 ≤ i → i ≤ 2 → 1 ≤ j → j ≤ 2 →
        ∃ v, (⟨2, 2, [3, 4, 5, 6, 0, 0, 0, 0], 8⟩ : Matrix ℤ).get i j = .ok v ∧
          M.get i (1 + j) = .ok v)) :=
  CombineWith_left_right.1 ℤ ⟨2, 1, [1, 2, 0, 0], 4⟩ ⟨2, 2, [3, 4, 5, 6, 0, 0, 0, 0], 8⟩ 2 1 2
    ⟨rfl, rfl, by decide⟩ ⟨rfl, rfl, by decide⟩

/-- C16: for `self` of shape `Rs × Cs` and `other` of shape `Ro × Co`, `CombineWith(other,
TOPLEFT)` is the `(Rs + Ro) × (Cs + Co)` matrix with `other` in rows `1..Ro`, columns
`1..Co`, `self` in rows `Ro+1..Ro+Rs`, columns `Co+1..Co+Cs`, and zero elsewhere;
`CombineWith(other, BOTRIGHT)` is the same with `self` and `other` exchanged. -/
theorem CombineWith_topleft_botright (T : Type) [Zero T] (self other : Matrix T)
    (Rs Cs Ro Co : Nat) (hs : self.Frame Rs Cs) (ho : other.Frame Ro Co) :
    (∃ M, self.CombineWith other Matrix.Direction.TOPLEFT = .ok M ∧
      M.uRow = Rs + Ro ∧ M.uCol = Cs + Co ∧
      (∀ i j, 1 ≤ i → i ≤ Ro → 1 ≤ j → j ≤ Co →
        ∃ v, other.get i j = .ok v ∧ M.get i j = .ok v) ∧
      (∀ i j, 1 ≤ i → i ≤ Rs → 1 ≤ j → j ≤ Cs →
        ∃ v, self.get i j = .ok v ∧ M.get (Ro + i) (Co + j) = .ok v) ∧
      (∀ i j, 1 ≤ i → i ≤ Ro → Co < j → j ≤ Cs + Co → M.get i j = .ok 0) ∧
      (∀ i j, Ro < i → i ≤ Rs + Ro → 1 ≤ j → j ≤ Co → M.get i j = .ok 0)) ∧
    (∃ M, self.CombineWith other Matrix.Direction.BOTRIGHT = .ok M ∧
      M.uRow = Rs + Ro ∧ M.uCol = Cs + Co ∧
      (∀ i j, 1 ≤ i → i ≤ Rs → 1 ≤ j → j ≤ Cs →
        ∃ v, self.get i j = .ok v ∧ M.get i j = .ok v) ∧
      (∀ i j, 1 ≤ i → i ≤ Ro → 1 ≤ j → j ≤ Co →
        ∃ v, other.get i j = .ok v ∧ M.get (Rs + i) (Cs + j) = .ok v) ∧
      (∀ i j, 1 ≤ i → i ≤ Rs → Cs < j → j ≤ Cs + Co → M.get i j = .ok 0) ∧
      (∀ i j, Rs < i → i ≤ Rs + Ro → 1 ≤ j → j ≤ Cs → M.get i j = .ok 0)) := by
  have key : ∀ (X Y : Matrix T) (Rx Cx Ry Cy : Nat), X.Frame Rx Cx → Y.Frame Ry Cy →
      ∃ M, Matrix.combineCorner X Y 0 = .ok M ∧ M.uRow = Ry + Rx ∧ M.uCol = Cy + Cx ∧
        (∀ i j, 1 ≤ i → i ≤ Ry → 1 ≤ j → j ≤ Cy →
          ∃ v, Y.get i j = .ok v ∧ M.get i j = .ok v) ∧
        (∀ i j, 1 ≤ i → i ≤ Rx → 1 ≤ j → j ≤ Cx →
          ∃ v, X.get i j = .ok v ∧ M.get (Ry + i) (Cy + j) = .ok v) ∧
        (∀ i j, 1 ≤ i → i ≤ Ry → Cy < j → j ≤ Cy + Cx → M.get i j = .ok 0) ∧
        (∀ i j, Ry < i → i ≤ Ry + Rx → 1 ≤ j → j ≤ Cy → M.get i j = .ok 0) := by
    intro X Y Rx Cx Ry Cy hx hy
    obtain ⟨M, h1, hf, hv⟩ := combineCorner_spec X Y Rx Cx Ry Cy hx hy
    have hf' : M.Frame (Ry + Rx) (Cy + Cx) := by
      rw [Nat.add_comm Ry, Nat.add_comm Cy]; exact hf
    refine ⟨M, h1, hf'.1, hf'.2.1, ?_, ?_, ?_, ?_⟩
    · intro i j hi hi2 hj hj2
      apply get_pair Y M Ry Cy (Ry + Rx) (Cy + Cx) i j i j hy hf' hi hi2 hj hj2 hi (by omega) hj
        (by omega)
      rw [hv i j hi (by omega) hj (by omega), if_pos hi2, if_pos hj2]
    · intro i j hi hi2 hj hj2
      apply get_pair X M Rx Cx (Ry + Rx) (Cy + Cx) i j (Ry + i) (Cy + j) hx hf' hi hi2 hj hj2
        (by omega) (by omega) (by omega) (by omega)
      rw [hv (Ry + i) (Cy + j) (by omega) (by omega) (by omega) (by omega), if_neg (by omega),
        if_neg (by omega)]
      have e1 : Ry + i - Ry = i := by omega
      have e2 : Cy + j - Cy = j := by omega
      rw [e1, e2]
    · intro i j hi hi2 hj hj2
      rw [get_of_frame M (Ry + Rx) (Cy + Cx) i j hf' hi (by omega) (by omega) hj2,
        hv i j hi (by omega) (by omega) (by omega), if_pos hi2, if_neg (by omega)]
    · intro i j hi hi2 hj hj2
      rw [get_of_frame M (Ry + Rx) (Cy + Cx) i j hf' (by omega) hi2 hj (by omega),
        hv i j (by omega) (by omega) hj (by omega), if_neg (by omega), if_pos hj2]
  constructor
  · obtain ⟨M, h1, hr, hc, k1, k2, k3, k4⟩ := key self other Rs Cs Ro Co hs ho
    refine ⟨M, h1, by omega, by omega, k1, k2, ?_, ?_⟩
    · intro i j hi hi2 hj hj2
      exact k3 i j hi hi2 hj (by omega)
    · intro i j hi hi2 hj hj2
      exact k4 i j hi (by omega) hj hj2
  · obtain ⟨M, h1, hr, hc, k1, k2, k3, k4⟩ := key other self Ro Co Rs Cs ho hs
    exact ⟨M, h1, hr, hc, k1, k2, k3, k4⟩

/-- C16 for `self = [[1]]` and `other = [[2, 3]]`. -/
theorem CombineWith_topleft_botright_witness :
    (∃ M, (⟨1, 1, [1, 0], 2⟩ : Matrix ℤ).CombineWith ⟨1, 2, [2, 3, 0, 0], 4⟩
        Matrix.Direction.TOPLEFT = .ok M ∧ M.uRow = 1 + 1 ∧ M.uCol = 1 + 2 ∧
      (∀ i j, 1 ≤ i → i ≤ 1 → 1 ≤ j → j ≤ 2 →
        ∃ v, (⟨1, 2, [2, 3, 0, 0], 4⟩ : Matrix ℤ).get i j = .ok v ∧ M.get i j = .ok v) ∧
      (∀ i j, 1 ≤ i → i ≤ 1 → 1 ≤ j → j ≤ 1 →
        ∃ v, (⟨1, 1, [1, 0], 2⟩ : Matrix ℤ).get i j = .ok v ∧
          M.get (1 + i) (2 + j) = .ok v) ∧
      (∀ i j, 1 ≤ i → i ≤ 1 → 2 < j → j ≤ 1 + 2 → M.get i j = .ok 0) ∧
      (∀ i j, 1 < i → i ≤ 1 + 1 → 1 ≤ j → j ≤ 2 → M.get i j = .ok 0)) ∧
    (∃ M, (⟨1, 1, [1, 0], 2⟩ : Matrix ℤ).CombineWith ⟨1, 2, [2, 3, 0, 0], 4⟩
        Matrix.Direction.BOTRIGHT = .ok M ∧ M.uRow = 1 + 1 ∧ M.uCol = 1 + 2 ∧
      (∀ i j, 1 ≤ i → i ≤ 1 → 1 ≤ j → j ≤ 1 →
        ∃ v, (⟨1, 1, [1, 0], 2⟩ : Matrix ℤ).get i j = .ok v ∧ M.get i j = .ok v) ∧
      (∀ i j, 1 ≤ i → i ≤ 1 → 1 ≤ j → j ≤ 2 →
        ∃ v, (⟨1, 2, [2, 3, 0, 0], 4⟩ : Matrix ℤ).get i j = .ok v ∧
          M.get (1 + i) (1 + j) = .ok v) ∧
      (∀ i j, 1 ≤ i → i ≤ 1 → 1 < j → j ≤ 1 + 2 → M.get i j = .ok 0) ∧
      (∀ i j, 1 < i → i ≤ 1 + 1 → 1 ≤ j → j ≤ 1 → M.get i j = .ok 0)) :=
  CombineWith_topleft_botright ℤ ⟨1, 1, [1, 0], 2⟩ ⟨1, 2, [2, 3, 0, 0], 4⟩ 1 1 1 2
    ⟨rfl, rfl, by decide⟩ ⟨rfl, rfl, by decide⟩

/-- C17 (the code departs from the claim): for `self = [[1]]` and `other = [[2]]`,
`CombineWith(other, TOPRIGHT)` returns `[[0, 2], [0, 0]]`: the element of `self` is stored one
row too low, outside the live elements, and the bottom-left corner is left at zero.  In the
same way `CombineWith(other, BOTLEFT)` returns `[[0, 1], [0, 0]]`. -/
theorem CombineWith_topright_misplaces_rows :
    ∃ A B M N : Matrix ℚ, Matrix.ctorData 2 1 1 [1] 1 = .ok A ∧
      Matrix.ctorData 2 1 1 [2] 1 = .ok B ∧
      A.CombineWith B Matrix.Direction.TOPRIGHT = .ok M ∧
      M = ⟨2, 2, [0, 2, 0, 0, 1, 0, 0, 0], 8⟩ ∧ M.get 1 2 = .ok 2 ∧ M.get 2 1 = .ok 0 ∧
      A.CombineWith B Matrix.Direction.BOTLEFT = .ok N ∧
      N = ⟨2, 2, [0, 1, 0, 0, 2, 0, 0, 0], 8⟩ ∧ N.get 1 2 = .ok 1 ∧ N.get 2 1 = .ok 0 :=
  ⟨⟨1, 1, [1, 0], 2⟩, ⟨1, 1, [2, 0], 2⟩, ⟨2, 2, [0, 2, 0, 0, 1, 0, 0, 0], 8⟩,
    ⟨2, 2, [0, 1, 0, 0, 2, 0, 0, 0], 8⟩, rfl, rfl, rfl, rfl, rfl, rfl, rfl, rfl, rfl, rfl⟩

/-- C18 (the code departs from the claim): on the `1 × 3` matrix `[[1, 2, 3]]`,
`ColumnSplit(1, RIGHT)` returns `[[1, 0, 0]]` instead of the whole row, since only `index`
elements of each row are copied, and `ColumnSplit(3, RIGHT)` copies three elements into a
result that has room for two. -/
theorem ColumnSplit_right_copies_index_elements :
    ∃ A : Matrix ℚ, Matrix.ctorData 2 1 3 [1, 2, 3] 3 = .ok A ∧
      A.ColumnSplit 1 Matrix.Direction.RIGHT = .ok ⟨1, 3, [1, 0, 0, 0, 0, 0], 6⟩ ∧
      A.ColumnSplit 3 Matrix.Direction.RIGHT = .error Err.OutOfBuffer :=
  ⟨⟨1, 3, [1, 2, 3, 0, 0, 0], 6⟩, rfl, rfl, rfl⟩

/-- C20: for every `R × C` matrix `A`, `Transpose()` returns the `C × R` matrix whose entry
`(i, j)` is `A(j, i)`, and the transpose of the transpose has the shape and the elements
of `A`. -/
theorem Transpose_involutive (T : Type) [Zero T] (A : Matrix T) (R C : Nat)
    (hA : A.Frame R C) :
    ∃ At Att : Matrix T, A.Transpose = .ok At ∧ At.uRow = C ∧ At.uCol = R ∧
      (∀ i j, 1 ≤ i → i ≤ C → 1 ≤ j → j ≤ R →
        ∃ v, A.get j i = .ok v ∧ At.get i j = .ok v) ∧
      At.Transpose = .ok Att ∧ Att.SameAs A := by
  obtain ⟨At, h1, hf, hv⟩ := Transpose_spec A R C hA
  obtain ⟨Att, h2, hf2, hv2⟩ := Transpose_spec At C R hf
  refine ⟨At, Att, h1, hf.1, hf.2.1, ?_, h2, ?_⟩
  · intro i j hi hi2 hj hj2
    exact get_pair A At R C C R j i i j hA hf hj hj2 hi hi2 hi hi2 hj hj2 (hv i j hi hi2 hj hj2)
  · apply sameAs_of_at1 Att A R C hf2 hA
    intro a b ha ha2 hb hb2
    rw [hv2 a b ha ha2 hb hb2, hv b a hb hb2 ha ha2]

/-- C20 on the `2 × 3` matrix `[[1, 2, 3], [4, 5, 6]]`. -/
theorem Transpose_involutive_witness :
    ∃ At Att : Matrix ℤ,
      (⟨2, 3, [1, 2, 3, 4, 5, 6, 0, 0, 0, 0, 0, 0], 12⟩ : Matrix ℤ).Transpose = .ok At ∧
      At.uRow = 3 ∧ At.uCol = 2 ∧
      (∀ i j, 1 ≤ i → i ≤ 3 → 1 ≤ j → j ≤ 2 →
        ∃ v, (⟨2, 3, [1, 2, 3, 4, 5, 6, 0, 0, 0, 0, 0, 0], 12⟩ : Matrix ℤ).get j i = .ok v ∧
          At.get i j = .ok v) ∧
      At.Transpose = .ok Att ∧
      Att.SameAs ⟨2, 3, [1, 2, 3, 4, 5, 6, 0, 0, 0, 0, 0, 0], 12⟩ :=
  Transpose_involutive ℤ ⟨2, 3, [1, 2, 3, 4, 5, 6, 0, 0, 0, 0, 0, 0], 12⟩ 2 3
    ⟨rfl, rfl, by decide⟩

/-! ## Arithmetic, powers, and the reduction of square matrices -/

section AlgebraLemmas

variable {T : Type}

/-- A loop that combines the first `n` elements of two buffers into `dst`. -/
theorem zip_loop [Zero T] (op : T → T → T) (s1 s2 : List T) (n : Nat) (dst : List T)
    (h1 : n ≤ s1.length) (h2 : n ≤ s2.length) (hd : n ≤ dst.length) :
    ∃ buf, forUp (fun i b => load s1 i >>= fun x => load s2 i >>= fun y =>
        store b i (op x y)) 0 n dst = .ok buf ∧
      buf.length = dst.length ∧
      ∀ idx, val buf idx = if idx < n then op (val s1 idx) (val s2 idx) else val dst idx := by
  have h := forUp_inv (fun i b => load s1 i >>= fun x => load s2 i >>= fun y =>
        store b i (op x y))
    (fun i (b : List T) => b.length = dst.length ∧
      ∀ idx, val b idx = if idx < i then op (val s1 idx) (val s2 idx) else val dst idx)
    n 0 dst ⟨rfl, fun idx => by rw [if_neg (by omega)]⟩
    (by
      intro i b _ hi ⟨hl, hv⟩
      refine ⟨b.set i (op (val s1 i) (val s2 i)), ?_, by simpa using hl, ?_⟩
      · dsimp only
        rw [load_of_lt s1 i (by omega), ok_bind, load_of_lt s2 i (by omega), ok_bind,
          store_of_lt b i _ (by omega)]
      · intro idx
        rw [val_set]
        by_cases c : idx = i
        · subst c
          rw [if_pos ⟨rfl, by omega⟩, if_pos (by omega)]
        · rw [if_neg (fun hh => c hh.1), hv idx]
          by_cases c2 : idx < i
          · rw [if_pos c2, if_pos (by omega)]
          · rw [if_neg c2, if_neg (by omega)])
  obtain ⟨buf, hb, hl, hv⟩ := h
  refine ⟨buf, hb, hl, fun idx => ?_⟩
  rw [hv idx]
  simp only [Nat.zero_add]

theorem usub_eq_zero (a b : Nat) (hb : b < 2 ^ 64) : Matrix.usub a b = 0 ↔ a = b := by
  unfold Matrix.usub
  split <;> omega

/-- `Varify_Homo` tells whether the two shapes are equal. -/
theorem Varify_Homo_iff (m1 m2 : Matrix T) (hr : m2.uRow < 2 ^ 64) (hc : m2.uCol < 2 ^ 64) :
    Matrix.Varify_Homo m1 m2 = true ↔ m1.uRow = m2.uRow ∧ m1.uCol = m2.uCol := by
  unfold Matrix.Varify_Homo
  have e1 := usub_eq_zero m1.uRow m2.uRow hr
  have e2 := usub_eq_zero m1.uCol m2.uCol hc
  by_cases c : Matrix.usub m1.uRow m2.uRow ≠ 0 ∨ Matrix.usub m1.uCol m2.uCol ≠ 0
  · rw [if_pos c]
    constructor
    · intro h; cases h
    · intro ⟨h1, h2⟩
      rcases c with c | c
      · exact absurd (e1.2 h1) c
      · exact absurd (e2.2 h2) c
  · rw [if_neg c]
    constructor
    · intro _
      constructor
      · apply e1.1
        by_contra hh
        exact c (Or.inl hh)
      · apply e2.1
        by_contra hh
        exact c (Or.inr hh)
    · intro _; rfl

theorem Varify_Homo_same (m1 m2 : Matrix T) (hr : m1.uRow = m2.uRow) (hc : m1.uCol = m2.uCol) :
    Matrix.Varify_Homo m1 m2 = true := by
  unfold Matrix.Varify_Homo Matrix.usub
  rw [hr, hc]
  simp

/-- The sum of two matrices of the same shape, element by element. -/
theorem add_spec [Zero T] [Add T] (A B : Matrix T) (R C : Nat) (hA : A.Frame R C)
    (hB : B.Frame R C) :
    ∃ S, A.add B = .ok S ∧ S.Frame R C ∧
      ∀ i j, 1 ≤ i → i ≤ R → 1 ≤ j → j ≤ C → S.at1 i j = A.at1 i j + B.at1 i j := by
  have hfc := frame_ctor (T := T) Matrix.defaultIncrement R C
  obtain ⟨buf, hb, hl, hv⟩ := zip_loop (fun x y => x + y) A.pData B.pData (R * C)
    (Matrix.ctor Matrix.defaultIncrement R C : Matrix T).pData hA.2.2 hB.2.2 hfc.2.2
  refine ⟨{ (Matrix.ctor Matrix.defaultIncrement R C : Matrix T) with pData := buf }, ?_,
    ⟨rfl, rfl, by show R * C ≤ buf.length; rw [hl]; exact hfc.2.2⟩, ?_⟩
  · unfold Matrix.add
    rw [Varify_Homo_same A B (by rw [hA.1, hB.1]) (by rw [hA.2.1, hB.2.1])]
    simp only [if_true, hA.1, hA.2.1]
    rw [hb, ok_bind]
  · intro i j hi hi2 hj hj2
    show val buf ((i - 1) * C + (j - 1)) = _
    rw [hv, if_pos (offset_lt hi hi2 hj hj2)]
    unfold Matrix.at1
    rw [hA.2.1, hB.2.1]

/-- The difference of two matrices of the same shape, element by element. -/
theorem sub_spec [Zero T] [Sub T] (A B : Matrix T) (R C : Nat) (hA : A.Frame R C)
    (hB : B.Frame R C) :
    ∃ S, A.sub B = .ok S ∧ S.Frame R C ∧
      ∀ i j, 1 ≤ i → i ≤ R → 1 ≤ j → j ≤ C → S.at1 i j = A.at1 i j - B.at1 i j := by
  have hfc := frame_ctor (T := T) Matrix.defaultIncrement R C
  obtain ⟨buf, hb, hl, hv⟩ := zip_loop (fun x y => x - y) A.pData B.pData (R * C)
    (Matrix.ctor Matrix.defaultIncrement R C : Matrix T).pData hA.2.2 hB.2.2 hfc.2.2
  refine ⟨{ (Matrix.ctor Matrix.defaultIncrement R C : Matrix T) with pData := buf }, ?_,
    ⟨rfl, rfl, by show R * C ≤ buf.length; rw [hl]; exact hfc.2.2⟩, ?_⟩
  · unfold Matrix.sub
    rw [Varify_Homo_same A B (by rw [hA.1, hB.1]) (by rw [hA.2.1, hB.2.1])]
    simp only [if_true, hA.1, hA.2.1]
    rw [hb, ok_bind]
  · intro i j hi hi2 hj hj2
    show val buf ((i - 1) * C + (j - 1)) = _
    rw [hv, if_pos (offset_lt hi hi2 hj hj2)]
    unfold Matrix.at1
    rw [hA.2.1, hB.2.1]

/-- The live matrix of a matrix with `1` on the diagonal and `0` elsewhere is the unit
matrix. -/
theorem toMat_eq_one [Zero T] [One T] (I : Matrix T) (R : Nat)
    (h : ∀ a b, 1 ≤ a → a ≤ R → 1 ≤ b → b ≤ R → I.at1 a b = if a = b then 1 else 0) :
    I.toMat R R = 1 := by
  ext a b
  have ha := a.isLt
  have hb := b.isLt
  simp only [Matrix.toMat]
  rw [h _ _ (by omega) (by omega) (by omega) (by omega), Matrix.one_apply]
  by_cases c : a = b
  · rw [if_pos c, if_pos (by rw [c])]
  · have c' : ¬ (a.val + 1 = b.val + 1) := fun h => c (Fin.ext (by omega))
    rw [if_neg c, if_neg c']

/-- The partial sums of the product loop as a sum over `k = 1..K`. -/
theorem dotUpTo_Icc [Semiring T] (A B : Matrix T) (i j K : Nat) :
    dotUpTo A B i j K = ∑ k in Finset.Icc 1 K, A.at1 i k * B.at1 k j := by
  unfold dotUpTo
  induction K with
  | zero => simp
  | succ n ih =>
    rw [Finset.sum_range_succ, ih]
    have e : Finset.Icc 1 (n + 1) = insert (n + 1) (Finset.Icc 1 n) := by
      ext x
      simp only [Finset.mem_Icc, Finset.mem_insert]
      omega
    rw [e, Finset.sum_insert (by simp), add_comm]

/-- The loop of `Power` that writes the diagonal. -/
theorem power_start [Zero T] [One T] (R : Nat) :
    ∃ r0 : Matrix T, forUp (fun i (r : Matrix T) => r.set i i 1) 1 R
        (Matrix.ctor Matrix.defaultIncrement R R) = .ok r0 ∧ r0.Frame R R ∧
      ∀ a b, 1 ≤ a → a ≤ R → 1 ≤ b → b ≤ R → r0.at1 a b = if a = b then 1 else 0 := by
  obtain ⟨E, h1, hf, _, hv⟩ := diag_loop (Matrix.ctor Matrix.defaultIncrement R R : Matrix T) R
    (frame_ctor _ _ _)
  refine ⟨E, h1, hf, fun a b ha ha2 hb hb2 => ?_⟩
  rw [hv a b ha ha2 hb hb2, at1_ctor]

/-- `Power(n)` completes on a square matrix; the result is square. -/
theorem Power_ok [Semiring T] (A : Matrix T) (R : Nat) (hA : A.Frame R R) :
    ∀ n, ∃ P, A.Power n = .ok P ∧ P.Frame R R := by
  obtain ⟨r0, h0, hf0, _⟩ := power_start (T := T) R
  intro n
  induction n with
  | zero =>
    refine ⟨r0, ?_, hf0⟩
    unfold Matrix.Power
    rw [if_pos (by rw [hA.1, hA.2.1])]
    simp only [hA.1, hA.2.1]
    rw [h0, ok_bind, forUp_zero]
  | succ n ih =>
    obtain ⟨P, hP, hfP⟩ := ih
    obtain ⟨Q, hQ, hfQ, _, _⟩ := mul_spec P A R R R hfP hA
    refine ⟨Q, ?_, hfQ⟩
    unfold Matrix.Power at hP ⊢
    rw [if_pos (by rw [hA.1, hA.2.1])] at hP ⊢
    simp only [hA.1, hA.2.1] at hP ⊢
    rw [h0, ok_bind] at hP ⊢
    rw [forUp_add _ n 1 0 r0, hP, ok_bind, forUp_succ, hQ, ok_bind, forUp_zero]

/-- `Power(n + 1)` is `Power(n)` followed by one product with the matrix. -/
theorem Power_succ [Zero T] [One T] [Add T] [Mul T] (A : Matrix T) (n : Nat) :
    A.Power (n + 1) = A.Power n >>= fun P => P.mul A := by
  unfold Matrix.Power
  by_cases c : A.uRow = A.uCol
  · rw [if_pos c, if_pos c]
    cases h0 : forUp (fun i (r : Matrix T) => r.set i i 1) 1 A.uRow
        (Matrix.ctor Matrix.defaultIncrement A.uRow A.uCol) with
    | error e => rfl
    | ok r0 =>
      simp only [ok_bind]
      rw [forUp_add _ n 1 0 r0]
      cases h1 : forUp (fun _ (r : Matrix T) => r.mul A) 0 n r0 with
      | error e => rfl
      | ok P =>
        simp only [ok_bind]
        rw [forUp_succ]
        cases P.mul A <;> rfl
  · rw [if_neg c, if_neg c]
    rfl

/-- A square matrix whose rows from `i` on are zero in the columns up to `i` is singular. -/
theorem det_eq_zero_of_zero_corner [CommRing T] {R : Nat} (M : MathMatrix (Fin R) (Fin R) T)
    (i : Fin R) (h : ∀ a c : Fin R, i ≤ a → c ≤ i → M a c = 0) : Matrix.det M = 0 := by
  let b : Fin R → Nat := fun x => if x < i then 0 else if x = i then 1 else 2
  have hb1 : ∀ x, b x = 1 → x = i := by
    intro x hx
    simp only [b] at hx
    by_cases c1 : x < i
    · rw [if_pos c1] at hx; omega
    · rw [if_neg c1] at hx
      by_cases c2 : x = i
      · exact c2
      · rw [if_neg c2] at hx; omega
  have hbi : b i = 1 := by
    show (if i < i then 0 else if i = i then 1 else 2) = 1
    rw [if_neg (lt_irrefl i), if_pos rfl]
  have htri : Matrix.BlockTriangular M b := by
    intro a c hlt
    simp only [b] at hlt
    by_cases a1 : a < i
    · rw [if_pos a1] at hlt; omega
    · have hia : i ≤ a := not_lt.1 a1
      apply h a c hia
      by_cases c1 : c < i
      · exact le_of_lt c1
      · rw [if_neg c1, if_neg a1] at hlt
        by_cases c2 : c = i
        · exact le_of_eq c2
        · rw [if_neg c2] at hlt
          by_cases a2 : a = i
          · rw [if_pos a2] at hlt; omega
          · rw [if_neg a2] at hlt; omega
  rw [htri.det]
  apply Finset.prod_eq_zero (i := 1)
  · exact Finset.mem_image.2 ⟨i, Finset.mem_univ _, hbi⟩
  · apply Matrix.det_eq_zero_of_row_eq_zero (⟨i, hbi⟩ : { a // b a = 1 })
    intro j
    have hj : j.val = i := hb1 j.val j.property
    show M i j.val = 0
    rw [hj]
    exact h i i (le_refl i) (le_refl i)

/-- Row equivalent square matrices are singular together. -/
theorem rowEquiv_det [CommRing T] [IsDomain T] {R : Nat} (M M' : MathMatrix (Fin R) (Fin R) T)
    (h : RowEquiv M M') : Matrix.det M' ≠ 0 ↔ Matrix.det M ≠ 0 := by
  obtain ⟨P, hP, rfl⟩ := h
  rw [Matrix.det_mul]
  constructor
  · intro h1 h2
    exact h1 (by rw [h2, mul_zero])
  · intro h1
    exact mul_ne_zero hP.ne_zero h1

/-- In the forward pass on a square matrix with nonzero determinant, the pivot search of
every column `i` stops at a row `p` in `i..R` that holds a nonzero element. -/
theorem forward_pivot [Field T] [DecidableEq T] (m : Matrix T) (R i : Nat)
    (hf : m.Frame R R) (hdet : Matrix.det (m.toMat R R) ≠ 0) (hi : 1 ≤ i) (hi2 : i ≤ R) :
    ∃ mi p, forUp Matrix.forwardStep 1 (i - 1) m = .ok mi ∧
      mi.pivotSearch i (mi.uRow + 1) i = .ok p ∧ i ≤ p ∧ p ≤ R ∧
      ∃ v, mi.get p i = .ok v ∧ v ≠ 0 := by
  obtain ⟨mi, h1, hfi, _, heq, hech⟩ := forward_pass m R R (i - 1) hf (by omega) (by omega)
  obtain ⟨p, hp1, hp2, hp3, hp4, hp5⟩ := pivotSearch_spec mi R R i hfi hi hi2 (R + 1) i hi
    (by omega) (by omega)
  have hdi : Matrix.det (mi.toMat R R) ≠ 0 := (rowEquiv_det _ _ heq).2 hdet
  have hpR : p ≤ R := by
    by_contra hc
    have hp : p = R + 1 := by omega
    subst hp
    apply hdi
    apply det_eq_zero_of_zero_corner (mi.toMat R R) ⟨i - 1, by omega⟩
    intro a c hia hci
    have ha := a.isLt
    have hia' : i - 1 ≤ a.val := hia
    have hci' : c.val ≤ i - 1 := hci
    show mi.at1 (a.val + 1) (c.val + 1) = 0
    by_cases cc : c.val + 1 = i
    · rw [cc]
      exact hp4 (a.val + 1) (by omega) (by omega)
    · exact (hech (c.val + 1) (by omega) (by omega)).1 (a.val + 1) (by omega) (by omega)
  refine ⟨mi, p, h1, ?_, hp2, hpR, mi.at1 p i, ?_, hp5 hpR⟩
  · rw [hfi.1]; exact hp1
  · exact get_of_frame mi R R p i hfi (by omega) hpR hi hi2

/-- `RowReduce` maps a square matrix with nonzero determinant to the unit matrix. -/
theorem RowReduce_invertible [Field T] [DecidableEq T] (A : Matrix T) (R : Nat)
    (hf : A.Frame R R) (hdet : Matrix.det (A.toMat R R) ≠ 0) :
    ∃ B, A.RowReduce = .ok B ∧ B.Frame R R ∧
      ∀ a b, 1 ≤ a → a ≤ R → 1 ≤ b → b ≤ R → B.at1 a b = if a = b then 1 else 0 := by
  obtain ⟨B, h1, hfB, _, heq, hred⟩ := RowReduce_spec A R R hf (Nat.le_refl _)
  have hdB : Matrix.det (B.toMat R R) ≠ 0 := (rowEquiv_det _ _ heq).2 hdet
  have hone := (reduced_eq_one B.at1 R hred hdB).2
  refine ⟨B, h1, hfB, fun a b ha ha2 hb hb2 => ?_⟩
  have := congrFun (congrFun hone ⟨a - 1, by omega⟩) ⟨b - 1, by omega⟩
  simp only [Matrix.one_apply, Fin.mk.injEq] at this
  have ea : a - 1 + 1 = a := by omega
  have eb : b - 1 + 1 = b := by omega
  rw [ea, eb] at this
  rw [this]
  by_cases c : a = b
  · rw [if_pos c, if_pos (by omega)]
  · rw [if_neg c, if_neg (by omega)]

/-- The scan of a row that is zero from column `j + 1` on runs to the end of the row. -/
theorem rankScan_zero [Zero T] [DecidableEq T] (m : Matrix T) (R C i : Nat)
    (hf : m.Frame R C) (hi : 1 ≤ i) (hi2 : i ≤ R) :
    ∀ (fuel j : Nat), j ≤ C → C ≤ j + fuel →
      (∀ j', j ≤ j' → j' < C → m.at1 i (j' + 1) = 0) →
      m.rankScan ((i - 1) * C) fuel j = .ok C := by
  intro fuel
  induction fuel with
  | zero =>
    intro j h1 h2 _
    have : j = C := by omega
    subst this
    unfold Matrix.rankScan
    rw [hf.2.1, if_neg (by omega)]
  | succ f ih =>
    intro j h1 h2 hz
    unfold Matrix.rankScan
    rw [hf.2.1]
    by_cases c : j < C
    · rw [if_pos c, load_row m R C i j hf hi hi2 c, ok_bind,
        if_neg (not_not.2 (hz j (Nat.le_refl _) c))]
      exact ih (j + 1) (by omega) (by omega) (fun j' h3 h4 => hz j' (by omega) h4)
    · have : j = C := by omega
      subst this
      rw [if_neg c]

/-- `RankOfReducedMatrix` stops before a row that is zero from the diagonal on. -/
theorem RankOfReducedMatrix_stops [Zero T] [DecidableEq T] (m : Matrix T) (R C i0 : Nat)
    (hf : m.Frame R C) (h1 : 1 ≤ i0) (h2 : i0 ≤ R) (h3 : i0 ≤ C)
    (hz : ∀ j, i0 ≤ j → j ≤ C → m.at1 i0 j = 0) :
    ∃ k, m.RankOfReducedMatrix = .ok k ∧ k < i0 := by
  have hloop : ∀ (fuel i : Nat), 1 ≤ i → i ≤ i0 → R + 1 ≤ i + fuel →
      ∃ i', m.rankLoop fuel i = .ok i' ∧ 1 ≤ i' ∧ i' ≤ i0 := by
    intro fuel
    induction fuel with
    | zero => intro i _ _ _; omega
    | succ f ih =>
      intro i hi hi2 hfu
      unfold Matrix.rankLoop
      rw [hf.1, if_pos (by omega)]
      have e1 : m.ElementAt i 1 = (i - 1) * C := by
        unfold Matrix.ElementAt; rw [hf.2.1]; rfl
      rw [e1, hf.2.1]
      by_cases c : i = i0
      · subst c
        rw [rankScan_zero m R C i hf hi h2 (C + 1) (i - 1) (by omega) (by omega)
          (fun j' h4 h5 => hz (j' + 1) (by omega) (by omega)), ok_bind, if_pos rfl]
        exact ⟨i, rfl, hi, Nat.le_refl _⟩
      · obtain ⟨j', hj'⟩ := rankScan_ok m R C i hf hi (by omega) (C + 1) (i - 1) (by omega)
        rw [hj', ok_bind]
        by_cases c2 : j' = C
        · rw [if_pos c2]; exact ⟨i, rfl, hi, hi2⟩
        · rw [if_neg c2]
          exact ih (i + 1) (by omega) (by omega) (by omega)
  obtain ⟨i', h, h4, h5⟩ := hloop (R + 1) 1 (Nat.le_refl _) h1 (by omega)
  unfold Matrix.RankOfReducedMatrix
  rw [hf.1, h]
  exact ⟨i' - 1, rfl, by omega⟩

/-- A matrix of the reduced shape in which every row has a nonzero element at or after the
diagonal has `1` everywhere on the diagonal. -/
theorem reduced_full_diag [Field T] (f : Nat → Nat → T) (R : Nat) (hr : Reduced f R)
    (h : ∀ i, 1 ≤ i → i ≤ R → ∃ j, i ≤ j ∧ j ≤ R ∧ f i j ≠ 0) :
    ∀ c, 1 ≤ c → c ≤ R → f c c = 1 := by
  have key : ∀ k c, 1 ≤ c → c ≤ R → R ≤ c + k → f c c = 1 := by
    intro k
    induction k with
    | zero =>
      intro c hc hc2 hk
      obtain ⟨j, hj1, hj2, hj3⟩ := h c hc hc2
      have : j = c := by omega
      subst this
      rcases (hr j hc hc2).2 with h1 | h1
      · exact h1.1
      · exact absurd h1 hj3
    | succ k ih =>
      intro c hc hc2 hk
      obtain ⟨j, hj1, hj2, hj3⟩ := h c hc hc2
      by_cases cj : j = c
      · subst cj
        rcases (hr j hc hc2).2 with h1 | h1
        · exact h1.1
        · exact absurd h1 hj3
      · have hjj : f j j = 1 := ih j (by omega) hj2 (by omega)
        rcases (hr j (by omega) hj2).2 with h1 | h1
        · exact absurd (h1.2 c hc (by omega)) hj3
        · rw [hjj] at h1
          exact absurd h1 one_ne_zero
  intro c hc hc2
  exact key R c hc hc2 (by omega)

/-- A square matrix of the reduced shape with `1` everywhere on the diagonal has
determinant `1`. -/
theorem reduced_det_one [Field T] (f : Nat → Nat → T) (R : Nat) (hr : Reduced f R)
    (hd : ∀ c, 1 ≤ c → c ≤ R → f c c = 1) :
    Matrix.det (fun (a b : Fin R) => f (a.val + 1) (b.val + 1)) = 1 := by
  have htri : Matrix.BlockTriangular (fun (a b : Fin R) => f (a.val + 1) (b.val + 1)) id := by
    intro i j hij
    have hi := i.isLt
    have hlt : j.val < i.val := hij
    exact (hr (j.val + 1) (by omega) (by omega)).1 (i.val + 1) (by omega) (by omega)
  rw [Matrix.det_of_upperTriangular htri]
  apply Finset.prod_eq_one
  intro i _
  have hi := i.isLt
  exact hd (i.val + 1) (by omega) (by omega)

/-- On a square matrix of size at least 1, `Rank()` counts all the rows exactly when the
determinant is not zero. -/
theorem Rank_full_iff [Field T] [DecidableEq T] (A : Matrix T) (N : Nat)
    (hA : A.Frame N N) :
    ∃ k, A.Rank = .ok k ∧ (k = N ↔ Matrix.det (A.toMat N N) ≠ 0) := by
  obtain ⟨B, h1, hfB, _, heq, hred⟩ := RowReduce_spec A N N hA (Nat.le_refl _)
  have hdet := rowEquiv_det _ _ heq
  by_cases hd : Matrix.det (A.toMat N N) ≠ 0
  · have hdB : Matrix.det (B.toMat N N) ≠ 0 := hdet.2 hd
    have hone := (reduced_eq_one B.at1 N hred hdB).1
    have hfull := RankOfReducedMatrix_full B N N hfB (Nat.le_refl _)
      (fun c hc hc2 => by rw [hone c hc hc2]; exact one_ne_zero)
    refine ⟨N, ?_, ⟨fun _ => hd, fun _ => rfl⟩⟩
    unfold Matrix.Rank
    rw [h1, ok_bind, hfull]
  · by_cases hrows : ∀ i, 1 ≤ i → i ≤ N → ∃ j, i ≤ j ∧ j ≤ N ∧ B.at1 i j ≠ 0
    · exfalso
      apply hd
      apply hdet.1
      have hdiag := reduced_full_diag B.at1 N hred hrows
      have := reduced_det_one B.at1 N hred hdiag
      show Matrix.det (fun (a b : Fin N) => B.at1 (a.val + 1) (b.val + 1)) ≠ 0
      rw [this]
      exact one_ne_zero
    · push_neg at hrows
      obtain ⟨i0, hi1, hi2, hz⟩ := hrows
      obtain ⟨k, hk, hlt⟩ := RankOfReducedMatrix_stops B N N i0 hfB hi1 hi2 hi2 hz
      refine ⟨k, ?_, ⟨fun e => by omega, fun h => absurd h hd⟩⟩
      unfold Matrix.Rank
      rw [h1, ok_bind, hk]

/-- `Power(0)` is the square matrix with `1` on the diagonal and `0` elsewhere. -/
theorem Power_zero [Zero T] [One T] [Add T] [Mul T] (A : Matrix T) (R : Nat)
    (hA : A.Frame R R) :
    ∃ P0, A.Power 0 = .ok P0 ∧ P0.Frame R R ∧
      ∀ a b, 1 ≤ a → a ≤ R → 1 ≤ b → b ≤ R → P0.at1 a b = if a = b then 1 else 0 := by
  obtain ⟨r0, h0, hf0, hv⟩ := power_start (T := T) R
  refine ⟨r0, ?_, hf0, hv⟩
  unfold Matrix.Power
  rw [if_pos (by rw [hA.1, hA.2.1])]
  simp only [hA.1, hA.2.1]
  rw [h0, ok_bind, forUp_zero]

/-- When there are more rows than columns, the forward pass of `RowReduce` handles the
columns `1..C` and fails on the access `ElemAt(C + 1, C + 1)` of the next pivot search. -/
theorem RowReduce_tall_access [Field T] [DecidableEq T] (A : Matrix T) (R C : Nat)
    (hf : A.Frame R C) (hRC : C < R) :
    ∃ r rC, Matrix.ctorCopy Matrix.defaultIncrement A = .ok r ∧
      forUp Matrix.forwardStep 1 C r = .ok rC ∧
      rC.ElemAt (C + 1) (C + 1) = .error Err.IndexOutOfRange ∧
      Matrix.forwardStep (C + 1) rC = .error Err.IndexOutOfRange := by
  obtain ⟨buf, hc1, hc2, _⟩ := ctorCopy_spec Matrix.defaultIncrement A R C hf
  have hf0 := frame_of_copy (T := T) Matrix.defaultIncrement R C buf hc2
  obtain ⟨m1, h1, hf1, _, _, _⟩ := forward_pass _ R C C hf0 (by omega) (Nat.le_refl _)
  have hacc : m1.ElemAt (C + 1) (C + 1) = .error Err.IndexOutOfRange := by
    unfold Matrix.ElemAt
    rw [if_neg (by rw [hf1.2.1]; omega)]
  refine ⟨_, m1, hc1, h1, hacc, ?_⟩
  unfold Matrix.forwardStep Matrix.pivotSearch
  rw [if_pos (by rw [hf1.1]; omega)]
  unfold Matrix.get
  rw [hacc]
  rfl

/-- `Invertible()` on a square matrix: the answer is whether `Rank()` counts all the rows. -/
theorem Invertible_of_rank [Field T] [DecidableEq T] (A : Matrix T) (k : Nat)
    (hsq : A.uRow = A.uCol) (hk : A.Rank = .ok k) :
    A.Invertible = .ok (decide (k = A.uRow)) := by
  unfold Matrix.Invertible
  rw [if_neg (by simp [hsq]), hk, ok_bind]
  by_cases c : k = A.uRow
  · rw [if_neg (by simp [c])]
    simp [c]
  · rw [if_pos c]
    simp [c]

end AlgebraLemmas

/-! ## Claims on arithmetic, element access, growth, and the reduction of square matrices -/

/-- C21: for matrices `A` and `B` of the same shape over a ring, `(A + B) - B` has the shape
and the elements of `A`; `operator+` and `operator-` fail with a dimension mismatch exactly
when `Varify_Homo(A, B)` is false, which is when the shapes differ. -/
theorem add_then_sub_and_shape_check :
    (∀ (T : Type) [Ring T] (A B : Matrix T) (R C : Nat), A.Frame R C → B.Frame R C →
      ∃ S D, A.add B = .ok S ∧ S.sub B = .ok D ∧ D.SameAs A) ∧
    (∀ (T : Type) [Ring T] (A B : Matrix T) (Ra Ca Rb Cb : Nat),
      A.Frame Ra Ca → B.Frame Rb Cb → Rb < 2 ^ 64 → Cb < 2 ^ 64 →
      (Matrix.Varify_Homo A B = false ↔ ¬ (Ra = Rb ∧ Ca = Cb)) ∧
      (A.add B = .error Err.DimensionMismatch ↔ Matrix.Varify_Homo A B = false) ∧
      (A.sub B = .error Err.DimensionMismatch ↔ Matrix.Varify_Homo A B = false)) := by
  refine ⟨?_, ?_⟩
  · intro T _ A B R C hA hB
    obtain ⟨S, h1, hfS, hvS⟩ := add_spec A B R C hA hB
    obtain ⟨D, h2, hfD, hvD⟩ := sub_spec S B R C hfS hB
    refine ⟨S, D, h1, h2, sameAs_of_at1 D A R C hfD hA ?_⟩
    intro a b ha ha2 hb hb2
    rw [hvD a b ha ha2 hb hb2, hvS a b ha ha2 hb hb2]
    exact add_sub_cancel_right _ _
  · intro T _ A B Ra Ca Rb Cb hA hB hRb hCb
    have hiff := Varify_Homo_iff A B (by rw [hB.1]; exact hRb) (by rw [hB.2.1]; exact hCb)
    rw [hA.1, hA.2.1, hB.1, hB.2.1] at hiff
    have hshape : Matrix.Varify_Homo A B = false ↔ ¬ (Ra = Rb ∧ Ca = Cb) := by
      rw [← hiff]
      cases Matrix.Varify_Homo A B <;> simp
    refine ⟨hshape, ?_, ?_⟩
    · constructor
      · intro herr
        by_contra hne
        have hsame : Ra = Rb ∧ Ca = Cb := by
          by_contra hh
          exact hne (hshape.2 hh)
        obtain ⟨S, h1, _, _⟩ := add_spec A B Ra Ca hA (by rw [hsame.1, hsame.2]; exact hB)
        rw [h1] at herr
        cases herr
      · intro hfalse
        unfold Matrix.add
        rw [hfalse]
        rfl
    · constructor
      · intro herr
        by_contra hne
        have hsame : Ra = Rb ∧ Ca = Cb := by
          by_contra hh
          exact hne (hshape.2 hh)
        obtain ⟨S, h1, _, _⟩ := sub_spec A B Ra Ca hA (by rw [hsame.1, hsame.2]; exact hB)
        rw [h1] at herr
        cases herr
      · intro hfalse
        unfold Matrix.sub
        rw [hfalse]
        rfl

/-- The first part of C21 for `A = [[1, 2]]` and `B = [[3, 4]]`. -/
theorem add_then_sub_and_shape_check_witness :
    ∃ S D, (⟨1, 2, [1, 2, 0, 0], 4⟩ : Matrix ℤ).add ⟨1, 2, [3, 4, 0, 0], 4⟩ = .ok S ∧
      S.sub ⟨1, 2, [3, 4, 0, 0], 4⟩ = .ok D ∧ D.SameAs ⟨1, 2, [1, 2, 0, 0], 4⟩ :=
  add_then_sub_and_shape_check.1 ℤ ⟨1, 2, [1, 2, 0, 0], 4⟩ ⟨1, 2, [3, 4, 0, 0], 4⟩ 1 2
    ⟨rfl, rfl, by decide⟩ ⟨rfl, rfl, by decide⟩

/-- C22: `Identity(n)` is the `n × n` matrix with `1` on the diagonal and `0` elsewhere, and
for every `R × C` matrix `A` over a semiring both `A × Identity(C)` and `Identity(R) × A` have
the shape and the elements of `A`. -/
theorem Identity_is_neutral_for_mul (T : Type) [Semiring T] (A : Matrix T) (R C : Nat)
    (hA : A.Frame R C) :
    ∃ Ic Ir P Q : Matrix T, Matrix.Identity C = .ok Ic ∧ Matrix.Identity R = .ok Ir ∧
      Ic.uRow = C ∧ Ic.uCol = C ∧ Ir.uRow = R ∧ Ir.uCol = R ∧
      (∀ i j, 1 ≤ i → i ≤ C → 1 ≤ j → j ≤ C → Ic.get i j = .ok (if i = j then 1 else 0)) ∧
      (∀ i j, 1 ≤ i → i ≤ R → 1 ≤ j → j ≤ R → Ir.get i j = .ok (if i = j then 1 else 0)) ∧
      A.mul Ic = .ok P ∧ P.SameAs A ∧ Ir.mul A = .ok Q ∧ Q.SameAs A := by
  obtain ⟨Ic, hc1, hfc, hvc⟩ := Identity_spec (T := T) C
  obtain ⟨Ir, hr1, hfr, hvr⟩ := Identity_spec (T := T) R
  obtain ⟨P, hP1, hfP, _, hvP⟩ := mul_spec A Ic R C C hA hfc
  obtain ⟨Q, hQ1, hfQ, _, hvQ⟩ := mul_spec Ir A R R C hfr hA
  refine ⟨Ic, Ir, P, Q, hc1, hr1, hfc.1, hfc.2.1, hfr.1, hfr.2.1, ?_, ?_, hP1, ?_, hQ1, ?_⟩
  · intro i j hi hi2 hj hj2
    rw [get_of_frame Ic C C i j hfc hi hi2 hj hj2, hvc i j hi hi2 hj hj2]
  · intro i j hi hi2 hj hj2
    rw [get_of_frame Ir R R i j hfr hi hi2 hj hj2, hvr i j hi hi2 hj hj2]
  · apply sameAs_of_toMat P A R C hfP hA
    rw [toMat_mul A Ic P R C C hvP, toMat_eq_one Ic C hvc, Matrix.mul_one]
  · apply sameAs_of_toMat Q A R C hfQ hA
    rw [toMat_mul Ir A Q R R C hvQ, toMat_eq_one Ir R hvr, Matrix.one_mul]

/-- C22 on the `1 × 2` matrix `[[3, 4]]`. -/
theorem Identity_is_neutral_for_mul_witness :
    ∃ Ic Ir P Q : Matrix ℤ, Matrix.Identity 2 = .ok Ic ∧ Matrix.Identity 1 = .ok Ir ∧
      Ic.uRow = 2 ∧ Ic.uCol = 2 ∧ Ir.uRow = 1 ∧ Ir.uCol = 1 ∧
      (∀ i j, 1 ≤ i → i ≤ 2 → 1 ≤ j → j ≤ 2 → Ic.get i j = .ok (if i = j then 1 else 0)) ∧
      (∀ i j, 1 ≤ i → i ≤ 1 → 1 ≤ j → j ≤ 1 → Ir.get i j = .ok (if i = j then 1 else 0)) ∧
      (⟨1, 2, [3, 4, 0, 0], 4⟩ : Matrix ℤ).mul Ic = .ok P ∧
      P.SameAs ⟨1, 2, [3, 4, 0, 0], 4⟩ ∧
      Ir.mul ⟨1, 2, [3, 4, 0, 0], 4⟩ = .ok Q ∧ Q.SameAs ⟨1, 2, [3, 4, 0, 0], 4⟩ :=
  Identity_is_neutral_for_mul ℤ ⟨1, 2, [3, 4, 0, 0], 4⟩ 1 2 ⟨rfl, rfl, by decide⟩

/-- C23: for an `R × K` matrix `A` and a `K × C` matrix `B` over a semiring, `A × B` is the
`R × C` matrix whose entry `(i, j)` is the sum over `k = 1..K` of `A(i, k) · B(k, j)`; the
product fails with a dimension mismatch when the column count of `A` differs from the row
count of `B`. -/
theorem mul_is_the_matrix_product :
    (∀ (T : Type) [Semiring T] (A B : Matrix T) (R K C : Nat), A.Frame R K → B.Frame K C →
      (∀ i k, 1 ≤ i → i ≤ R → 1 ≤ k → k ≤ K → A.get i k = .ok (A.at1 i k)) ∧
      (∀ k j, 1 ≤ k → k ≤ K → 1 ≤ j → j ≤ C → B.get k j = .ok (B.at1 k j)) ∧
      ∃ P, A.mul B = .ok P ∧ P.uRow = R ∧ P.uCol = C ∧
        ∀ i j, 1 ≤ i → i ≤ R → 1 ≤ j → j ≤ C →
          P.get i j = .ok (∑ k in Finset.Icc 1 K, A.at1 i k * B.at1 k j)) ∧
    (∀ (T : Type) [Semiring T] (A B : Matrix T), A.uCol ≠ B.uRow →
      A.mul B = .error Err.DimensionMismatch) := by
  refine ⟨?_, ?_⟩
  · intro T _ A B R K C hA hB
    refine ⟨fun i k hi hi2 hk hk2 => get_of_frame A R K i k hA hi hi2 hk hk2,
      fun k j hk hk2 hj hj2 => get_of_frame B K C k j hB hk hk2 hj hj2, ?_⟩
    obtain ⟨P, h1, hfP, _, hv⟩ := mul_spec A B R K C hA hB
    refine ⟨P, h1, hfP.1, hfP.2.1, fun i j hi hi2 hj hj2 => ?_⟩
    rw [get_of_frame P R C i j hfP hi hi2 hj hj2, hv i j hi hi2 hj hj2, dotUpTo_Icc]
  · intro T _ A B hne
    unfold Matrix.mul
    rw [if_neg hne]

/-- The first part of C23 for `A = [[1, 2]]` and `B = [[3], [4]]`. -/
theorem mul_is_the_matrix_product_witness :
    (∀ i k, 1 ≤ i → i ≤ 1 → 1 ≤ k → k ≤ 2 →
      (⟨1, 2, [1, 2, 0, 0], 4⟩ : Matrix ℤ).get i k =
        .ok ((⟨1, 2, [1, 2, 0, 0], 4⟩ : Matrix ℤ).at1 i k)) ∧
    (∀ k j, 1 ≤ k → k ≤ 2 → 1 ≤ j → j ≤ 1 →
      (⟨2, 1, [3, 4, 0, 0], 4⟩ : Matrix ℤ).get k j =
        .ok ((⟨2, 1, [3, 4, 0, 0], 4⟩ : Matrix ℤ).at1 k j)) ∧
    ∃ P, (⟨1, 2, [1, 2, 0, 0], 4⟩ : Matrix ℤ).mul ⟨2, 1, [3, 4, 0, 0], 4⟩ = .ok P ∧
      P.uRow = 1 ∧ P.uCol = 1 ∧
      ∀ i j, 1 ≤ i → i ≤ 1 → 1 ≤ j → j ≤ 1 →
        P.get i j = .ok (∑ k in Finset.Icc 1 2,
          (⟨1, 2, [1, 2, 0, 0], 4⟩ : Matrix ℤ).at1 i k *
            (⟨2, 1, [3, 4, 0, 0], 4⟩ : Matrix ℤ).at1 k j) :=
  mul_is_the_matrix_product.1 ℤ ⟨1, 2, [1, 2, 0, 0], 4⟩ ⟨2, 1, [3, 4, 0, 0], 4⟩ 1 2 1
    ⟨rfl, rfl, by decide⟩ ⟨rfl, rfl, by decide⟩

/-- C24: on a square matrix `A` over a semiring, `Power(0)` is the identity of the size of
`A` and, for every `n`, `Power(n + 1)` is the product `Power(n) × A`; `Power` fails on every
matrix that is not square. -/
theorem Power_is_repeated_product :
    (∀ (T : Type) [Semiring T] (A : Matrix T) (R : Nat), A.Frame R R →
      (∃ P0 I, A.Power 0 = .ok P0 ∧ Matrix.Identity R = .ok I ∧ P0.SameAs I) ∧
      ∀ n, ∃ Pn Pn1, A.Power n = .ok Pn ∧ A.Power (n + 1) = .ok Pn1 ∧ Pn.mul A = .ok Pn1) ∧
    (∀ (T : Type) [Semiring T] (A : Matrix T) (n : Nat), A.uRow ≠ A.uCol →
      A.Power n = .error Err.NonSquareOperand) := by
  refine ⟨?_, ?_⟩
  · intro T _ A R hA
    constructor
    · obtain ⟨P0, h0, hf0, hv0⟩ := Power_zero A R hA
      obtain ⟨I, hI, hfI, hvI⟩ := Identity_spec (T := T) R
      refine ⟨P0, I, h0, hI, sameAs_of_at1 P0 I R R hf0 hfI ?_⟩
      intro a b ha ha2 hb hb2
      rw [hv0 a b ha ha2 hb hb2, hvI a b ha ha2 hb hb2]
    · intro n
      obtain ⟨Pn, hn, _⟩ := Power_ok A R hA n
      obtain ⟨Pn1, hn1, _⟩ := Power_ok A R hA (n + 1)
      refine ⟨Pn, Pn1, hn, hn1, ?_⟩
      rw [← hn1, Power_succ, hn, ok_bind]
  · intro T _ A n hne
    unfold Matrix.Power
    rw [if_neg hne]

/-- The first part of C24 for the `2 × 2` matrix `[[1, 2], [3, 4]]`. -/
theorem Power_is_repeated_product_witness :
    (∃ P0 I, (⟨2, 2, [1, 2, 3, 4, 0, 0, 0, 0], 8⟩ : Matrix ℤ).Power 0 = .ok P0 ∧
      Matrix.Identity 2 = .ok I ∧ P0.SameAs I) ∧
    ∀ n, ∃ Pn Pn1, (⟨2, 2, [1, 2, 3, 4, 0, 0, 0, 0], 8⟩ : Matrix ℤ).Power n = .ok Pn ∧
      (⟨2, 2, [1, 2, 3, 4, 0, 0, 0, 0], 8⟩ : Matrix ℤ).Power (n + 1) = .ok Pn1 ∧
      Pn.mul ⟨2, 2, [1, 2, 3, 4, 0, 0, 0, 0], 8⟩ = .ok Pn1 :=
  Power_is_repeated_product.1 ℤ ⟨2, 2, [1, 2, 3, 4, 0, 0, 0, 0], 8⟩ 2 ⟨rfl, rfl, by decide⟩

/-- C25: for an `N × N` matrix `A` with `N ≥ 1` and `m`, `n` in `[1, N]`, `MinorOf(m, n)` is
the `(N - 1) × (N - 1)` matrix whose entry `(i, j)` is `A(i', j')` with `i' = i` if `i < m`
and `i + 1` otherwise, `j' = j` if `j < n` and `j + 1` otherwise; `MinorOf` fails on every
matrix that is not square. -/
theorem MinorOf_deletes_row_and_column :
    (∀ (T : Type) [Zero T] (A : Matrix T) (N m n : Nat), 1 ≤ N → A.Frame N N →
      1 ≤ m → m ≤ N → 1 ≤ n → n ≤ N →
      ∃ M, A.MinorOf m n = .ok M ∧ M.uRow = N - 1 ∧ M.uCol = N - 1 ∧
        ∀ i j, 1 ≤ i → i ≤ N - 1 → 1 ≤ j → j ≤ N - 1 →
          ∃ v, A.get (if i < m then i else i + 1) (if j < n then j else j + 1) = .ok v ∧
            M.get i j = .ok v) ∧
    (∀ (T : Type) [Zero T] (A : Matrix T) (m n : Nat), A.uRow ≠ A.uCol →
      A.MinorOf m n = .error Err.NonSquareOperand) := by
  refine ⟨?_, ?_⟩
  · intro T _ A N m n hN hA hm hm2 hn hn2
    obtain ⟨W, rfl⟩ : ∃ W, N = W + 1 := ⟨N - 1, by omega⟩
    obtain ⟨buf, h1, hl, hv⟩ := MinorOf_spec A W m n hA hm hm2 hn hn2
    have hfM := frame_of_copy (T := T) Matrix.defaultIncrement W W buf hl
    refine ⟨_, h1, rfl, rfl, ?_⟩
    intro i j hi hi2 hj hj2
    simp only [Nat.add_sub_cancel] at hi2 hj2
    have hi' : 1 ≤ (if i < m then i else i + 1) ∧ (if i < m then i else i + 1) ≤ W + 1 := by
      split <;> omega
    have hj' : 1 ≤ (if j < n then j else j + 1) ∧ (if j < n then j else j + 1) ≤ W + 1 := by
      split <;> omega
    apply get_pair A _ (W + 1) (W + 1) W W _ _ i j hA hfM hi'.1 hi'.2 hj'.1 hj'.2 hi hi2 hj hj2
    show val buf ((i - 1) * W + (j - 1)) = _
    rw [hv (i - 1) (j - 1) (by omega) (by omega)]
    unfold skipAt
    have e1 : i - 1 + 1 = i := by omega
    have e2 : j - 1 + 1 = j := by omega
    have e3 : i - 1 + 2 = i + 1 := by omega
    have e4 : j - 1 + 2 = j + 1 := by omega
    rw [e1, e2, e3, e4]
  · intro T _ A m n hne
    unfold Matrix.MinorOf
    rw [if_neg hne]

/-- The first part of C25 for the `2 × 2` matrix `[[1, 2], [3, 4]]` and `m = 1`, `n = 2`. -/
theorem MinorOf_deletes_row_and_column_witness :
    ∃ M, (⟨2, 2, [1, 2, 3, 4, 0, 0, 0, 0], 8⟩ : Matrix ℤ).MinorOf 1 2 = .ok M ∧
      M.uRow = 2 - 1 ∧ M.uCol = 2 - 1 ∧
      ∀ i j, 1 ≤ i → i ≤ 2 - 1 → 1 ≤ j → j ≤ 2 - 1 →
        ∃ v, (⟨2, 2, [1, 2, 3, 4, 0, 0, 0, 0], 8⟩ : Matrix ℤ).get
            (if i < 1 then i else i + 1) (if j < 2 then j else j + 1) = .ok v ∧
          M.get i j = .ok v :=
  MinorOf_deletes_row_and_column.1 ℤ ⟨2, 2, [1, 2, 3, 4, 0, 0, 0, 0], 8⟩ 2 1 2 (by decide)
    ⟨rfl, rfl, by decide⟩ (by decide) (by decide) (by decide) (by decide)

/-- C26: `ElemAt(row, col)` fails exactly when `row` is outside `[1, R]` or `col` is outside
`[1, C]`, and otherwise designates the buffer element at offset `(row - 1) * C + (col - 1)`;
`ElemAt0(row, col)` fails exactly when `row ≥ R` or `col ≥ C`, and otherwise designates the
element at offset `row * C + col`; so `ElemAt0(i, j)` is `ElemAt(i + 1, j + 1)`. -/
theorem ElemAt_is_checked_and_row_major (T : Type) (m : Matrix T) (row col : Nat) :
    (m.ElemAt row col = .error Err.IndexOutOfRange ↔
      ¬ (1 ≤ row ∧ row ≤ m.uRow ∧ 1 ≤ col ∧ col ≤ m.uCol)) ∧
    (1 ≤ row ∧ row ≤ m.uRow ∧ 1 ≤ col ∧ col ≤ m.uCol →
      m.ElemAt row col = .ok ((row - 1) * m.uCol + (col - 1)) ∧
      m.get row col = load m.pData ((row - 1) * m.uCol + (col - 1))) ∧
    (m.ElemAt0 row col = .error Err.IndexOutOfRange ↔ ¬ (row < m.uRow ∧ col < m.uCol)) ∧
    (row < m.uRow ∧ col < m.uCol → m.ElemAt0 row col = .ok (row * m.uCol + col)) ∧
    m.ElemAt0 row col = m.ElemAt (row + 1) (col + 1) := by
  have e1 : ∀ (h : 1 ≤ row ∧ row ≤ m.uRow ∧ 1 ≤ col ∧ col ≤ m.uCol),
      m.ElemAt row col = .ok ((row - 1) * m.uCol + (col - 1)) := by
    intro h
    unfold Matrix.ElemAt
    rw [if_pos ⟨by omega, by omega, h.2.1, h.2.2.2⟩]
    have : (row - 1) * m.uCol + col - 1 = (row - 1) * m.uCol + (col - 1) := by omega
    rw [this]
  have e2 : ∀ (h : row < m.uRow ∧ col < m.uCol),
      m.ElemAt0 row col = .ok (row * m.uCol + col) := by
    intro h
    unfold Matrix.ElemAt0
    rw [if_pos h]
  refine ⟨?_, ?_, ?_, e2, ?_⟩
  · constructor
    · intro herr hin
      rw [e1 hin] at herr
      cases herr
    · intro hout
      unfold Matrix.ElemAt
      rw [if_neg (fun h => hout ⟨by omega, h.2.2.1, by omega, h.2.2.2⟩)]
  · intro hin
    refine ⟨e1 hin, ?_⟩
    unfold Matrix.get
    rw [e1 hin, ok_bind]
  · constructor
    · intro herr hin
      rw [e2 hin] at herr
      cases herr
    · intro hout
      unfold Matrix.ElemAt0
      rw [if_neg hout]
  · by_cases c : row < m.uRow ∧ col < m.uCol
    · rw [e2 c]
      unfold Matrix.ElemAt
      rw [if_pos ⟨by omega, by omega, by omega, by omega⟩]
      simp only [Nat.add_sub_cancel]
      rfl
    · unfold Matrix.ElemAt0 Matrix.ElemAt
      rw [if_neg c, if_neg (fun h => c ⟨by omega, by omega⟩)]

/-- C26 at the last element of the `2 × 3` matrix `[[1, 2, 3], [4, 5, 6]]`. -/
theorem ElemAt_is_checked_and_row_major_witness :
    (⟨2, 3, [1, 2, 3, 4, 5, 6, 0, 0, 0, 0, 0, 0], 12⟩ : Matrix ℤ).ElemAt 2 3 =
        .ok ((2 - 1) * 3 + (3 - 1)) ∧
      (⟨2, 3, [1, 2, 3, 4, 5, 6, 0, 0, 0, 0, 0, 0], 12⟩ : Matrix ℤ).get 2 3 =
        load [1, 2, 3, 4, 5, 6, 0, 0, 0, 0, 0, 0] ((2 - 1) * 3 + (3 - 1)) :=
  (ElemAt_is_checked_and_row_major ℤ ⟨2, 3, [1, 2, 3, 4, 5, 6, 0, 0, 0, 0, 0, 0], 12⟩ 2 3).2.1
    ⟨by decide, by decide, by decide, by decide⟩

/-- C27 (the code departs from the claim): on the `2 × 2` identity, whose capacity 8 holds
the 6 elements of the result, `InsertRow(3, [5, 6], 2)` and `InsertColumn(3, [5, 6], 2)` call
`Expand` and return a matrix of capacity 16.  On a `2 × 2` matrix of capacity 4 (obtained
from `Create(1, 2)` by one `AddRow`, or from `Create(2, 1)` by one `AddColumn`), which cannot
hold 6 elements, the same calls do not expand and store outside the buffer. -/
theorem Expand_test_is_inverted :
    ∀ uninit : Nat → ℚ, ∃ I Mr Mc Fr Fc : Matrix ℚ,
      Matrix.Identity 2 = .ok I ∧ I.uCapacity = 8 ∧
      I.InsertRow 2 false uninit 3 [5, 6] 2 = .ok Mr ∧ Mr.uCapacity = 16 ∧
      I.InsertColumn 2 false uninit 3 [5, 6] 2 = .ok Mc ∧ Mc.uCapacity = 16 ∧
      (Matrix.ctor 2 1 2 : Matrix ℚ).AddRow 2 false uninit [3, 4] 2 = .ok Fr ∧
      Fr.uRow = 2 ∧ Fr.uCol = 2 ∧ Fr.uCapacity = 4 ∧
      Fr.InsertRow 2 false uninit 3 [5, 6] 2 = .error Err.OutOfBuffer ∧
      (Matrix.ctor 2 2 1 : Matrix ℚ).AddColumn 2 false uninit [3, 4] 2 = .ok Fc ∧
      Fc.uRow = 2 ∧ Fc.uCol = 2 ∧ Fc.uCapacity = 4 ∧
      Fc.InsertColumn 2 false uninit 3 [5, 6] 2 = .error Err.OutOfBuffer :=
  fun uninit => ⟨⟨2, 2, [1, 0, 0, 1, 0, 0, 0, 0], 8⟩,
    ⟨3, 2, [1, 0, 0, 1, 5, 6, 0, 0, uninit 8, uninit 9, uninit 10, uninit 11, uninit 12,
      uninit 13, uninit 14, uninit 15], 16⟩,
    ⟨2, 3, [1, 0, 5, 0, 1, 6, 0, 0, uninit 8, uninit 9, uninit 10, uninit 11, uninit 12,
      uninit 13, uninit 14, uninit 15], 16⟩,
    ⟨2, 2, [0, 0, 3, 4], 4⟩, ⟨2, 2, [0, 3, 0, 4], 4⟩,
    rfl, rfl, rfl, rfl, rfl, rfl, rfl, rfl, rfl, rfl, rfl, rfl, rfl, rfl, rfl, rfl⟩

/-- C28: `RowReduce` maps every square `R × R` matrix over a field with nonzero determinant to
the identity: the result has `1` on the diagonal and `0` elsewhere, and in the forward pass
the pivot search of every column `i` finds a nonzero element in a row `p` of `i..R`. -/
theorem RowReduce_of_invertible_is_identity (T : Type) [Field T] [DecidableEq T]
    (A : Matrix T) (R : Nat) (hA : A.Frame R R) (hdet : Matrix.det (A.toMat R R) ≠ 0) :
    (∃ B I, A.RowReduce = .ok B ∧ Matrix.Identity R = .ok I ∧ B.SameAs I ∧
      ∀ i j, 1 ≤ i → i ≤ R → 1 ≤ j → j ≤ R → B.get i j = .ok (if i = j then 1 else 0)) ∧
    (∃ r, Matrix.ctorCopy Matrix.defaultIncrement A = .ok r ∧
      ∀ i, 1 ≤ i → i ≤ R →
        ∃ ri p v, forUp Matrix.forwardStep 1 (i - 1) r = .ok ri ∧
          ri.pivotSearch i (ri.uRow + 1) i = .ok p ∧ i ≤ p ∧ p ≤ R ∧
          ri.get p i = .ok v ∧ v ≠ 0) := by
  constructor
  · obtain ⟨B, h1, hfB, hv⟩ := RowReduce_invertible A R hA hdet
    obtain ⟨I, hI, hfI, hvI⟩ := Identity_spec (T := T) R
    refine ⟨B, I, h1, hI, sameAs_of_at1 B I R R hfB hfI ?_, ?_⟩
    · intro a b ha ha2 hb hb2
      rw [hv a b ha ha2 hb hb2, hvI a b ha ha2 hb hb2]
    · intro i j hi hi2 hj hj2
      rw [get_of_frame B R R i j hfB hi hi2 hj hj2, hv i j hi hi2 hj hj2]
  · obtain ⟨buf, hc1, hc2, hc3⟩ := ctorCopy_spec Matrix.defaultIncrement A R R hA
    have hf0 := frame_of_copy (T := T) Matrix.defaultIncrement R R buf hc2
    have hmat : Matrix.toMat (⟨R, R, buf,
        Matrix.uCapacityIncrement Matrix.defaultIncrement * R * R⟩ : Matrix T) R R =
        A.toMat R R := by
      apply toMat_of_val_eq A _ R R hA.2.1 rfl
      intro idx hidx
      show val buf idx = _
      rw [hc3 idx, if_pos hidx]
    refine ⟨_, hc1, fun i hi hi2 => ?_⟩
    obtain ⟨mi, p, h1, h2, h3, h4, v, h5, h6⟩ := forward_pivot _ R i hf0
      (by rw [hmat]; exact hdet) hi hi2
    exact ⟨mi, p, v, h1, h2, h3, h4, h5, h6⟩

/-- C28 on the `2 × 2` matrix `[[1, 2], [3, 4]]`, of determinant `-2`. -/
theorem RowReduce_of_invertible_is_identity_witness :
    (∃ B I, (⟨2, 2, [1, 2, 3, 4, 0, 0, 0, 0], 8⟩ : Matrix ℚ).RowReduce = .ok B ∧
      Matrix.Identity 2 = .ok I ∧ B.SameAs I ∧
      ∀ i j, 1 ≤ i → i ≤ 2 → 1 ≤ j → j ≤ 2 → B.get i j = .ok (if i = j then 1 else 0)) ∧
    (∃ r, Matrix.ctorCopy Matrix.defaultIncrement
        (⟨2, 2, [1, 2, 3, 4, 0, 0, 0, 0], 8⟩ : Matrix ℚ) = .ok r ∧
      ∀ i, 1 ≤ i → i ≤ 2 →
        ∃ ri p v, forUp Matrix.forwardStep 1 (i - 1) r = .ok ri ∧
          ri.pivotSearch i (ri.uRow + 1) i = .ok p ∧ i ≤ p ∧ p ≤ 2 ∧
          ri.get p i = .ok v ∧ v ≠ 0) :=
  RowReduce_of_invertible_is_identity ℚ ⟨2, 2, [1, 2, 3, 4, 0, 0, 0, 0], 8⟩ 2
    ⟨rfl, rfl, by decide⟩ (by
      rw [Matrix.det_fin_two]
      simp [Matrix.toMat, Matrix.at1, val]
      norm_num)

/-- C29: on a square `N × N` matrix with `N ≥ 1` over a field, `Invertible()` returns true
exactly when `Determinant(A).Value()` is not zero, and `Rank()` returns `N` in exactly the
same case. -/
theorem Invertible_iff_Value_ne_zero (T : Type) [Field T] [DecidableEq T] (A : Matrix T)
    (N : Nat) (hN : 1 ≤ N) (hA : A.Frame N N) :
    ∃ (b : Bool) (k : Nat) (d : Determinant T) (v : T),
      A.Invertible = .ok b ∧ A.Rank = .ok k ∧ Determinant.ofMatrix A = .ok d ∧
      d.Value = .ok v ∧ (b = true ↔ v ≠ 0) ∧ (k = N ↔ v ≠ 0) := by
  obtain ⟨k, hk, hiff⟩ := Rank_full_iff A N hA
  obtain ⟨d, hd, hv⟩ := Value_of_frame A N hN hA
  refine ⟨decide (k = A.uRow), k, d, _, Invertible_of_rank A k (by rw [hA.1, hA.2.1]) hk, hk,
    hd, hv, ?_, hiff⟩
  rw [hA.1, ← hiff]
  simp

/-- C29 on the `2 × 2` matrix `[[1, 2], [3, 4]]`. -/
theorem Invertible_iff_Value_ne_zero_witness :
    ∃ (b : Bool) (k : Nat) (d : Determinant ℚ) (v : ℚ),
      (⟨2, 2, [1, 2, 3, 4, 0, 0, 0, 0], 8⟩ : Matrix ℚ).Invertible = .ok b ∧
      (⟨2, 2, [1, 2, 3, 4, 0, 0, 0, 0], 8⟩ : Matrix ℚ).Rank = .ok k ∧
      Determinant.ofMatrix (⟨2, 2, [1, 2, 3, 4, 0, 0, 0, 0], 8⟩ : Matrix ℚ) = .ok d ∧
      d.Value = .ok v ∧ (b = true ↔ v ≠ 0) ∧ (k = 2 ↔ v ≠ 0) :=
  Invertible_iff_Value_ne_zero ℚ ⟨2, 2, [1, 2, 3, 4, 0, 0, 0, 0], 8⟩ 2 (by decide)
    ⟨rfl, rfl, by decide⟩

/-- C30, counterexample for `Invertible()`: on the `2 × 1` zero matrix `RowReduce()` and
`Rank()` fail with an index out of range, but `Invertible()` does not fail: it returns
false, since it tests the shape before it calls `Rank()`. -/
theorem Invertible_of_tall_does_not_fail :
    (Matrix.ctor 2 2 1 : Matrix ℚ).RowReduce = .error Err.IndexOutOfRange ∧
      (Matrix.ctor 2 2 1 : Matrix ℚ).Rank = .error Err.IndexOutOfRange ∧
      (Matrix.ctor 2 2 1 : Matrix ℚ).Invertible = .ok false := by
  refine ⟨by decide!, by decide!, by decide!⟩

/-- C30, amended: on an `R × C` matrix over a field with `R ≤ C`, `RowReduce`, `Rank` and
`Invertible` complete.  With `R > C`, `RowReduce` and `Rank` fail with an index out of range:
the forward pass handles the columns `1..C` and the pivot search of the next step accesses
`ElemAt(C + 1, C + 1)`; `Invertible` returns false without reducing.  In no case does
`RowReduce` fail on the scale factor of `RowScaling`, and `Invertible` returns false on
every matrix that is not square. -/
theorem RowReduce_completes_iff_not_tall (T : Type) [Field T] [DecidableEq T] (A : Matrix T)
    (R C : Nat) (hA : A.Frame R C) :
    (R ≤ C → (∃ B, A.RowReduce = .ok B) ∧ (∃ k, A.Rank = .ok k) ∧
      ∃ b, A.Invertible = .ok b) ∧
    (C < R → A.RowReduce = .error Err.IndexOutOfRange ∧
      A.Rank = .error Err.IndexOutOfRange ∧ A.Invertible = .ok false ∧
      ∃ r rC, Matrix.ctorCopy Matrix.defaultIncrement A = .ok r ∧
        forUp Matrix.forwardStep 1 C r = .ok rC ∧
        rC.ElemAt (C + 1) (C + 1) = .error Err.IndexOutOfRange ∧
        Matrix.forwardStep (C + 1) rC = .error Err.IndexOutOfRange) ∧
    A.RowReduce ≠ .error Err.InvalidScaleFactor ∧
    (R ≠ C → A.Invertible = .ok false) := by
  have hwide : R ≤ C → (∃ B, A.RowReduce = .ok B) ∧ (∃ k, A.Rank = .ok k) ∧
      ∃ b, A.Invertible = .ok b := by
    intro hRC
    obtain ⟨B, h1, hfB, _, _, _⟩ := RowReduce_spec A R C hA hRC
    obtain ⟨k, hk⟩ := RankOfReducedMatrix_ok B R C hfB
    have hrank : A.Rank = .ok k := by
      unfold Matrix.Rank
      rw [h1, ok_bind, hk]
    refine ⟨⟨B, h1⟩, ⟨k, hrank⟩, ?_⟩
    by_cases hsq : A.uRow = A.uCol
    · exact ⟨_, Invertible_of_rank A k hsq hrank⟩
    · refine ⟨false, ?_⟩
      unfold Matrix.Invertible
      rw [if_pos hsq]
  have htall : C < R → A.RowReduce = .error Err.IndexOutOfRange := RowReduce_tall A R C hA
  refine ⟨hwide, ?_, ?_, ?_⟩
  · intro hRC
    refine ⟨htall hRC, ?_, ?_, RowReduce_tall_access A R C hA hRC⟩
    · unfold Matrix.Rank
      rw [htall hRC]
      rfl
    · unfold Matrix.Invertible
      rw [if_pos (by rw [hA.1, hA.2.1]; omega)]
  · by_cases hRC : R ≤ C
    · obtain ⟨⟨B, h1⟩, _⟩ := hwide hRC
      rw [h1]
      intro h
      cases h
    · rw [htall (by omega)]
      intro h
      cases h
  · intro hne
    unfold Matrix.Invertible
    rw [if_pos (by rw [hA.1, hA.2.1]; exact hne)]

/-- The amended C30 on the `2 × 2` matrix `[[1, 2], [3, 4]]`. -/
theorem RowReduce_completes_iff_not_tall_witness :
    (∃ B, (⟨2, 2, [1, 2, 3, 4, 0, 0, 0, 0], 8⟩ : Matrix ℚ).RowReduce = .ok B) ∧
      (∃ k, (⟨2, 2, [1, 2, 3, 4, 0, 0, 0, 0], 8⟩ : Matrix ℚ).Rank = .ok k) ∧
      ∃ b, (⟨2, 2, [1, 2, 3, 4, 0, 0, 0, 0], 8⟩ : Matrix ℚ).Invertible = .ok b :=
  (RowReduce_completes_iff_not_tall ℚ ⟨2, 2, [1, 2, 3, 4, 0, 0, 0, 0], 8⟩ 2 2
    ⟨rfl, rfl, by decide⟩).1 (by decide)

/-! ## The reordering pass, and insertion into an empty matrix -/

section FinalLemmas

variable {T : Type}

/-- The three passes of `RowReduce` on a matrix with at most as many rows as columns: the
copy, the result of the forward pass and the result of the backward pass, which has the
reduced shape and is returned by the reordering pass as it is. -/
theorem RowReduce_passes [Field T] [DecidableEq T] (A : Matrix T) (R C : Nat)
    (hf : A.Frame R C) (hRC : R ≤ C) :
    ∃ r r1 r2 : Matrix T, Matrix.ctorCopy Matrix.defaultIncrement A = .ok r ∧
      forUp Matrix.forwardStep 1 r.uRow r = .ok r1 ∧
      forDown Matrix.backwardStep r1.uRow r1 = .ok r2 ∧
      r2.Frame R C ∧ Reduced r2.at1 R ∧
      Matrix.reorderLoop (r2.uRow + 1) 1 r2 = .ok r2 := by
  obtain ⟨buf, hc1, hc2, _⟩ := ctorCopy_spec Matrix.defaultIncrement A R C hf
  have hf0 := frame_of_copy (T := T) Matrix.defaultIncrement R C buf hc2
  obtain ⟨m1, h1, hf1, _, _, he1⟩ := forward_pass _ R C R hf0 (Nat.le_refl _) hRC
  obtain ⟨m2, h2, hf2, _, _, hr2⟩ := backward_pass m1 R C hf1 hRC he1
  have h3 := reorderLoop_reduced m2 R C hf2 hRC hr2 (R + 1) 1 (Nat.le_refl _) (by omega) (by omega)
  refine ⟨_, m1, m2, hc1, h1, ?_, hf2, hr2, ?_⟩
  · rw [hf1.1]; exact h2
  · rw [hf2.1]; exact h3

/-- The optional call of `Expand` in the insertions keeps the row and column counts. -/
theorem expand_dims (ci : Nat) (uninit : Nat → T) (m m1 : Matrix T) (c : Prop) [Decidable c]
    (h : (if c then Matrix.Expand ci uninit m else .ok m) = .ok m1) :
    m1.uRow = m.uRow ∧ m1.uCol = m.uCol := by
  by_cases hc : c
  · rw [if_pos hc] at h
    unfold Matrix.Expand at h
    cases hm : memcpy_s ((List.range (Matrix.uCapacityIncrement ci * m.uCapacity)).map uninit) 0
        m.pData 0 m.uCapacity with
    | error e =>
      simp only [hm] at h
      cases h
    | ok buf =>
      simp only [hm] at h
      cases h
      exact ⟨rfl, rfl⟩
  · rw [if_neg hc] at h
    cases h
    exact ⟨rfl, rfl⟩

/-- `InsertRow` fails on a matrix without rows or without columns. -/
theorem InsertRow_empty [Zero T] (ci : Nat) (startAt0 : Bool) (uninit : Nat → T)
    (m : Matrix T) (pos : Nat) (data : List T) (len : Nat) (hz : m.uRow = 0 ∨ m.uCol = 0) :
    (∃ e, m.InsertRow ci startAt0 uninit pos data len = .error e) ∧
      (m.uCapacity ≤ m.pData.length →
        m.InsertRow ci startAt0 uninit pos data len = .error Err.IndexOutOfRange) := by
  unfold Matrix.InsertRow
  simp only
  by_cases hp : (if startAt0 = true then pos + 1 else pos) ≤ m.uRow + 1 ∧
      (if startAt0 = true then pos + 1 else pos) ≠ 0
  · rw [if_pos hp]
    have hacc : ∀ m1 : Matrix T, m1.uRow = m.uRow → m1.uCol = m.uCol →
        m1.ElemAt m1.uRow m1.uCol = .error Err.IndexOutOfRange := by
      intro m1 h1 h2
      unfold Matrix.ElemAt
      rw [if_neg (by rw [h1, h2]; omega)]
    constructor
    · cases hm : (if (m.uRow + 1) * m.uCol < m.uCapacity then Matrix.Expand ci uninit m
          else .ok m) with
      | error e => exact ⟨e, rfl⟩
      | ok m1 =>
        obtain ⟨h1, h2⟩ := expand_dims ci uninit m m1 _ hm
        rw [ok_bind, hacc m1 h1 h2]
        exact ⟨_, rfl⟩
    · intro hcap
      by_cases hc : (m.uRow + 1) * m.uCol < m.uCapacity
      · obtain ⟨buf, hb, _, _⟩ := Expand_spec ci uninit m hcap
        have hx := hacc ⟨m.uRow, m.uCol, buf, m.uCapacity * Matrix.uCapacityIncrement ci⟩
          rfl rfl
        rw [if_pos hc, hb, ok_bind, hx]
        rfl
      · rw [if_neg hc, ok_bind, hacc m rfl rfl]
        rfl
  · rw [if_neg hp]
    exact ⟨⟨_, rfl⟩, fun _ => rfl⟩

/-- `InsertColumn` fails on a matrix without rows or without columns. -/
theorem InsertColumn_empty [Zero T] (ci : Nat) (startAt0 : Bool) (uninit : Nat → T)
    (m : Matrix T) (pos : Nat) (data : List T) (len : Nat) (hz : m.uRow = 0 ∨ m.uCol = 0) :
    (∃ e, m.InsertColumn ci startAt0 uninit pos data len = .error e) ∧
      (m.uCapacity ≤ m.pData.length →
        m.InsertColumn ci startAt0 uninit pos data len = .error Err.IndexOutOfRange) := by
  unfold Matrix.InsertColumn
  simp only
  by_cases hp : (if startAt0 = true then pos + 1 else pos) ≤ m.uCol + 1 ∧
      (if startAt0 = true then pos + 1 else pos) ≠ 0
  · rw [if_pos hp]
    have hacc : ∀ m1 : Matrix T, m1.uRow = m.uRow → m1.uCol = m.uCol →
        m1.ElemAt m1.uRow m1.uCol = .error Err.IndexOutOfRange := by
      intro m1 h1 h2
      unfold Matrix.ElemAt
      rw [if_neg (by rw [h1, h2]; omega)]
    constructor
    · cases hm : (if m.uRow * (m.uCol + 1) < m.uCapacity then Matrix.Expand ci uninit m
          else .ok m) with
      | error e => exact ⟨e, rfl⟩
      | ok m1 =>
        obtain ⟨h1, h2⟩ := expand_dims ci uninit m m1 _ hm
        rw [ok_bind, hacc m1 h1 h2]
        exact ⟨_, rfl⟩
    · intro hcap
      by_cases hc : m.uRow * (m.uCol + 1) < m.uCapacity
      · obtain ⟨buf, hb, _, _⟩ := Expand_spec ci uninit m hcap
        have hx := hacc ⟨m.uRow, m.uCol, buf, m.uCapacity * Matrix.uCapacityIncrement ci⟩
          rfl rfl
        rw [if_pos hc, hb, ok_bind, hx]
        rfl
      · rw [if_neg hc, ok_bind, hacc m rfl rfl]
        rfl
  · rw [if_neg hp]
    exact ⟨⟨_, rfl⟩, fun _ => rfl⟩

end FinalLemmas

/-! ## Claims on the reordering pass and on insertion into an empty matrix -/

/-- C31: on an `R × C` matrix over a field with `R ≤ C`, after the forward and the backward
pass every column `i` whose diagonal element is zero is zero in all the rows `i..R`; the
scan of the reordering pass then runs to the end without an interchange, the pass returns
the matrix as it is, and `RowReduce` returns what the forward pass followed by the backward
pass alone returns. -/
theorem reordering_pass_changes_nothing (T : Type) [Field T] [DecidableEq T] (A : Matrix T)
    (R C : Nat) (hA : A.Frame R C) (hRC : R ≤ C) :
    ∃ r r1 r2 : Matrix T, Matrix.ctorCopy Matrix.defaultIncrement A = .ok r ∧
      forUp Matrix.forwardStep 1 r.uRow r = .ok r1 ∧
      forDown Matrix.backwardStep r1.uRow r1 = .ok r2 ∧
      r2.uRow = R ∧ r2.uCol = C ∧
      (∀ i, 1 ≤ i → i ≤ R → r2.get i i = .ok 0 →
        ∀ a, i ≤ a → a ≤ R → r2.get a i = .ok 0) ∧
      (∀ i, 1 ≤ i → i ≤ R → r2.get i i = .ok 0 →
        Matrix.reorderScan i (r2.uRow + 1) i r2 = .ok (r2.uRow + 1, r2)) ∧
      Matrix.reorderLoop (r2.uRow + 1) 1 r2 = .ok r2 ∧
      A.RowReduce = .ok r2 ∧ A.RowReduceWithoutReordering = .ok r2 ∧
      A.RowReduce = A.RowReduceWithoutReordering := by
  obtain ⟨r, r1, r2, hc, h1, h2, hf2, hred, h3⟩ := RowReduce_passes A R C hA hRC
  have hzero : ∀ i, 1 ≤ i → i ≤ R → r2.get i i = .ok 0 →
      ∀ a, i ≤ a → a ≤ R → r2.at1 a i = 0 := by
    intro i hi hi2 hd a ha ha2
    rw [get_of_frame r2 R C i i hf2 hi hi2 hi (by omega)] at hd
    have hd0 : r2.at1 i i = 0 := by injection hd
    by_cases e : a = i
    · rw [e]; exact hd0
    · exact (hred i hi hi2).1 a (by omega) ha2
  have hrr : A.RowReduce = .ok r2 := by
    unfold Matrix.RowReduce
    rw [hc, ok_bind, h1, ok_bind, h2, ok_bind, h3]
  have hrw : A.RowReduceWithoutReordering = .ok r2 := by
    unfold Matrix.RowReduceWithoutReordering
    rw [hc, ok_bind, h1, ok_bind, h2]
  refine ⟨r, r1, r2, hc, h1, h2, hf2.1, hf2.2.1, ?_, ?_, h3, hrr, hrw, by rw [hrr, hrw]⟩
  · intro i hi hi2 hd a ha ha2
    rw [get_of_frame r2 R C a i hf2 (by omega) ha2 hi (by omega),
      hzero i hi hi2 hd a ha ha2]
  · intro i hi hi2 hd
    rw [hf2.1]
    exact reorderScan_none r2 R C i hf2 hi (by omega) (R + 1) i hi (by omega) (by omega)
      (hzero i hi hi2 hd)

/-- C31 on the `2 × 2` matrix `[[0, 1], [0, 1]]`, whose first column has no pivot. -/
theorem reordering_pass_changes_nothing_witness :
    ∃ r r1 r2 : Matrix ℚ, Matrix.ctorCopy Matrix.defaultIncrement
        (⟨2, 2, [0, 1, 0, 1, 0, 0, 0, 0], 8⟩ : Matrix ℚ) = .ok r ∧
      forUp Matrix.forwardStep 1 r.uRow r = .ok r1 ∧
      forDown Matrix.backwardStep r1.uRow r1 = .ok r2 ∧
      r2.uRow = 2 ∧ r2.uCol = 2 ∧
      (∀ i, 1 ≤ i → i ≤ 2 → r2.get i i = .ok 0 →
        ∀ a, i ≤ a → a ≤ 2 → r2.get a i = .ok 0) ∧
      (∀ i, 1 ≤ i → i ≤ 2 → r2.get i i = .ok 0 →
        Matrix.reorderScan i (r2.uRow + 1) i r2 = .ok (r2.uRow + 1, r2)) ∧
      Matrix.reorderLoop (r2.uRow + 1) 1 r2 = .ok r2 ∧
      (⟨2, 2, [0, 1, 0, 1, 0, 0, 0, 0], 8⟩ : Matrix ℚ).RowReduce = .ok r2 ∧
      (⟨2, 2, [0, 1, 0, 1, 0, 0, 0, 0], 8⟩ : Matrix ℚ).RowReduceWithoutReordering = .ok r2 ∧
      (⟨2, 2, [0, 1, 0, 1, 0, 0, 0, 0], 8⟩ : Matrix ℚ).RowReduce =
        (⟨2, 2, [0, 1, 0, 1, 0, 0, 0, 0], 8⟩ : Matrix ℚ).RowReduceWithoutReordering :=
  reordering_pass_changes_nothing ℚ ⟨2, 2, [0, 1, 0, 1, 0, 0, 0, 0], 8⟩ 2 2
    ⟨rfl, rfl, by decide⟩ (by decide)

/-- C32: on a matrix that has no rows or no columns, `InsertRow`, `InsertColumn`, `AddRow`
and `AddColumn` fail for every position and every data: the access `ElemAt(R, C)` to the
last element is out of range.  When the buffer holds `uCapacity` elements, as it does for
every matrix built by the class, the failure is that index out of range. -/
theorem Insert_fails_on_empty_matrix (T : Type) [Zero T] (ci : Nat) (startAt0 : Bool)
    (uninit : Nat → T) (m : Matrix T) (pos : Nat) (data : List T) (len : Nat)
    (hz : m.uRow = 0 ∨ m.uCol = 0) :
    m.ElemAt m.uRow m.uCol = .error Err.IndexOutOfRange ∧
    ((∃ e, m.InsertRow ci startAt0 uninit pos data len = .error e) ∧
      (∃ e, m.InsertColumn ci startAt0 uninit pos data len = .error e) ∧
      (∃ e, m.AddRow ci startAt0 uninit data len = .error e) ∧
      (∃ e, m.AddColumn ci startAt0 uninit data len = .error e)) ∧
    (m.uCapacity ≤ m.pData.length →
      m.InsertRow ci startAt0 uninit pos data len = .error Err.IndexOutOfRange ∧
      m.InsertColumn ci startAt0 uninit pos data len = .error Err.IndexOutOfRange ∧
      m.AddRow ci startAt0 uninit data len = .error Err.IndexOutOfRange ∧
      m.AddColumn ci startAt0 uninit data len = .error Err.IndexOutOfRange) := by
  have hr := fun p => InsertRow_empty ci startAt0 uninit m p data len hz
  have hcl := fun p => InsertColumn_empty ci startAt0 uninit m p data len hz
  refine ⟨?_, ⟨(hr pos).1, (hcl pos).1, ?_, ?_⟩, fun hcap =>
    ⟨(hr pos).2 hcap, (hcl pos).2 hcap, ?_, ?_⟩⟩
  · unfold Matrix.ElemAt
    rw [if_neg (by omega)]
  · unfold Matrix.AddRow
    split
    · exact (hr _).1
    · exact (hr _).1
  · unfold Matrix.AddColumn
    split
    · exact (hcl _).1
    · exact (hcl _).1
  · unfold Matrix.AddRow
    split
    · exact (hr _).2 hcap
    · exact (hr _).2 hcap
  · unfold Matrix.AddColumn
    split
    · exact (hcl _).2 hcap
    · exact (hcl _).2 hcap

/-- C32 on the default-constructed `0 × 0` matrix, with the position `1 = R + 1 = C + 1`. -/
theorem Insert_fails_on_empty_matrix_witness :
    (Matrix.ctor 2 0 0 : Matrix ℤ).InsertRow 2 false (fun _ => 0) 1 [5] 1 =
        .error Err.IndexOutOfRange ∧
      (Matrix.ctor 2 0 0 : Matrix ℤ).InsertColumn 2 false (fun _ => 0) 1 [5] 1 =
        .error Err.IndexOutOfRange ∧
      (Matrix.ctor 2 0 0 : Matrix ℤ).AddRow 2 false (fun _ => 0) [5] 1 =
        .error Err.IndexOutOfRange ∧
      (Matrix.ctor 2 0 0 : Matrix ℤ).AddColumn 2 false (fun _ => 0) [5] 1 =
        .error Err.IndexOutOfRange :=
  (Insert_fails_on_empty_matrix ℤ 2 false (fun _ => 0) (Matrix.ctor 2 0 0) 1 [5] 1
    (Or.inl rfl)).2.2 (by decide)

end MinMatrix
